import Mathlib

/-!
# Verification of the Steiner Forest Problem solver core

Shallow embedding, in Lean 4, of the CSR graph / DSU / shortest-path engine /
solution–move model / GRASP heuristics of the SteinerForestProblemSolver
repository, together with proofs and refutations of its specification claims.

Conventions used throughout the embedding:
* C++ `float` values are modelled as exact rationals (`ℚ`).
* C++ `int` indices are modelled as `Nat`; the `-1` sentinel stored in
  `reverseEdgePtr` and in Dijkstra predecessor records is modelled as
  `Option` (`none` ↔ `-1`).
* C++ functions that can throw, or that would run into undefined behaviour
  (out-of-bounds access), or whose loops are modelled with explicit fuel,
  return `Option`; `none` means "the C++ run would throw / be UB / needs more
  fuel than supplied".  All theorems about such functions are stated on
  `= some` runs.
* `std::vector` is modelled as `List`, with `List.getD`/`List.set` for
  indexed access and update.
-/

namespace SFP

/-- An edge of the CSR graph (struct `Edge` of `src/utils/Graph.hpp`):
source node, target node, index of the reverse edge (`none` ↔ `-1`),
weight and active flag. -/
structure Edge where
  source : Nat
  target : Nat
  reverseEdgePtr : Option Nat
  weight : ℚ
  active : Bool
deriving DecidableEq, Repr

instance : Inhabited Edge := ⟨⟨0, 0, none, 0, false⟩⟩

/-- `edge.active = status;` — an edge with its active flag overwritten. -/
def Edge.withActive (e : Edge) (status : Bool) : Edge :=
  { e with active := status }

/-- `edge.weight = w;` — an edge with its weight overwritten. -/
def Edge.withWeight (e : Edge) (w : ℚ) : Edge :=
  { e with weight := w }

/-- The CSR graph (class `Graph` of `src/utils/Graph.hpp`): row pointers,
contiguous edge array, cached total weight, bidirectionality flag and the
node/edge counts. -/
structure Graph where
  ptrs : List Nat
  edges : List Edge
  totalWeight : ℚ
  isBidirectional : Bool
  nNodes : Nat
  nEdges : Nat
deriving DecidableEq, Repr

instance : Inhabited Graph := ⟨⟨[], [], 0, true, 0, 0⟩⟩

/-- One step of the adjacency-list construction: insert the edge forward,
and also backward when the graph is bidirectional. -/
def buildAdjStep (isBidirectional : Bool) (adj : List (List (Nat × ℚ)))
    (e : Nat × Nat × ℚ) : List (List (Nat × ℚ)) :=
  let adj1 := adj.set e.1 (adj.getD e.1 [] ++ [(e.2.1, e.2.2)])
  if isBidirectional then
    adj1.set e.2.1 (adj1.getD e.2.1 [] ++ [(e.1, e.2.2)])
  else adj1

/-- The temporary adjacency lists built by the `Graph` constructor: for each
source node, the list of `(target, weight)` entries, in insertion order. -/
def buildAdj (nNodes : Nat) (edgeList : List (Nat × Nat × ℚ))
    (isBidirectional : Bool) : List (List (Nat × ℚ)) :=
  edgeList.foldl (buildAdjStep isBidirectional) (List.replicate nNodes [])

/-- `Graph::getEdge`: first edge index in `source`'s CSR slice whose target is
`target`; `none` ↔ the C++ `-1` "not found" result.  (The C++ method also
throws on an out-of-range node id; the construction below only calls it with
validated ids.) -/
def Graph.getEdge (g : Graph) (source target : Nat) : Option Nat :=
  (List.range' (g.ptrs.getD source 0)
      (g.ptrs.getD (source + 1) 0 - g.ptrs.getD source 0)).find?
    (fun i => (g.edges.getD i default).target = target)

/-- Helper for reverse-edge linking: scan of `target`'s CSR slice (same loop
as `Graph::getEdge`, expressed on the raw `ptrs`/`edges` data because the
constructor runs it before the `Graph` object exists). -/
def findEdgeIdx (ptrs : List Nat) (edges : List Edge) (source target : Nat) :
    Option Nat :=
  (List.range' (ptrs.getD source 0)
      (ptrs.getD (source + 1) 0 - ptrs.getD source 0)).find?
    (fun i => (edges.getD i default).target = target)

/-- The reverse-edge linking pass of the `Graph` constructor: for each edge
`i` still unlinked, find the first edge of `target`'s slice pointing back to
`source` and link both directions. -/
def linkReverseEdges (ptrs : List Nat) (edges0 : List Edge) : List Edge :=
  (List.range edges0.length).foldl
    (fun edges i =>
      let e := edges.getD i default
      if e.reverseEdgePtr.isSome then edges
      else
        match findEdgeIdx ptrs edges e.target e.source with
        | none => edges
        | some revIdx =>
          let edges1 := edges.set i { e with reverseEdgePtr := some revIdx }
          edges1.set revIdx
            { edges1.getD revIdx default with reverseEdgePtr := some i })
    edges0

/-- The `Graph` constructor (raw data → CSR).  `none` models the C++
`std::runtime_error` throws: zero node count, empty edge list, or an endpoint
out of range.  (Negative C++ ids are outside the `Nat` model.) -/
def Graph.build (edgeList : List (Nat × Nat × ℚ)) (nNodes : Nat)
    (isBidirectional : Bool) : Option Graph :=
  if nNodes = 0 then none
  else if edgeList.isEmpty then none
  else if edgeList.any (fun e => nNodes ≤ e.1 || nNodes ≤ e.2.1) then none
  else
    let adj := buildAdj nNodes edgeList isBidirectional
    let totalWeight : ℚ := edgeList.foldl (fun acc e => acc + e.2.2) 0
    let nEdges := edgeList.length * (if isBidirectional then 2 else 1)
    let ptrs := (adj.map List.length).scanl (· + ·) 0
    let edges0 := (adj.enum).flatMap
      (fun p => p.2.map (fun tw => Edge.mk p.1 tw.1 none tw.2 true))
    let edges := if isBidirectional then linkReverseEdges ptrs edges0
                 else edges0
    some ⟨ptrs, edges, totalWeight, isBidirectional, nNodes, nEdges⟩

/-- `Graph::setAllEdgesStatus`: sets every edge's active flag and recomputes
`totalWeight` (sum of all edge weights when activating, `0` when
deactivating). -/
def Graph.setAllEdgesStatus (g : Graph) (status : Bool) : Graph :=
  { g with
    totalWeight :=
      if status then g.edges.foldl (fun acc e => acc + e.weight) 0 else 0
    edges := g.edges.map (fun e => e.withActive status) }

/-- `Graph::setEdgeStatus`: O(1) status update by edge index, adjusting
`totalWeight` and mirroring the flag onto the reverse edge when the graph is
bidirectional.  `none` models the out-of-bounds throw, and the undefined
behaviour of indexing `edges[-1]` when a bidirectional edge has no reverse
pointer. -/
def Graph.setEdgeStatus (g : Graph) (edgeIdx : Nat) (status : Bool) :
    Option Graph :=
  if g.nEdges ≤ edgeIdx then none
  else
    let temp := g.edges.getD edgeIdx default
    if temp.active = status then some g
    else
      let g1 : Graph :=
        { g with
          edges := g.edges.set edgeIdx (temp.withActive status)
          totalWeight :=
            if status then g.totalWeight + temp.weight
            else g.totalWeight - temp.weight }
      if g.isBidirectional then
        match temp.reverseEdgePtr with
        | none => none
        | some revIdx =>
          some { g1 with
                 edges := g1.edges.set revIdx
                   ((g1.edges.getD revIdx default).withActive status) }
      else some g1

/-- Sum of the weights of the active (physical) edges of a graph — the
reference quantity of the `totalWeight` bookkeeping claims. -/
def Graph.activeWeightSum (g : Graph) : ℚ :=
  (g.edges.map (fun e => if e.active then e.weight else 0)).sum

/-- Executable check that edge `i`'s reverse pointer is properly paired:
it names an in-range edge `j ≠ i` pointing back at `i`, with the same weight
and the same active flag. -/
def Graph.revCheck (g : Graph) (i : Nat) : Bool :=
  match (g.edges.getD i default).reverseEdgePtr with
  | none => false
  | some j =>
    decide (j < g.edges.length) && decide (j ≠ i) &&
    decide ((g.edges.getD j default).reverseEdgePtr = some i) &&
    decide ((g.edges.getD j default).weight = (g.edges.getD i default).weight) &&
    decide ((g.edges.getD j default).active = (g.edges.getD i default).active)

/-- Executable wellformedness of a bidirectional graph: the flag is set, the
cached `nEdges` agrees with the edge array, and the reverse pointers form a
weight- and status-preserving pairing without fixed points.  The constructor
establishes this on ordinary bidirectional inputs (checked concretely in the
witnesses). -/
def Graph.bidiWFb (g : Graph) : Bool :=
  g.isBidirectional && decide (g.nEdges = g.edges.length) &&
  (List.range g.edges.length).all g.revCheck

/-- One edge-status mutation of a graph, as offered by the public `Graph`
interface. -/
inductive StatusOp where
  | setEdge (edgeIdx : Nat) (status : Bool)
  | setAll (status : Bool)
deriving DecidableEq, Repr

/-- Apply one `StatusOp` through the corresponding `Graph` method. -/
def Graph.applyStatusOp (g : Graph) : StatusOp → Option Graph
  | .setEdge i s => g.setEdgeStatus i s
  | .setAll s => some (g.setAllEdgesStatus s)

/-- Apply a sequence of status mutations, failing as soon as one fails. -/
def Graph.applyStatusOps (g : Graph) : List StatusOp → Option Graph
  | [] => some g
  | op :: ops => (g.applyStatusOp op).bind (fun g' => g'.applyStatusOps ops)

/-- Total weight stored in a temporary adjacency structure (specification
helper for the construction proof). -/
def rowsumTotal (adj : List (List (Nat × ℚ))) : ℚ :=
  (adj.map (fun row => (row.map Prod.snd).sum)).sum

/-- Move kind (`MoveType` of the SFP model). -/
inductive MoveType where
  | ADD
  | REMOVE
deriving DecidableEq, Repr

/-- `SFPMove` (declared in the model header, behaviour in
`src/models/solution.cpp`): a reversible edit of one edge carrying a
precomputed cost delta. -/
structure SFPMove where
  type : MoveType
  edgeIndex : Nat
  costDelta : ℚ
deriving DecidableEq, Repr

/-- `SFPSolution` state: the active-edge bitset and the cached objective
value.  The problem back-reference of the C++ object is passed explicitly
(as the problem's graph) to the operations that need it. -/
structure SFPSolution where
  activeEdges : List Bool
  currentCost : ℚ
deriving DecidableEq, Repr

/-- `SFPSolution::isEdgeActive` (modelled from the spec: trivial bitset
getter declared in the missing model header). -/
def SFPSolution.isEdgeActive (s : SFPSolution) (i : Nat) : Bool :=
  s.activeEdges.getD i false

/-- `SFPSolution::getObjectiveValue` (modelled from the spec: returns the
cached objective value). -/
def SFPSolution.getObjectiveValue (s : SFPSolution) : ℚ :=
  s.currentCost

/-- `SFPSolution::SFPSolution(prob)`: all-inactive bitset sized to the
graph's edge count, cost `0`. -/
def SFPSolution.empty (g : Graph) : SFPSolution :=
  ⟨List.replicate g.nEdges false, 0⟩

/-- `SFPSolution::internalAdd`: activate the edge and its mirror, only if
the edge is currently inactive. -/
def SFPSolution.internalAdd (g : Graph) (s : SFPSolution) (edgeIdx : Nat) :
    SFPSolution :=
  if s.activeEdges.getD edgeIdx false = false then
    let a1 := s.activeEdges.set edgeIdx true
    match (g.edges.getD edgeIdx default).reverseEdgePtr with
    | some revIdx => { s with activeEdges := a1.set revIdx true }
    | none => { s with activeEdges := a1 }
  else s

/-- `SFPSolution::internalRemove`: deactivate the edge and its mirror, only
if the edge is currently active. -/
def SFPSolution.internalRemove (g : Graph) (s : SFPSolution) (edgeIdx : Nat) :
    SFPSolution :=
  if s.activeEdges.getD edgeIdx false = true then
    let a1 := s.activeEdges.set edgeIdx false
    match (g.edges.getD edgeIdx default).reverseEdgePtr with
    | some revIdx => { s with activeEdges := a1.set revIdx false }
    | none => { s with activeEdges := a1 }
  else s

/-- `SFPMove::apply`: flip the edge through the internal helper and adjust
the cached cost by `±costDelta` (the cost adjustment is unconditional). -/
def SFPMove.apply (m : SFPMove) (g : Graph) (s : SFPSolution) : SFPSolution :=
  match m.type with
  | .ADD =>
    let s1 := s.internalAdd g m.edgeIndex
    { s1 with currentCost := s1.currentCost + m.costDelta }
  | .REMOVE =>
    let s1 := s.internalRemove g m.edgeIndex
    { s1 with currentCost := s1.currentCost - m.costDelta }

/-- `SFPMove::undo`: the mirror-image of `apply`. -/
def SFPMove.undo (m : SFPMove) (g : Graph) (s : SFPSolution) : SFPSolution :=
  match m.type with
  | .ADD =>
    let s1 := s.internalRemove g m.edgeIndex
    { s1 with currentCost := s1.currentCost - m.costDelta }
  | .REMOVE =>
    let s1 := s.internalAdd g m.edgeIndex
    { s1 with currentCost := s1.currentCost + m.costDelta }

/-- Reference quantity for the Solution cost invariant: the sum of the
graph weights of the edges marked active in the solution's bitset. -/
def SFPSolution.activeCostSum (g : Graph) (s : SFPSolution) : ℚ :=
  ((List.range g.nEdges).map
    (fun i => if s.isEdgeActive i then (g.edges.getD i default).weight
              else 0)).sum

/-! ### Mirror wellformedness and the prune pass -/

/-- Executable mirror-pairing wellformedness used by the solution-level
passes: no self-loops, and every edge has an in-range reverse partner
with swapped endpoints, equal weight, and a back-pointer.  The
bidirectional constructor establishes this on ordinary inputs (checked
concretely in the witnesses). -/
def Graph.mirrorWFb (g : Graph) : Bool :=
  decide (g.nEdges = g.edges.length) &&
  g.edges.all (fun e => decide (e.source ≠ e.target)) &&
  (List.range g.edges.length).all (fun i =>
    match (g.edges.getD i default).reverseEdgePtr with
    | none => false
    | some j =>
      decide (j < g.edges.length) &&
      decide ((g.edges.getD j default).reverseEdgePtr = some i) &&
      decide ((g.edges.getD j default).source
        = (g.edges.getD i default).target) &&
      decide ((g.edges.getD j default).target
        = (g.edges.getD i default).source) &&
      decide ((g.edges.getD j default).weight
        = (g.edges.getD i default).weight))

/-- Proposition-level mirror wellformedness. -/
structure MirrorWF (g : Graph) : Prop where
  ne_len : g.nEdges = g.edges.length
  no_self : ∀ i < g.edges.length,
    (g.edges.getD i default).source ≠ (g.edges.getD i default).target
  rev_some : ∀ i < g.edges.length, ∃ j,
    (g.edges.getD i default).reverseEdgePtr = some j ∧
    j < g.edges.length ∧
    (g.edges.getD j default).reverseEdgePtr = some i ∧
    (g.edges.getD j default).source = (g.edges.getD i default).target ∧
    (g.edges.getD j default).target = (g.edges.getD i default).source ∧
    (g.edges.getD j default).weight = (g.edges.getD i default).weight

/-- Executable check that a solution bitset is sized to the graph and
symmetric under the reverse-edge map. -/
def symBitsetb (g : Graph) (s : SFPSolution) : Bool :=
  (s.activeEdges.length == g.nEdges) &&
  (List.range g.nEdges).all (fun i =>
    !(s.isEdgeActive i) ||
    (match (g.edges.getD i default).reverseEdgePtr with
     | some j => s.isEdgeActive j
     | none => true))

/-- Proposition-level bitset symmetry. -/
structure SymBitset (g : Graph) (s : SFPSolution) : Prop where
  len : s.activeEdges.length = g.nEdges
  sym : ∀ i < g.nEdges, s.isEdgeActive i = true →
    ∀ j, (g.edges.getD i default).reverseEdgePtr = some j →
      s.isEdgeActive j = true

/-- One step of the degree-counting loop of `prune`: bump both endpoint
degrees of an active canonical edge. -/
def degStep (g : Graph) (s : SFPSolution) (deg : List Nat) (i : Nat) :
    List Nat :=
  if s.isEdgeActive i = true then
    let e := g.edges.getD i default
    if e.source < e.target then
      let d1 := deg.set e.source (deg.getD e.source 0 + 1)
      d1.set e.target (d1.getD e.target 0 + 1)
    else deg
  else deg

/-- The degree-counting loop at the top of `prune`
(`src/algorithms/localSearch.cpp` lines 15–28): per node, the number of
active canonical (`source < target`) solution edges incident to it. -/
def pruneDegrees (g : Graph) (s : SFPSolution) : List Nat :=
  (List.range g.nEdges).foldl (degStep g s) (List.replicate g.nNodes 0)

/-- The terminal-flag array built by `prune` (and by
`preprocessTerminalGroups`). -/
def terminalFlags (nNodes : Nat) (terminals : List (Nat × Nat)) :
    List Bool :=
  terminals.foldl
    (fun flags p => (flags.set p.1 true).set p.2 true)
    (List.replicate nNodes false)

/-- The linear scan for the first active solution edge out of `source`
(`prune`, lines 56–63). -/
def firstActiveEdge (g : Graph) (s : SFPSolution) (source : Nat) :
    Option Nat :=
  (List.range' (g.ptrs.getD source 0)
    (g.ptrs.getD (source + 1) 0 - g.ptrs.getD source 0)).find?
    (fun i => s.isEdgeActive i)

/-- The cascading prune loop (`while (!q.empty())`), fuel-bounded.
State: pending queue, degree array, current solution, changed flag. -/
def pruneLoop (g : Graph) (isT : List Bool) :
    Nat → SFPSolution → List Nat → List Nat → Bool →
    Option (Bool × SFPSolution)
  | 0, _, _, _, _ => none
  | fuel + 1, sol, deg, q, changed =>
    match q with
    | [] => some (changed, sol)
    | source :: qrest =>
      if deg.getD source 0 ≠ 1 then
        pruneLoop g isT fuel sol deg qrest changed
      else
        match firstActiveEdge g sol source with
        | none => pruneLoop g isT fuel sol deg qrest changed
        | some edgeToRemove =>
          let tgt := (g.edges.getD edgeToRemove default).target
          let sol' := SFPMove.apply
            ⟨MoveType.REMOVE, edgeToRemove,
             (g.edges.getD edgeToRemove default).weight⟩ g sol
          let d1 := deg.set source (deg.getD source 0 - 1)
          let deg' := d1.set tgt (d1.getD tgt 0 - 1)
          let q' := if deg'.getD tgt 0 = 1 ∧ isT.getD tgt false = false
            then qrest ++ [tgt] else qrest
          pruneLoop g isT fuel sol' deg' q' true

/-- `prune(solution)` (`src/algorithms/localSearch.cpp` lines 8–81):
degree computation over active canonical edges, terminal flags, initial
queue of degree-1 non-terminals in node order, then the cascade.  The
C++ loop always terminates; the embedding supplies fuel covering the
worst case (one pop per iteration, at most `nNodes` initial entries and
one push per removed edge). -/
def prune (g : Graph) (terminals : List (Nat × Nat)) (s : SFPSolution) :
    Option (Bool × SFPSolution) :=
  let deg := pruneDegrees g s
  let isT := terminalFlags g.nNodes terminals
  let q0 := (List.range g.nNodes).filter
    (fun i => decide (deg.getD i 0 = 1) && decide (isT.getD i false = false))
  pruneLoop g isT (g.nNodes + g.nEdges + 1) s deg q0 false

/-- Whether edge `i` is an active canonical solution edge incident to
node `v`. -/
def degPred (g : Graph) (s : SFPSolution) (v : Nat) (i : Nat) : Bool :=
  s.isEdgeActive i &&
  decide ((g.edges.getD i default).source
    < (g.edges.getD i default).target) &&
  (decide ((g.edges.getD i default).source = v) ||
   decide ((g.edges.getD i default).target = v))

/-- Specification count: the number of active canonical solution edges
incident to `v` (what the degree array holds for `v`). -/
def degCount (g : Graph) (s : SFPSolution) (v : Nat) : Nat :=
  (List.range g.nEdges).countP (degPred g s v)

/-- The Solution cost invariant, in mirror-symmetric (half-sum) form:
twice the cached cost equals the sum over all physical active bits of
the ORIGINAL graph weights (each undirected edge contributes its weight
twice, once per direction). -/
def costConsistent (g : Graph) (s : SFPSolution) : Prop :=
  2 * s.currentCost = SFPSolution.activeCostSum g s

/-! ### The shortest-path engine

The repository contains two variants of `DijkstraEngine::getShortPath` with
identical token/priority-queue logic; they differ in exactly one guard:
`src/algorithms/dijkstra.cpp` skips inactive edges
(`if (!edge.active) continue;`) while the inline variant in
`src/utils/Dijkstra.hpp` relaxes every edge.  The embedding takes that
guard as the parameter `checkActive` (`true` ↔ the `dijkstra.cpp` engine,
`false` ↔ the `Dijkstra.hpp` engine). -/

/-- Persistent state of `DijkstraEngine` (the priority queue member is
reset at the start of every call, so it is modelled as call-local).
`parent` records `(predecessorNode, incomingEdgeIndex)`; the C++ sentinel
`{-1,-1}` is `none`. -/
structure DijkstraEngine where
  dist : List ℚ
  visitedToken : List Nat
  parent : List (Option (Nat × Nat))
  nNodes : Nat
  currentToken : Nat
deriving DecidableEq, Repr

/-- `DijkstraEngine::DijkstraEngine(nodes)`: zero-filled scratch arrays and
token `0`.  (The C++ default-constructs `parent` entries as `{0,0}`; they
are dead values, never read before being overwritten under the current
token, and are modelled as `none`.) -/
def DijkstraEngine.init (nodes : Nat) : DijkstraEngine :=
  ⟨List.replicate nodes 0, List.replicate nodes 0,
   List.replicate nodes none, nodes, 0⟩

/-- Executable wellformedness of an engine: arrays sized to `nNodes` and
no stored token above `currentToken` (so bumping the token invalidates
everything). -/
def DijkstraEngine.engWFb (eng : DijkstraEngine) : Bool :=
  (eng.dist.length == eng.nNodes) &&
  (eng.visitedToken.length == eng.nNodes) &&
  (eng.parent.length == eng.nNodes) &&
  eng.visitedToken.all (· ≤ eng.currentToken)

/-- Call-local Dijkstra state: the scratch arrays plus the live priority
queue content (a multiset of `(tentativeDistance, node)` entries). -/
structure DState where
  dist : List ℚ
  visitedToken : List Nat
  parent : List (Option (Nat × Nat))
  pq : List (ℚ × Nat)
deriving DecidableEq, Repr

/-- `std::greater<Pii>` order on queue entries: lexicographic on
`(distance, node)`. -/
def pqLe (a b : ℚ × Nat) : Bool :=
  decide (a.1 < b.1) || (decide (a.1 = b.1) && decide (a.2 ≤ b.2))

/-- Pop the minimum entry of the priority queue (`top()` + `pop()`):
returns the least entry under `pqLe` and the remaining multiset. -/
def popMin (pq : List (ℚ × Nat)) : Option ((ℚ × Nat) × List (ℚ × Nat)) :=
  match pq with
  | [] => none
  | x :: xs =>
    let m := xs.foldl (fun b a => if pqLe b a then b else a) x
    some (m, pq.erase m)

/-- The inner `for (int i = ptrs[u]; i < ptrs[u+1]; ++i)` relaxation loop:
relax every (considered) edge out of `u`, where `d` is the popped key. -/
def relaxEdges (checkActive : Bool) (g : Graph) (tok u : Nat) (d : ℚ)
    (st : DState) : DState :=
  (List.range' (g.ptrs.getD u 0)
      (g.ptrs.getD (u + 1) 0 - g.ptrs.getD u 0)).foldl
    (fun st i =>
      let edge := g.edges.getD i default
      if checkActive && !edge.active then st
      else
        let v := edge.target
        let newDist := d + edge.weight
        let isFirstVisit := st.visitedToken.getD v 0 ≠ tok
        if isFirstVisit ∨ newDist < st.dist.getD v 0 then
          { dist := st.dist.set v newDist
            visitedToken := st.visitedToken.set v tok
            parent := st.parent.set v (some (u, i))
            pq := (newDist, v) :: st.pq }
        else st)
    st

/-- The body of the relaxation loop, isolated per edge index `i` (the
function folded by `relaxEdges`). -/
def relaxStep (checkActive : Bool) (g : Graph) (tok u : Nat) (d : ℚ)
    (st : DState) (i : Nat) : DState :=
  let edge := g.edges.getD i default
  if checkActive && !edge.active then st
  else
    let v := edge.target
    let newDist := d + edge.weight
    let isFirstVisit := st.visitedToken.getD v 0 ≠ tok
    if isFirstVisit ∨ newDist < st.dist.getD v 0 then
      { dist := st.dist.set v newDist
        visitedToken := st.visitedToken.set v tok
        parent := st.parent.set v (some (u, i))
        pq := (newDist, v) :: st.pq }
    else st

/-- The `while (!pq.empty())` loop.  Returns `(found, state)`;
`none` means the supplied fuel ran out before the loop exited. -/
def dijkstraLoop (checkActive : Bool) (g : Graph) (tok target : Nat) :
    Nat → DState → Option (Bool × DState)
  | 0, _ => none
  | fuel + 1, st =>
    match popMin st.pq with
    | none => some (false, st)
    | some ((d, u), rest) =>
      let st' : DState := { st with pq := rest }
      if st.visitedToken.getD u 0 = tok ∧ st.dist.getD u 0 < d then
        dijkstraLoop checkActive g tok target fuel st'
      else if u = target then some (true, st')
      else dijkstraLoop checkActive g tok target fuel
        (relaxEdges checkActive g tok u d st')

/-- The backward predecessor walk of the reconstruction loop.  Produces the
edge indices in `push_back` order (first element = edge entering the query
target); the C++ returns this vector as is, *without* reversing it.
A `parent[curr].first == -1` record ends the walk early, returning the
partial path, exactly as the C++ `break` does. -/
def reconstructPath (parent : List (Option (Nat × Nat))) (source : Nat) :
    Nat → Nat → Option (List Nat)
  | 0, _ => none
  | fuel + 1, curr =>
    if curr = source then some []
    else
      match parent.getD curr none with
      | none => some []
      | some (node, edge) =>
        (reconstructPath parent source fuel node).map
          (fun rest => edge :: rest)

/-- `DijkstraEngine::getShortPath`.  Bumps the token, seeds the source,
runs the main loop and reconstructs the path on success; returns the
sentinel `([], -1)` when the target was never reached. -/
def DijkstraEngine.getShortPath (checkActive : Bool) (eng : DijkstraEngine)
    (g : Graph) (source target : Nat) (fuel : Nat) :
    Option ((List Nat × ℚ) × DijkstraEngine) :=
  let tok := eng.currentToken + 1
  let st0 : DState :=
    { dist := eng.dist.set source 0
      visitedToken := eng.visitedToken.set source tok
      parent := eng.parent.set source none
      pq := [(0, source)] }
  match dijkstraLoop checkActive g tok target fuel st0 with
  | none => none
  | some (found, st) =>
    let eng' : DijkstraEngine :=
      ⟨st.dist, st.visitedToken, st.parent, eng.nNodes, tok⟩
    if found then
      match reconstructPath st.parent source (eng.nNodes + 1) target with
      | none => none
      | some path => some ((path, st.dist.getD target 0), eng')
    else some (([], -1), eng')

/-- Edge `i` runs from `u` to `v` and is considered by the engine variant
(`checkActive = true` requires the active flag). -/
def isEdgeFrom (checkActive : Bool) (g : Graph) (i u v : Nat) : Prop :=
  i < g.edges.length ∧ (g.edges.getD i default).source = u ∧
  (g.edges.getD i default).target = v ∧
  (checkActive = true → (g.edges.getD i default).active = true)

/-- A walk from `s` to `v` along considered edges, as the list of edge
indices in travel order. -/
inductive Walk (checkActive : Bool) (g : Graph) : Nat → Nat → List Nat → Prop
  | nil (u : Nat) : Walk checkActive g u u []
  | cons {s u v : Nat} {es : List Nat} {i : Nat} :
      Walk checkActive g s u es → isEdgeFrom checkActive g i u v →
      Walk checkActive g s v (es ++ [i])

/-- Total weight of a list of edge indices. -/
def walkCost (g : Graph) (es : List Nat) : ℚ :=
  (es.map (fun i => (g.edges.getD i default).weight)).sum

/-- CSR wellformedness used by the engine proofs: `ptrs` has `nNodes + 1`
monotone entries running from `0` to `edges.length`, every edge in node
`u`'s slice has source `u`, and all endpoints are in range. -/
def Graph.csrWFb (g : Graph) : Bool :=
  (g.ptrs.length == g.nNodes + 1) &&
  (g.nEdges == g.edges.length) &&
  (g.ptrs.getD 0 0 == 0) &&
  (g.ptrs.getD g.nNodes 0 == g.edges.length) &&
  ((List.range g.nNodes).all
    (fun u => g.ptrs.getD u 0 ≤ g.ptrs.getD (u + 1) 0)) &&
  ((List.range g.nNodes).all (fun u =>
    (List.range' (g.ptrs.getD u 0)
        (g.ptrs.getD (u + 1) 0 - g.ptrs.getD u 0)).all
      (fun i => (g.edges.getD i default).source == u))) &&
  g.edges.all
    (fun e => decide (e.source < g.nNodes) && decide (e.target < g.nNodes))

/-- Executable non-negativity of all edge weights. -/
def Graph.nonnegWeightsb (g : Graph) : Bool :=
  g.edges.all (fun e => decide (0 ≤ e.weight))

/-- Proposition-level CSR wellformedness (extracted from `csrWFb`). -/
structure CsrWF (g : Graph) : Prop where
  ptrs_len : g.ptrs.length = g.nNodes + 1
  ne_len : g.nEdges = g.edges.length
  ptrs_zero : g.ptrs.getD 0 0 = 0
  ptrs_last : g.ptrs.getD g.nNodes 0 = g.edges.length
  ptrs_mono : ∀ u < g.nNodes, g.ptrs.getD u 0 ≤ g.ptrs.getD (u + 1) 0
  slice_src : ∀ u < g.nNodes, ∀ i, g.ptrs.getD u 0 ≤ i →
    i < g.ptrs.getD (u + 1) 0 → (g.edges.getD i default).source = u
  src_lt : ∀ i < g.edges.length, (g.edges.getD i default).source < g.nNodes
  tgt_lt : ∀ i < g.edges.length, (g.edges.getD i default).target < g.nNodes

/-- Non-negativity of every edge weight (also of the out-of-range default,
whose weight is `0`). -/
def NonnegW (g : Graph) : Prop :=
  ∀ i, 0 ≤ (g.edges.getD i default).weight

/-- Strict lexicographic order on `(distance, stamp)` measures, used to
show that predecessor chains are acyclic. -/
def dLex (a b : ℚ × Nat) : Prop :=
  a.1 < b.1 ∨ (a.1 = b.1 ∧ a.2 < b.2)

/-- Executable version of `dLex`, used for the reconstruction measure. -/
def dLexb (a b : ℚ × Nat) : Bool :=
  decide (a.1 < b.1) || (decide (a.1 = b.1) && decide (a.2 < b.2))

/-- The queue-independent part of the `getShortPath` loop invariant.
`tok` is the current token and `s` the query source.  It is what survives
on the early `found` exit (where the target's queue entry has just been
discarded). -/
structure DCore (ca : Bool) (g : Graph) (tok s : Nat) (st : DState) :
    Prop where
  len_dist : st.dist.length = g.nNodes
  len_tok : st.visitedToken.length = g.nNodes
  len_par : st.parent.length = g.nNodes
  src_lt : s < g.nNodes
  src_tok : st.visitedToken.getD s 0 = tok
  src_dist : st.dist.getD s 0 = 0
  src_par : st.parent.getD s none = none
  stale_le : ∀ v, st.visitedToken.getD v 0 ≤ tok
  tok_walk : ∀ v < g.nNodes, st.visitedToken.getD v 0 = tok →
    ∃ es, Walk ca g s v es ∧ walkCost g es = st.dist.getD v 0
  parent_ok : ∃ tm : Nat → Nat, ∀ v < g.nNodes,
    st.visitedToken.getD v 0 = tok → v ≠ s →
    ∃ u i, st.parent.getD v none = some (u, i) ∧ u < g.nNodes ∧
      st.visitedToken.getD u 0 = tok ∧ isEdgeFrom ca g i u v ∧
      st.dist.getD u 0 + (g.edges.getD i default).weight
        ≤ st.dist.getD v 0 ∧
      dLex (st.dist.getD u 0, tm u) (st.dist.getD v 0, tm v)

/-- The full loop invariant: the core plus the priority-queue facts.
`t` is the query target. -/
structure DInv (ca : Bool) (g : Graph) (tok s t : Nat) (st : DState)
    extends DCore ca g tok s st : Prop where
  pq_tok : ∀ p ∈ st.pq, p.2 < g.nNodes ∧
    st.visitedToken.getD p.2 0 = tok ∧ st.dist.getD p.2 0 ≤ p.1
  pq_walk : ∀ p ∈ st.pq, ∃ es, Walk ca g s p.2 es ∧ walkCost g es = p.1
  closed_or_queued : ∀ u < g.nNodes, st.visitedToken.getD u 0 = tok →
    ((st.dist.getD u 0, u) ∈ st.pq ∨
      ∀ i, g.ptrs.getD u 0 ≤ i → i < g.ptrs.getD (u + 1) 0 →
        (ca = true → (g.edges.getD i default).active = true) →
        (st.visitedToken.getD (g.edges.getD i default).target 0 = tok ∧
         st.dist.getD (g.edges.getD i default).target 0
           ≤ st.dist.getD u 0 + (g.edges.getD i default).weight))
  target_queued : t < g.nNodes → st.visitedToken.getD t 0 = tok →
    (st.dist.getD t 0, t) ∈ st.pq

/-- The invariant carried through the relaxation fold while node `u`
(popped with key `d`) is being processed: the full invariant, except that
`u` itself is temporarily neither queued nor known closed. -/
structure RInv (ca : Bool) (g : Graph) (tok s t u : Nat) (d : ℚ)
    (st : DState) extends DCore ca g tok s st : Prop where
  pq_tok : ∀ p ∈ st.pq, p.2 < g.nNodes ∧
    st.visitedToken.getD p.2 0 = tok ∧ st.dist.getD p.2 0 ≤ p.1
  pq_walk : ∀ p ∈ st.pq, ∃ es, Walk ca g s p.2 es ∧ walkCost g es = p.1
  closed_or_queued_ne : ∀ x < g.nNodes, st.visitedToken.getD x 0 = tok →
    x ≠ u →
    ((st.dist.getD x 0, x) ∈ st.pq ∨
      ∀ i, g.ptrs.getD x 0 ≤ i → i < g.ptrs.getD (x + 1) 0 →
        (ca = true → (g.edges.getD i default).active = true) →
        (st.visitedToken.getD (g.edges.getD i default).target 0 = tok ∧
         st.dist.getD (g.edges.getD i default).target 0
           ≤ st.dist.getD x 0 + (g.edges.getD i default).weight))
  target_queued : t < g.nNodes → st.visitedToken.getD t 0 = tok →
    (st.dist.getD t 0, t) ∈ st.pq
  du : st.dist.getD u 0 = d
  utok : st.visitedToken.getD u 0 = tok
  ult : u < g.nNodes

/-! ### DSU (`src/utils/DSU.hpp`) -/

/-- `DSU`: parent and rank arrays plus the live component count. -/
structure DSU where
  parent : List Nat
  rank : List Nat
  components : Nat
deriving DecidableEq, Repr

/-- `DSU::DSU(nNodes)` / `reset()`: every node its own parent, zero
ranks. -/
def DSU.init (nNodes : Nat) : DSU :=
  ⟨List.range nNodes, List.replicate nNodes 0, nNodes⟩

/-- `DSU::find` with path compression, fuel-bounded.  The C++ recursion
terminates because ranks strictly increase towards the root; `none`
means fuel exhausted (never reached from a wellformed state with fuel
above the node count).  The out-of-range read `parent[i]` (C++ UB) is
modelled as the node being its own parent. -/
def DSU.findAux : Nat → DSU → Nat → Option (Nat × DSU)
  | 0, _, _ => none
  | fuel + 1, d, i =>
    if d.parent.getD i i = i then some (i, d)
    else
      match DSU.findAux fuel d (d.parent.getD i i) with
      | none => none
      | some (root, d') =>
        some (root, { d' with parent := d'.parent.set i root })

def DSU.find (d : DSU) (i : Nat) : Option (Nat × DSU) :=
  DSU.findAux (d.parent.length + 1) d i

/-- `DSU::unite`: union by rank; returns whether a merge happened. -/
def DSU.unite (d : DSU) (source target : Nat) : Option (Bool × DSU) :=
  match d.find source with
  | none => none
  | some (rs, d1) =>
    match d1.find target with
    | none => none
    | some (rt, d2) =>
      if rs ≠ rt then
        if d2.rank.getD rs 0 < d2.rank.getD rt 0 then
          some (true,
            { d2 with
              parent := d2.parent.set rs rt
              components := d2.components - 1 })
        else
          if d2.rank.getD rs 0 = d2.rank.getD rt 0 then
            some (true,
              { d2 with
                parent := d2.parent.set rt rs
                rank := d2.rank.set rs (d2.rank.getD rs 0 + 1)
                components := d2.components - 1 })
          else
            some (true,
              { d2 with
                parent := d2.parent.set rt rs
                components := d2.components - 1 })
      else some (false, d2)

/-- `DSU::isConnected`: compare the two roots (with the path compression
both finds perform). -/
def DSU.isConnected (d : DSU) (source target : Nat) :
    Option (Bool × DSU) :=
  match d.find source with
  | none => none
  | some (rs, d1) =>
    match d1.find target with
    | none => none
    | some (rt, d2) => some (decide (rs = rt), d2)

/-- Fold `unite` over a list of endpoint pairs. -/
def dsuUniteAll (d : DSU) : List (Nat × Nat) → Option DSU
  | [] => some d
  | p :: ps =>
    match d.unite p.1 p.2 with
    | none => none
    | some (_, d') => dsuUniteAll d' ps

/-- `SFPSolution::isFeasible` (`src/models/solution.cpp`): union all
active canonical solution edges into a fresh DSU, then check every
terminal pair. -/
def isFeasibleb (g : Graph) (terminals : List (Nat × Nat))
    (s : SFPSolution) : Option Bool :=
  match (List.range g.nEdges).foldl (fun acc i =>
    match acc with
    | none => none
    | some d =>
      if s.isEdgeActive i = true then
        let e := g.edges.getD i default
        if e.source < e.target then
          match d.unite e.source e.target with
          | none => none
          | some (_, d') => some d'
        else some d
      else some d) (some (DSU.init g.nNodes)) with
  | none => none
  | some d =>
    let rec go (d : DSU) : List (Nat × Nat) → Option Bool
      | [] => some true
      | p :: ps =>
        match d.isConnected p.1 p.2 with
        | none => none
        | some (conn, d') => if conn then go d' ps else some false
    go d terminals

/-! ### Neighbourhood generators (`src/models/neighbourhood.cpp`) -/

/-- `AddNeighbourhood::moves`: one ADD move per inactive canonical edge,
carrying the edge's weight as `costDelta`. -/
def AddNeighbourhood.moves (g : Graph) (sol : SFPSolution) :
    List SFPMove :=
  (List.range g.nEdges).filterMap (fun i =>
    if sol.isEdgeActive i = false then
      let edge := g.edges.getD i default
      if edge.source < edge.target then
        some ⟨MoveType.ADD, i, edge.weight⟩
      else none
    else none)

/-- `RemoveNeighbourhood::moves`: one REMOVE move per active canonical
edge, carrying the NEGATED edge weight as `costDelta`. -/
def RemoveNeighbourhood.moves (g : Graph) (sol : SFPSolution) :
    List SFPMove :=
  (List.range g.nEdges).filterMap (fun i =>
    if sol.isEdgeActive i = true then
      let edge := g.edges.getD i default
      if edge.source < edge.target then
        some ⟨MoveType.REMOVE, i, -edge.weight⟩
      else none
    else none)

/-! ### Working-graph weight edits and the GRASP heuristics -/

/-- `FLT_MAX`, the float infinity placeholder of the heuristics, as an
exact rational: `(2 - 2^-23) * 2^127`. -/
def fltMax : ℚ := (2 ^ 128 : ℚ) - 2 ^ 104

/-- Direct weight write `workingGraph.edges[i].weight = w` (the
heuristics only perform it on in-range engine-returned indices). -/
def Graph.setWeight (g : Graph) (i : Nat) (w : ℚ) : Graph :=
  { g with edges := g.edges.set i ((g.edges.getD i default).withWeight w) }

/-- Zero a path edge's weight and its mirror's in the working graph
(`generate`, lines 154–160). -/
def zeroPathEdge (gw : Graph) (i : Nat) : Graph :=
  let g1 := gw.setWeight i 0
  match (g1.edges.getD i default).reverseEdgePtr with
  | some rev => g1.setWeight rev 0
  | none => g1

/-- Set a trial edge's weight (and its mirror's) to the infinity
placeholder (`optimize`, lines 129–134); also returns the mirror
index. -/
def penalizeEdge (gw : Graph) (e : Nat) : Graph × Option Nat :=
  let g1 := gw.setWeight e fltMax
  match (g1.edges.getD e default).reverseEdgePtr with
  | some rev => (g1.setWeight rev fltMax, some rev)
  | none => (g1, none)

/-- Restore a trial edge's weight (and its mirror's)
(`optimize`, lines 201–202 / 208–209). -/
def restoreEdge (gw : Graph) (e : Nat) (rev : Option Nat) (w : ℚ) :
    Graph :=
  let g1 := gw.setWeight e w
  match rev with
  | some r => g1.setWeight r w
  | none => g1

/-- `preprocessTerminalGroups` (`src/algorithms/constructive.cpp`):
union the input pairs, then group terminal vertices by their root
(ascending root, members in ascending vertex order, mirroring the
ordered `std::map`), keeping groups of size above one. -/
def preprocessTerminalGroups (nNodes : Nat)
    (terminals : List (Nat × Nat)) : Option (List (List Nat)) :=
  match dsuUniteAll (DSU.init nNodes) terminals with
  | none => none
  | some d =>
    let isT := terminalFlags nNodes terminals
    match (List.range nNodes).foldl (fun acc i =>
      match acc with
      | none => none
      | some (l, d) =>
        if isT.getD i false = true then
          match d.find i with
          | none => none
          | some (r, d') => some (l ++ [(i, r)], d')
        else some (l, d)) (some (([] : List (Nat × Nat)), d)) with
    | none => none
    | some (pairs, _) =>
      some (((List.range nNodes).map (fun r =>
        (pairs.filter (fun pr => decide (pr.2 = r))).map
          Prod.fst)).filter (fun grp => decide (1 < grp.length)))

/-- `generatePairs`, one terminal group: repeatedly draw a random pivot,
remove it by swap-with-back-and-pop, draw a random destination from the
remainder, and emit the pair.  Random draws are modelled as an arbitrary
stream `f` reduced modulo the live range size (theorems hold for every
stream); `k` is the stream cursor. -/
def generatePairsGroup (f : Nat → Nat) :
    Nat → List Nat → Nat → (List (Nat × Nat) × Nat)
  | 0, _, k => ([], k)
  | fuel + 1, group, k =>
    if 1 < group.length then
      let idxPivot := f k % group.length
      let pivot := group.getD idxPivot 0
      let group' := (group.set idxPivot (group.getLastD 0)).dropLast
      let idxDest := f (k + 1) % group'.length
      let dest := group'.getD idxDest 0
      let res := generatePairsGroup f fuel group' (k + 2)
      ((pivot, dest) :: res.1, res.2)
    else ([], k)

/-- `generatePairs` over all groups. -/
def generatePairs (f : Nat → Nat) (groups : List (List Nat)) (k : Nat) :
    List (Nat × Nat) × Nat :=
  groups.foldl (fun acc grp =>
    let res := generatePairsGroup f grp.length grp acc.2
    (acc.1 ++ res.1, res.2)) ([], k)

/-- The cost-refresh loop at the top of each RCL iteration: one engine
query per remaining candidate pair. -/
def updateCosts (ca : Bool) (gw : Graph) (dfuel : Nat) :
    DijkstraEngine → List (Nat × Nat × ℚ) →
    Option (List (Nat × Nat × ℚ) × DijkstraEngine)
  | eng, [] => some ([], eng)
  | eng, c :: cs =>
    match DijkstraEngine.getShortPath ca eng gw c.1 c.2.1 dfuel with
    | none => none
    | some ((_, cost), eng') =>
      match updateCosts ca gw dfuel eng' cs with
      | none => none
      | some (cs', eng'') => some ((c.1, c.2.1, cost) :: cs', eng'')

/-- The body of the path-consumption loop of `generate` (lines 146–161):
add each path edge not yet in the solution using the ORIGINAL graph's
weight, then zero the edge (and mirror) in the working graph. -/
def generateAbsorb (gOrig : Graph) (sol : SFPSolution) (gw : Graph)
    (pathEdges : List Nat) : SFPSolution × Graph :=
  pathEdges.foldl (fun acc edgeIdx =>
    let sol' := if acc.1.isEdgeActive edgeIdx = false then
        SFPMove.apply ⟨MoveType.ADD, edgeIdx,
          (gOrig.edges.getD edgeIdx default).weight⟩ gOrig acc.1
      else acc.1
    (sol', zeroPathEdge acc.2 edgeIdx)) (sol, gw)

/-- Insertion of a candidate into a cost-sorted list (helper for the
`std::sort` model below). -/
def insertLe (a : Nat × Nat × ℚ) :
    List (Nat × Nat × ℚ) → List (Nat × Nat × ℚ)
  | [] => [a]
  | b :: rest =>
    if a.2.2 ≤ b.2.2 then a :: b :: rest else b :: insertLe a rest

/-- Sorting the candidate list by path cost (insertion sort).  The C++
`std::sort` leaves the order of cost-ties unspecified, so any sorted
permutation is an admissible model; this one is used. -/
def sortByCost : List (Nat × Nat × ℚ) → List (Nat × Nat × ℚ)
  | [] => []
  | a :: rest => insertLe a (sortByCost rest)

/-- The `while (!CL.empty())` loop of
`GRASPConstructiveHeuristic::generate`: refresh costs, sort by cost,
draw from the restricted candidate list, connect the drawn pair, absorb
the path, drop the candidate. -/
def generateLoop (ca : Bool) (gOrig : Graph) (alpha : ℚ) (f : Nat → Nat)
    (dfuel : Nat) :
    Nat → SFPSolution → Graph → DijkstraEngine →
    List (Nat × Nat × ℚ) → Nat → Option SFPSolution
  | 0, sol, _, _, cl, _ =>
    match cl with
    | [] => some sol
    | _ :: _ => none
  | fuel + 1, sol, gw, eng, cl, k =>
    match cl with
    | [] => some sol
    | _ :: _ =>
      match updateCosts ca gw dfuel eng cl with
      | none => none
      | some (cl', eng1) =>
        let sorted := sortByCost cl' 
        let rclSize := max 1 (Int.toNat ⌊(sorted.length : ℚ) * alpha⌋)
        let selectedIdx := f k % rclSize
        let pair := sorted.getD selectedIdx (0, 0, 0)
        match DijkstraEngine.getShortPath ca eng1 gw pair.1 pair.2.1
            dfuel with
        | none => none
        | some ((pathEdges, _), eng2) =>
          let res := generateAbsorb gOrig sol gw pathEdges
          generateLoop ca gOrig alpha f dfuel fuel res.1 res.2 eng2
            (sorted.eraseIdx selectedIdx) (k + 1)

/-- `GRASPConstructiveHeuristic::generate`
(`src/algorithms/constructive.cpp`): group the terminals, draw the pair
list, and run the RCL loop on a working copy of the graph, starting from
the empty solution. -/
def generate (ca : Bool) (g : Graph) (terminals : List (Nat × Nat))
    (alpha : ℚ) (f : Nat → Nat) (dfuel : Nat) : Option SFPSolution :=
  match preprocessTerminalGroups g.nNodes terminals with
  | none => none
  | some groups =>
    let res := generatePairs f groups 0
    let cl := res.1.map (fun p => (p.1, p.2, fltMax))
    generateLoop ca g alpha f dfuel cl.length (SFPSolution.empty g) g
      (DijkstraEngine.init g.nNodes) cl res.2

/-- The trial DSU of `optimize` (lines 137–147): union every active
solution edge except the trial edge and its mirror. -/
def buildTrialDSU (gw : Graph) (sol : SFPSolution) (e : Nat)
    (rev : Option Nat) (nNodes nEdges : Nat) : Option DSU :=
  (List.range nEdges).foldl (fun acc i =>
    match acc with
    | none => none
    | some d =>
      if sol.isEdgeActive i = true ∧ i ≠ e ∧ some i ≠ rev then
        let ed := gw.edges.getD i default
        if ed.source < ed.target then
          match d.unite ed.source ed.target with
          | none => none
          | some (_, d') => some d'
        else some d
      else some d) (some (DSU.init nNodes))

/-- The path-absorption loop of the repair step (lines 176–187): add
each missing path edge to the candidate using the WORKING graph's
current weight, and union its endpoints into the trial DSU. -/
def addPathEdges (gproblem gw : Graph) :
    List Nat → SFPSolution → DSU → Option (SFPSolution × DSU)
  | [], cand, d => some (cand, d)
  | idx :: rest, cand, d =>
    if cand.isEdgeActive idx = false then
      let cand' := SFPMove.apply ⟨MoveType.ADD, idx,
        (gw.edges.getD idx default).weight⟩ gproblem cand
      match d.unite (gw.edges.getD idx default).source
          (gw.edges.getD idx default).target with
      | none => none
      | some (_, d') => addPathEdges gproblem gw rest cand' d'
    else addPathEdges gproblem gw rest cand d

/-- The per-terminal-pair repair loop of `optimize` (lines 157–189).
Returns `(reconstructionPossible, candidate, engine)`. -/
def repairPairs (ca : Bool) (gproblem gw : Graph) (dfuel : Nat) :
    List (Nat × Nat) → SFPSolution → DSU → DijkstraEngine →
    Option (Bool × SFPSolution × DijkstraEngine)
  | [], cand, _, eng => some (true, cand, eng)
  | p :: rest, cand, d, eng =>
    match d.isConnected p.1 p.2 with
    | none => none
    | some (conn, d1) =>
      if conn = true then
        repairPairs ca gproblem gw dfuel rest cand d1 eng
      else
        match DijkstraEngine.getShortPath ca eng gw p.1 p.2 dfuel with
        | none => none
        | some ((newPath, pathCost), eng1) =>
          if fltMax ≤ pathCost ∨ pathCost < 0 then
            some (false, cand, eng1)
          else
            match addPathEdges gproblem gw newPath cand d1 with
            | none => none
            | some (cand', d2) =>
              repairPairs ca gproblem gw dfuel rest cand' d2 eng1

/-- One destroy-and-repair trial of `optimize` (loop body, lines
127–210): penalize the edge, rebuild connectivity, try to repair every
severed pair, accept on strict improvement, and restore the weights. -/
def optimizeTrial (ca : Bool) (g : Graph) (terminals : List (Nat × Nat))
    (dfuel : Nat) (sol : SFPSolution) (gw : Graph)
    (eng : DijkstraEngine) (e : Nat) :
    Option (Bool × SFPSolution × Graph × DijkstraEngine) :=
  let wOrig := (gw.edges.getD e default).weight
  let pen := penalizeEdge gw e
  match buildTrialDSU pen.1 sol e pen.2 g.nNodes g.nEdges with
  | none => none
  | some d0 =>
    let cand0 := SFPMove.apply ⟨MoveType.REMOVE, e, wOrig⟩ g sol
    match repairPairs ca g pen.1 dfuel terminals cand0 d0 eng with
    | none => none
    | some (ok, cand, eng1) =>
      if ok = true ∧ cand.getObjectiveValue < sol.getObjectiveValue then
        some (true, cand, restoreEdge pen.1 e pen.2 wOrig, eng1)
      else
        some (false, sol, restoreEdge pen.1 e pen.2 wOrig, eng1)

/-- The inner `for (edgeToRemove : currentSolutionEdges)` sweep; stops
at the first accepted trial. -/
def optimizeSweep (ca : Bool) (g : Graph) (terminals : List (Nat × Nat))
    (dfuel : Nat) :
    List Nat → SFPSolution → Graph → DijkstraEngine →
    Option (Bool × SFPSolution × Graph × DijkstraEngine)
  | [], sol, gw, eng => some (false, sol, gw, eng)
  | e :: rest, sol, gw, eng =>
    match optimizeTrial ca g terminals dfuel sol gw eng e with
    | none => none
    | some (accepted, sol', gw', eng') =>
      if accepted = true then some (true, sol', gw', eng')
      else optimizeSweep ca g terminals dfuel rest sol' gw' eng'

/-- The `while (improvementFound)` loop of `optimize`, fuel-bounded. -/
def optimizeLoop (ca : Bool) (g : Graph) (terminals : List (Nat × Nat))
    (dfuel : Nat) :
    Nat → SFPSolution → Graph → DijkstraEngine → Bool →
    Option (Bool × SFPSolution)
  | 0, _, _, _, _ => none
  | fuel + 1, sol, gw, eng, globalImp =>
    match optimizeSweep ca g terminals dfuel
        ((List.range g.nEdges).filter (fun i =>
          sol.isEdgeActive i &&
          decide ((gw.edges.getD i default).source
            < (gw.edges.getD i default).target))) sol gw eng with
    | none => none
    | some (improved, sol', gw', eng') =>
      if improved = true then
        optimizeLoop ca g terminals dfuel fuel sol' gw' eng' true
      else some (globalImp, sol')

/-- `GRASPLocalSearch::optimize` (`src/algorithms/localSearch.cpp`):
initial prune, destroy-and-repair sweeps to a local optimum, final
prune. -/
def optimize (ca : Bool) (g : Graph) (terminals : List (Nat × Nat))
    (dfuel lfuel : Nat) (sol : SFPSolution) :
    Option (Bool × SFPSolution) :=
  match prune g terminals sol with
  | none => none
  | some (ch1, sol1) =>
    match optimizeLoop ca g terminals dfuel lfuel sol1 g
        (DijkstraEngine.init g.nNodes) ch1 with
    | none => none
    | some (gi, sol2) =>
      match prune g terminals sol2 with
      | none => none
      | some (ch2, sol3) => some (gi || ch2, sol3)

/-- The single-edge bidirectional graph (`0 — 1`, weight 10), used by
witnesses and counterexamples of the Solution/Move claims. -/
def gExampleOneEdge : Graph :=
  (Graph.build [(0, 1, 10)] 2 true).getD default

/-- A small concrete bidirectional graph (path `0 — 1 — 2`, weights 10, 5),
used by witnesses. -/
def gExampleC2 : Graph :=
  (Graph.build [(0, 1, 10), (1, 2, 5)] 3 true).getD default

/-- The same graph after a deactivate / reactivate / deactivate-all
sequence, used by witnesses. -/
def gExampleC2b : Graph :=
  (gExampleC2.applyStatusOps
    [.setEdge 0 false, .setEdge 0 true, .setAll false]).getD default

/-- A three-node graph carrying only the bidirectional edge `0 — 1`
(weight 10): node `2` is isolated, hence unreachable.  Used by the
unreachable-query witnesses. -/
def gExampleC7 : Graph :=
  (Graph.build [(0, 1, 10)] 3 true).getD default

/-- The single-edge graph with its only undirected edge deactivated.
Used to exhibit the engine variant that ignores the active flag. -/
def gExampleC4 : Graph :=
  (gExampleOneEdge.setEdgeStatus 0 false).getD default

/-! ### Semantic notions for the feasibility claim -/

/-- Walking the parent array of a DSU to its fixpoint, WITHOUT path
compression (pure root lookup, fuel-bounded).  Path compression never
changes which root a node reaches, which makes this the right invariant
currency for the union-find proofs. -/
def rootAux : Nat → List Nat → Nat → Option Nat
  | 0, _, _ => none
  | fuel + 1, par, i =>
    if par.getD i i = i then some i else rootAux fuel par (par.getD i i)

/-- Node `x` reaches root `r` in the parent array (some fuel suffices). -/
def Reaches (par : List Nat) (x r : Nat) : Prop :=
  ∃ fuel, rootAux fuel par x = some r

/-- Two nodes lie in the same union-find class (they reach a common
root). -/
def DSU.EquivCls (d : DSU) (x y : Nat) : Prop :=
  ∃ r, Reaches d.parent x r ∧ Reaches d.parent y r

/-- Every node reaches some root. -/
def DSU.TotalRoots (d : DSU) : Prop :=
  ∀ x, ∃ r, Reaches d.parent x r

/-- The parent array only holds in-range entries (true from
construction on; the C++ relies on it, an out-of-range read being UB). -/
def DSUBounded (d : DSU) : Prop :=
  ∀ i, i < d.parent.length → d.parent.getD i i < d.parent.length

/-- Nodes `u` and `v` are joined by one active canonical solution edge
(`source < target`; either orientation). -/
def SolRel (g : Graph) (sol : SFPSolution) (u v : Nat) : Prop :=
  ∃ i, i < g.edges.length ∧ sol.isEdgeActive i = true ∧
    (g.edges.getD i default).source < (g.edges.getD i default).target ∧
    ((u = (g.edges.getD i default).source ∧
      v = (g.edges.getD i default).target) ∨
     (u = (g.edges.getD i default).target ∧
      v = (g.edges.getD i default).source))

/-- Nodes `u` and `v` lie in one connected component of the solution's
active edges — the semantic content of `SFPSolution::isFeasible`. -/
def SolConn (g : Graph) (sol : SFPSolution) : Nat → Nat → Prop :=
  Relation.EqvGen (SolRel g sol)

/-- The graph is connected for the given engine variant: every pair of
in-range nodes is joined by a walk over considered edges (the semantic
form of the `isGraphConnected` precondition the `SFPProblem` constructor
validates). -/
def GConnected (ca : Bool) (g : Graph) : Prop :=
  ∀ u v, u < g.nNodes → v < g.nNodes → ∃ es, Walk ca g u v es

/-- `P` is the graph `g` with (possibly) different, still non-negative,
edge weights: the layout, endpoints, reverse pointers and active flags
all agree.  This is the state of `generate`'s working graph. -/
structure WeightsOnly (g P : Graph) : Prop where
  nn : P.nNodes = g.nNodes
  ne : P.nEdges = g.nEdges
  ptrs : P.ptrs = g.ptrs
  len : P.edges.length = g.edges.length
  src : ∀ x, (P.edges.getD x default).source
    = (g.edges.getD x default).source
  tgt : ∀ x, (P.edges.getD x default).target
    = (g.edges.getD x default).target
  rev : ∀ x, (P.edges.getD x default).reverseEdgePtr
    = (g.edges.getD x default).reverseEdgePtr
  act : ∀ x, (P.edges.getD x default).active
    = (g.edges.getD x default).active
  wnn : ∀ x, 0 ≤ (P.edges.getD x default).weight

/-! ## Theorems -/

/-! ### General list lemmas -/

theorem list_getD_set_self {α : Type _} (l : List α) (k : Nat) (x d : α)
    (h : k < l.length) : (l.set k x).getD k d = x := by
  simp [List.getD_eq_getElem?_getD, List.getElem?_set, h]

theorem list_getD_set_ne {α : Type _} (l : List α) (k m : Nat) (x d : α)
    (h : k ≠ m) : (l.set k x).getD m d = l.getD m d := by
  simp [List.getD_eq_getElem?_getD, List.getElem?_set, h]

theorem list_set_getD_self {α : Type _} (l : List α) (i : Nat) (d : α) :
    l.set i (l.getD i d) = l := by
  induction l generalizing i with
  | nil => simp
  | cons a t ih =>
    cases i with
    | zero => simp [List.getD]
    | succ i => simpa [List.getD] using ih i

theorem list_sum_map_set {α : Type _} (f : α → ℚ) (l : List α) (k : Nat)
    (x d : α) (h : k < l.length) :
    ((l.set k x).map f).sum = (l.map f).sum - f (l.getD k d) + f x := by
  induction l generalizing k with
  | nil => simp at h
  | cons a t ih =>
    cases k with
    | zero => simp [List.getD]; ring
    | succ k =>
      have h' : k < t.length := by simpa using h
      simp only [List.set, List.map_cons, List.sum_cons, List.getD_cons_succ,
        ih k h']
      ring

theorem foldl_add_eq_sum {α : Type _} (f : α → ℚ) (l : List α) (a : ℚ) :
    l.foldl (fun acc e => acc + f e) a = a + (l.map f).sum := by
  induction l generalizing a with
  | nil => simp
  | cons x t ih => simp [ih]; ring

/-! ### Wellformedness characterizations -/

theorem revCheck_iff {g : Graph} {i : Nat} :
    g.revCheck i = true ↔ ∃ j,
      (g.edges.getD i default).reverseEdgePtr = some j ∧
      j < g.edges.length ∧ j ≠ i ∧
      (g.edges.getD j default).reverseEdgePtr = some i ∧
      (g.edges.getD j default).weight = (g.edges.getD i default).weight ∧
      (g.edges.getD j default).active = (g.edges.getD i default).active := by
  unfold Graph.revCheck
  cases h : (g.edges.getD i default).reverseEdgePtr with
  | none => simp
  | some j => simp [and_assoc]

theorem bidiWFb_iff {g : Graph} :
    g.bidiWFb = true ↔ g.isBidirectional = true ∧
      g.nEdges = g.edges.length ∧
      ∀ i < g.edges.length, g.revCheck i = true := by
  simp [Graph.bidiWFb, List.all_eq_true, and_assoc]

@[simp] theorem withActive_rev (e : Edge) (s : Bool) :
    (e.withActive s).reverseEdgePtr = e.reverseEdgePtr := rfl

@[simp] theorem withActive_weight (e : Edge) (s : Bool) :
    (e.withActive s).weight = e.weight := rfl

@[simp] theorem withActive_active (e : Edge) (s : Bool) :
    (e.withActive s).active = s := rfl

@[simp] theorem withActive_source (e : Edge) (s : Bool) :
    (e.withActive s).source = e.source := rfl

@[simp] theorem withActive_target (e : Edge) (s : Bool) :
    (e.withActive s).target = e.target := rfl

@[simp] theorem withWeight_rev (e : Edge) (w : ℚ) :
    (e.withWeight w).reverseEdgePtr = e.reverseEdgePtr := rfl

@[simp] theorem withWeight_weight (e : Edge) (w : ℚ) :
    (e.withWeight w).weight = w := rfl

@[simp] theorem withWeight_active (e : Edge) (w : ℚ) :
    (e.withWeight w).active = e.active := rfl

@[simp] theorem withWeight_source (e : Edge) (w : ℚ) :
    (e.withWeight w).source = e.source := rfl

@[simp] theorem withWeight_target (e : Edge) (w : ℚ) :
    (e.withWeight w).target = e.target := rfl

/-- `setEdgeStatus` keeps a wellformed bidirectional graph wellformed and
keeps `totalWeight` equal to half the active physical weight sum. -/
theorem setEdgeStatus_preserves {g : Graph} {i : Nat} {s : Bool} {g' : Graph}
    (hwf : g.bidiWFb = true) (hinv : 2 * g.totalWeight = g.activeWeightSum)
    (h : g.setEdgeStatus i s = some g') :
    g'.bidiWFb = true ∧ 2 * g'.totalWeight = g'.activeWeightSum := by
  rcases bidiWFb_iff.mp hwf with ⟨hbid, hlen, hall⟩
  unfold Graph.setEdgeStatus at h
  by_cases hb : g.nEdges ≤ i
  · simp [hb] at h
  · rw [if_neg hb] at h
    have hi : i < g.edges.length := by omega
    by_cases hact : (g.edges.getD i default).active = s
    · rw [if_pos hact] at h
      cases h
      exact ⟨hwf, hinv⟩
    · obtain ⟨j, hrevi, hj, hji, hrevj, hwj, haj⟩ :=
        revCheck_iff.mp (hall i hi)
      rw [if_neg hact] at h
      simp only [hbid, if_true, hrevi] at h
      set ti : Edge := (g.edges.getD i default).withActive s with hti
      have hgetj : (g.edges.set i ti).getD j default = g.edges.getD j default :=
        list_getD_set_ne _ _ _ _ _ (Ne.symm hji)
      rw [hgetj] at h
      set tj : Edge := (g.edges.getD j default).withActive s with htj
      cases h
      -- description of the updated edge array
      have hD : ∀ k, ((g.edges.set i ti).set j tj).getD k default =
          if k = j then tj else if k = i then ti
          else g.edges.getD k default := by
        intro k
        by_cases hkj : k = j
        · subst hkj
          rw [list_getD_set_self _ _ _ _ (by simpa using hj), if_pos rfl]
        · rw [list_getD_set_ne _ _ _ _ _ (fun hh => hkj hh.symm), if_neg hkj]
          by_cases hki : k = i
          · subst hki
            rw [list_getD_set_self _ _ _ _ hi, if_pos rfl]
          · rw [list_getD_set_ne _ _ _ _ _ (fun hh => hki hh.symm),
              if_neg hki]
      have hlen2 : ((g.edges.set i ti).set j tj).length = g.edges.length := by
        simp
      have hrevD : ∀ k, (((g.edges.set i ti).set j tj).getD k default).reverseEdgePtr
          = (g.edges.getD k default).reverseEdgePtr := by
        intro k
        rw [hD k]
        split_ifs with h1 h2
        · subst h1; simp [htj]
        · subst h2; simp [hti]
        · rfl
      have hwD : ∀ k, (((g.edges.set i ti).set j tj).getD k default).weight
          = (g.edges.getD k default).weight := by
        intro k
        rw [hD k]
        split_ifs with h1 h2
        · subst h1; simp [htj]
        · subst h2; simp [hti]
        · rfl
      have haD : ∀ k, (((g.edges.set i ti).set j tj).getD k default).active
          = if k = j ∨ k = i then s else (g.edges.getD k default).active := by
        intro k
        rw [hD k]
        by_cases h1 : k = j
        · simp [h1, htj]
        · by_cases h2 : k = i
          · have hij : ¬i = j := fun hh => hji (Eq.symm hh)
            simp [h1, h2, hti, hij]
          · simp [h1, h2]
      constructor
      · -- wellformedness is preserved
        refine bidiWFb_iff.mpr ⟨rfl, by simpa using hlen, ?_⟩
        intro k hk
        have hk' : k < g.edges.length := by simpa using hk
        obtain ⟨m, hrevk, hm, hmk, hrevm, hwm, ham⟩ :=
          revCheck_iff.mp (hall k hk')
        refine revCheck_iff.mpr ⟨m, ?_, by simpa using hm, hmk, ?_, ?_, ?_⟩
        · show (((g.edges.set i ti).set j tj).getD k default).reverseEdgePtr
            = some m
          rw [hrevD k]; exact hrevk
        · show (((g.edges.set i ti).set j tj).getD m default).reverseEdgePtr
            = some k
          rw [hrevD m]; exact hrevm
        · show (((g.edges.set i ti).set j tj).getD m default).weight
            = (((g.edges.set i ti).set j tj).getD k default).weight
          rw [hwD m, hwD k]; exact hwm
        · show (((g.edges.set i ti).set j tj).getD m default).active
            = (((g.edges.set i ti).set j tj).getD k default).active
          rw [haD m, haD k]
          by_cases hkj : k = j
          · subst hkj
            have hmi : m = i := by
              rw [hrevk] at hrevj; exact Option.some.inj hrevj
            subst hmi
            simp
          · by_cases hki : k = i
            · subst hki
              have hmj : m = j := by
                rw [hrevk] at hrevi; exact Option.some.inj hrevi
              subst hmj
              simp
            · have hmj : m ≠ j := by
                intro hh; subst hh
                rw [hrevm] at hrevj
                exact hki (Option.some.inj hrevj)
              have hmi : m ≠ i := by
                intro hh; subst hh
                rw [hrevm] at hrevi
                exact hkj (Option.some.inj hrevi)
              simp only [if_neg (by tauto : ¬(m = j ∨ m = i)),
                if_neg (by tauto : ¬(k = j ∨ k = i))]
              exact ham
      · -- the half-sum bookkeeping
        have hs1 := list_sum_map_set (fun e => if e.active then e.weight else 0)
          (g.edges.set i ti) j tj default (by simpa using hj)
        have hs2 := list_sum_map_set (fun e => if e.active then e.weight else 0)
          g.edges i ti default hi
        have hactA : (g.edges.getD i default).active = !s := by
          cases s <;> revert hact <;>
            cases (g.edges.getD i default).active <;> simp
        have hactJ : (g.edges.getD j default).active = !s := by
          rw [haj, hactA]
        unfold Graph.activeWeightSum
        unfold Graph.activeWeightSum at hinv
        show 2 * (if s = true then g.totalWeight + (g.edges.getD i default).weight
            else g.totalWeight - (g.edges.getD i default).weight) =
          (((g.edges.set i ti).set j tj).map
            (fun e => if e.active = true then e.weight else 0)).sum
        rw [hs1, hgetj, hs2]
        cases s
        · simp only [hti, htj, withActive_active, withActive_weight,
            hactA, hactJ, Bool.not_false, if_true, if_false, Bool.false_eq_true]
          rw [hwj]
          linear_combination hinv
        · simp only [hti, htj, withActive_active, withActive_weight,
            hactA, hactJ, Bool.not_true, if_true, if_false, Bool.false_eq_true]
          rw [hwj]
          linear_combination hinv

theorem list_getD_map {α β : Type _} (f : α → β) (l : List α) (k : Nat)
    (d : α) : (l.map f).getD k (f d) = f (l.getD k d) := by
  simp only [List.getD_eq_getElem?_getD, List.getElem?_map]
  cases l[k]? <;> simp

@[simp] theorem setAll_edges (g : Graph) (s : Bool) :
    (g.setAllEdgesStatus s).edges = g.edges.map (fun e => e.withActive s) :=
  rfl

@[simp] theorem setAll_nEdges (g : Graph) (s : Bool) :
    (g.setAllEdgesStatus s).nEdges = g.nEdges := rfl

@[simp] theorem setAll_isBidirectional (g : Graph) (s : Bool) :
    (g.setAllEdgesStatus s).isBidirectional = g.isBidirectional := rfl

/-- Deactivating everything restores wellformedness and the half-sum
invariant (both sides become `0`). -/
theorem setAllEdgesStatus_false_preserves {g : Graph}
    (hwf : g.bidiWFb = true) :
    (g.setAllEdgesStatus false).bidiWFb = true ∧
      2 * (g.setAllEdgesStatus false).totalWeight =
        (g.setAllEdgesStatus false).activeWeightSum := by
  rcases bidiWFb_iff.mp hwf with ⟨hbid, hlen, hall⟩
  have hgetD : ∀ k, ((g.edges.map (fun e => e.withActive false)).getD k default)
      = (g.edges.getD k default).withActive false := by
    intro k
    have hdef : (default : Edge) = (default : Edge).withActive false := rfl
    calc (g.edges.map (fun e => e.withActive false)).getD k default
        = (g.edges.map (fun e => e.withActive false)).getD k
            ((default : Edge).withActive false) := by rw [← hdef]
      _ = (g.edges.getD k default).withActive false :=
            list_getD_map (fun e => e.withActive false) g.edges k default
  constructor
  · refine bidiWFb_iff.mpr ⟨by simpa using hbid, ?_, ?_⟩
    · simpa using hlen
    · intro k hk
      have hk' : k < g.edges.length := by simpa using hk
      obtain ⟨m, hrevk, hm, hmk, hrevm, hwm, ham⟩ :=
        revCheck_iff.mp (hall k hk')
      refine revCheck_iff.mpr ⟨m, ?_, by simpa using hm, hmk, ?_, ?_, ?_⟩
      · simp only [setAll_edges, hgetD, withActive_rev]
        exact hrevk
      · simp only [setAll_edges, hgetD, withActive_rev]
        exact hrevm
      · simp only [setAll_edges, hgetD, withActive_weight]
        exact hwm
      · simp only [setAll_edges, hgetD, withActive_active]
  · show 2 * (0 : ℚ) = Graph.activeWeightSum _
    unfold Graph.activeWeightSum
    rw [setAll_edges, List.map_map, List.sum_eq_zero]
    · ring
    · intro x hx
      simp only [List.mem_map] at hx
      obtain ⟨e, _, he⟩ := hx
      simp [← he, Function.comp]

/-- Any sequence of `setEdgeStatus`/`setAllEdgesStatus(false)` calls keeps a
wellformed bidirectional graph wellformed and keeps `totalWeight` equal to
half the active physical weight sum. -/
theorem applyStatusOps_preserves {ops : List StatusOp} {g g' : Graph}
    (hops : ∀ op ∈ ops, op ≠ StatusOp.setAll true)
    (hwf : g.bidiWFb = true) (hinv : 2 * g.totalWeight = g.activeWeightSum)
    (h : g.applyStatusOps ops = some g') :
    g'.bidiWFb = true ∧ 2 * g'.totalWeight = g'.activeWeightSum := by
  induction ops generalizing g with
  | nil =>
    cases h
    exact ⟨hwf, hinv⟩
  | cons op rest ih =>
    rw [Graph.applyStatusOps] at h
    obtain ⟨g1, h1, h2⟩ := Option.bind_eq_some.mp h
    have hops' : ∀ op ∈ rest, op ≠ StatusOp.setAll true :=
      fun o ho => hops o (List.mem_cons_of_mem _ ho)
    cases op with
    | setEdge i s =>
      obtain ⟨hwf1, hinv1⟩ := setEdgeStatus_preserves hwf hinv h1
      exact ih hops' hwf1 hinv1 h2
    | setAll s =>
      cases s
      · cases h1
        obtain ⟨hwf1, hinv1⟩ := setAllEdgesStatus_false_preserves hwf
        exact ih hops' hwf1 hinv1 h2
      · exact absurd rfl (hops _ (List.mem_cons_self _ _))

theorem map_set_preserved {α β : Type _} (f : α → β) (l : List α) (i : Nat)
    (x d : α) (hx : f x = f (l.getD i d)) : (l.set i x).map f = l.map f := by
  rw [List.map_set, hx, ← list_getD_map f l i d, list_set_getD_self]

theorem rowsumTotal_set_append (adj : List (List (Nat × ℚ))) (u t : Nat)
    (w : ℚ) (hu : u < adj.length) :
    rowsumTotal (adj.set u (adj.getD u [] ++ [(t, w)]))
      = rowsumTotal adj + w := by
  unfold rowsumTotal
  rw [list_sum_map_set (fun row => (row.map Prod.snd).sum) adj u
    (adj.getD u [] ++ [(t, w)]) [] hu]
  simp
  ring

theorem buildAdjStep_rowsum (bid : Bool) (adj : List (List (Nat × ℚ)))
    (e : Nat × Nat × ℚ) (h1 : e.1 < adj.length) (h2 : e.2.1 < adj.length) :
    rowsumTotal (buildAdjStep bid adj e)
      = rowsumTotal adj + (if bid then 2 else 1) * e.2.2 ∧
    (buildAdjStep bid adj e).length = adj.length := by
  unfold buildAdjStep
  cases bid
  · simp only [Bool.false_eq_true, if_false]
    exact ⟨by rw [rowsumTotal_set_append adj e.1 e.2.1 e.2.2 h1]; ring,
      by simp⟩
  · simp only [if_true]
    constructor
    · rw [rowsumTotal_set_append _ e.2.1 e.1 e.2.2 (by simpa using h2),
        rowsumTotal_set_append adj e.1 e.2.1 e.2.2 h1]
      ring
    · simp

theorem buildAdj_foldl_rowsum (bid : Bool) (l : List (Nat × Nat × ℚ))
    (adj : List (List (Nat × ℚ)))
    (hb : ∀ e ∈ l, e.1 < adj.length ∧ e.2.1 < adj.length) :
    rowsumTotal (l.foldl (buildAdjStep bid) adj)
      = rowsumTotal adj
        + (if bid then 2 else 1) * (l.map (fun e => e.2.2)).sum ∧
    (l.foldl (buildAdjStep bid) adj).length = adj.length := by
  induction l generalizing adj with
  | nil => simp
  | cons e rest ih =>
    have he := hb e (List.mem_cons_self _ _)
    obtain ⟨hr, hl⟩ := buildAdjStep_rowsum bid adj e he.1 he.2
    have hb' : ∀ x ∈ rest, x.1 < (buildAdjStep bid adj e).length ∧
        x.2.1 < (buildAdjStep bid adj e).length := by
      rw [hl]; exact fun x hx => hb x (List.mem_cons_of_mem _ hx)
    obtain ⟨ih1, ih2⟩ := ih (buildAdjStep bid adj e) hb'
    refine ⟨?_, by simp [List.foldl_cons, ih2, hl]⟩
    simp only [List.foldl_cons, ih1, hr, List.map_cons, List.sum_cons]
    ring

theorem sum_map_flatMap {α β : Type _} (l : List α) (h : α → List β)
    (f : β → ℚ) :
    ((l.flatMap h).map f).sum = (l.map (fun a => ((h a).map f).sum)).sum := by
  induction l with
  | nil => simp
  | cons a t ih => simp [List.flatMap_cons, ih]

theorem sum_map_enumFrom_snd {α : Type _} (l : List α) (n : Nat) (F : α → ℚ) :
    ((List.enumFrom n l).map (fun p => F p.2)).sum = (l.map F).sum := by
  induction l generalizing n with
  | nil => simp
  | cons a t ih => simp [List.enumFrom, ih]

theorem map_linkReverseEdges {β : Type _} (f : Edge → β) (ptrs : List Nat)
    (es : List Edge)
    (hf : ∀ (e : Edge) (r : Option Nat),
      f { e with reverseEdgePtr := r } = f e) :
    (linkReverseEdges ptrs es).map f = es.map f := by
  unfold linkReverseEdges
  suffices H : ∀ (idxs : List Nat) (acc : List Edge),
      acc.map f = es.map f →
      (idxs.foldl (fun edges i =>
        let e := edges.getD i default
        if e.reverseEdgePtr.isSome then edges
        else
          match findEdgeIdx ptrs edges e.target e.source with
          | none => edges
          | some revIdx =>
            let edges1 := edges.set i { e with reverseEdgePtr := some revIdx }
            edges1.set revIdx
              { edges1.getD revIdx default with reverseEdgePtr := some i })
        acc).map f = es.map f by
    exact H (List.range es.length) es rfl
  intro idxs
  induction idxs with
  | nil => intro acc h; simpa using h
  | cons i rest ih =>
    intro acc h
    rw [List.foldl_cons]
    apply ih
    by_cases hsome : ((acc.getD i default).reverseEdgePtr).isSome = true
    · rw [if_pos hsome]; exact h
    · rw [if_neg hsome]
      cases hfind : findEdgeIdx ptrs acc (acc.getD i default).target
          (acc.getD i default).source with
      | none => simp only [hfind]; exact h
      | some r =>
        simp only [hfind]
        rw [map_set_preserved f _ r _ default (by rw [hf]),
          map_set_preserved f _ i _ default (by rw [hf])]
        exact h

/-- Right after a bidirectional construction, `totalWeight` is half the
active physical weight sum (each input edge is stored twice, both copies
active, but its weight is added to `totalWeight` once). -/
theorem build_true_halfsum {l : List (Nat × Nat × ℚ)} {n : Nat} {g : Graph}
    (h : Graph.build l n true = some g) :
    2 * g.totalWeight = g.activeWeightSum := by
  unfold Graph.build at h
  by_cases h1 : n = 0
  · simp [h1] at h
  by_cases h2 : l.isEmpty
  · simp [h1, h2] at h
  by_cases h3 : l.any (fun e => n ≤ e.1 || n ≤ e.2.1)
  · simp [h1, h2, h3] at h
  simp only [h1, h2, h3, if_false, Bool.false_eq_true] at h
  cases h
  have hb : ∀ e ∈ l, e.1 < n ∧ e.2.1 < n := by
    intro e he
    have h3' : l.any (fun e => n ≤ e.1 || n ≤ e.2.1) = false :=
      Bool.not_eq_true _ |>.mp h3
    have := List.any_eq_false.mp h3' e he
    simp only [Bool.or_eq_true, decide_eq_true_eq, not_or] at this
    omega
  show 2 * (l.foldl (fun acc e => acc + e.2.2) 0) =
    (List.map (fun e => if e.active = true then e.weight else 0)
      (linkReverseEdges
        (List.scanl (fun x1 x2 => x1 + x2) 0
          (List.map List.length (buildAdj n l true)))
        ((buildAdj n l true).enum.flatMap fun p =>
          List.map (fun tw => Edge.mk p.1 tw.1 none tw.2 true) p.2))).sum
  rw [map_linkReverseEdges (fun e => if e.active = true then e.weight else 0)
    _ _ (fun e r => rfl)]
  rw [sum_map_flatMap]
  have hinner : ∀ p ∈ (buildAdj n l true).enum,
      (((p.2.map (fun tw => Edge.mk p.1 tw.1 none tw.2 true)).map
        (fun e => if e.active then e.weight else 0)).sum)
      = (p.2.map Prod.snd).sum := by
    intro p _
    rw [List.map_map]
    congr 1
  rw [List.map_congr_left hinner]
  rw [show List.enum (buildAdj n l true) = List.enumFrom 0 (buildAdj n l true)
    from rfl]
  rw [show (fun a : ℕ × List (ℕ × ℚ) => (List.map Prod.snd a.2).sum)
      = ((fun row : List (ℕ × ℚ) => (List.map Prod.snd row).sum) ∘ Prod.snd)
    from rfl, ← List.map_map, List.enumFrom_map_snd]
  have hrepl : (List.replicate n ([] : List (Nat × ℚ))).length = n := by simp
  obtain ⟨hrow, _⟩ := buildAdj_foldl_rowsum true l (List.replicate n [])
    (by intro e he; rw [hrepl]; exact hb e he)
  rw [show ((buildAdj n l true).map
      (fun row => (row.map Prod.snd).sum)).sum
    = rowsumTotal (l.foldl (buildAdjStep true) (List.replicate n []))
    from rfl]
  rw [hrow, foldl_add_eq_sum (fun e => e.2.2) l 0]
  have hz : rowsumTotal (List.replicate n ([] : List (Nat × ℚ))) = 0 := by
    unfold rowsumTotal
    rw [List.map_replicate]
    simp
  rw [hz]
  simp only [if_true]
  ring

unseal Rat.add Rat.mul Rat.sub Rat.inv in
/-- **C2, counterexample.**  Right after constructing the (default,
bidirectional) graph on one input edge `(0,1,10)`, `totalWeight` is `10`
while the sum of the weights of the edges whose active flag is true is `20`
(the logical edge is stored as two active physical edges): the claimed
equality fails already at construction. -/
theorem C2_totalWeight_counterexample :
    ∃ g, Graph.build [(0, 1, 10)] 2 true = some g ∧
      g.totalWeight = 10 ∧ g.activeWeightSum = 20 ∧
      g.totalWeight ≠ g.activeWeightSum := by decide

/-- **C2 (amended).**  For every graph built with `isBidirectional = true`,
`totalWeight` equals *half* the sum of the weights of the active physical
edges (equivalently, the sum over canonical undirected edges), both right
after construction and — for graphs whose reverse pointers form a proper
pairing — after any sequence of `setEdgeStatus` and
`setAllEdgesStatus(false)` calls.  (`setAllEdgesStatus(true)` instead sets
`totalWeight` to the sum over *all* physical edges, double-counting each
undirected edge, and is therefore excluded.) -/
theorem C2_totalWeight_half_active_sum :
    (∀ (edgeList : List (Nat × Nat × ℚ)) (nNodes : Nat) (g : Graph),
        Graph.build edgeList nNodes true = some g →
        2 * g.totalWeight = g.activeWeightSum) ∧
    (∀ (g : Graph) (ops : List StatusOp) (g' : Graph),
        (∀ op ∈ ops, op ≠ StatusOp.setAll true) →
        g.bidiWFb = true → 2 * g.totalWeight = g.activeWeightSum →
        g.applyStatusOps ops = some g' →
        2 * g'.totalWeight = g'.activeWeightSum) :=
  ⟨fun _ _ _ h => build_true_halfsum h,
   fun _ _ _ hops hwf hinv h => (applyStatusOps_preserves hops hwf hinv h).2⟩

unseal Rat.add Rat.mul Rat.sub Rat.inv in
/-- Witness for `C2_totalWeight_half_active_sum` on the concrete path graph
`0 — 1 — 2`, once right after construction and once after a mutation
sequence. -/
theorem C2_totalWeight_half_active_sum_witness :
    (2 * gExampleC2.totalWeight = gExampleC2.activeWeightSum) ∧
    (2 * gExampleC2b.totalWeight = gExampleC2b.activeWeightSum) :=
  ⟨C2_totalWeight_half_active_sum.1 [(0, 1, 10), (1, 2, 5)] 3 gExampleC2
      (by decide),
   C2_totalWeight_half_active_sum.2 gExampleC2
      [.setEdge 0 false, .setEdge 0 true, .setAll false] gExampleC2b
      (by decide) (by decide) (by decide) (by decide)⟩

/-! ### Solution / Move claims -/

theorem list_getElem?_eq_some_getD {α : Type _} (a : List α) (n : Nat)
    (d : α) (h : n < a.length) : a[n]? = some (a.getD n d) := by
  rw [List.getD_eq_getElem?_getD, List.getElem?_eq_getElem h]
  rfl

/-- Setting positions `i`, `j` to `!v` and then back to `v` restores a
boolean list whose values at `i` and `j` were `v`. -/
theorem list_set4_restore (a : List Bool) (i j : Nat) (v : Bool)
    (hi : a.getD i false = v) (hj : a.getD j false = v) :
    ((((a.set i (!v)).set j (!v)).set i v).set j v) = a := by
  apply List.ext_getElem?
  intro n
  by_cases hnj : j = n
  · subst hnj
    by_cases hl : j < a.length
    · have hv : a[j]? = some v := by
        rw [list_getElem?_eq_some_getD a j false hl, hj]
      simp [List.getElem?_set, hl, hv]
    · simp [List.getElem?_set, hl,
        List.getElem?_eq_none (show a.length ≤ j by omega)]
  · by_cases hni : i = n
    · subst hni
      by_cases hl : i < a.length
      · have hv : a[i]? = some v := by
          rw [list_getElem?_eq_some_getD a i false hl, hi]
        simp [List.getElem?_set, hl, hnj, hv]
      · simp [List.getElem?_set, hl, hnj,
          List.getElem?_eq_none (show a.length ≤ i by omega)]
    · simp [List.getElem?_set, hnj, hni]

/-- Setting one position to `!v` and back to `v` restores a boolean list
whose value there was `v` (the `reverseEdgePtr = -1` case). -/
theorem list_set2_restore (a : List Bool) (i : Nat) (v : Bool)
    (hi : a.getD i false = v) :
    ((a.set i (!v)).set i v) = a := by
  rw [List.set_set, ← hi, list_set_getD_self]

/-- `internalAdd` on an inactive edge: both copies are switched on. -/
theorem internalAdd_eq_of_inactive (g : Graph) (a : List Bool) (c : ℚ)
    (i : Nat) (h1 : a.getD i false = false) :
    SFPSolution.internalAdd g ⟨a, c⟩ i =
      ⟨match (g.edges.getD i default).reverseEdgePtr with
        | some j => (a.set i true).set j true
        | none => a.set i true, c⟩ := by
  rw [SFPSolution.internalAdd, if_pos h1]
  cases (g.edges.getD i default).reverseEdgePtr <;> rfl

/-- `internalAdd` on an active edge: no effect. -/
theorem internalAdd_eq_of_active (g : Graph) (a : List Bool) (c : ℚ)
    (i : Nat) (h1 : a.getD i false = true) :
    SFPSolution.internalAdd g ⟨a, c⟩ i = ⟨a, c⟩ := by
  rw [SFPSolution.internalAdd, if_neg (by rw [h1]; simp)]

/-- `internalRemove` on an active edge: both copies are switched off. -/
theorem internalRemove_eq_of_active (g : Graph) (a : List Bool) (c : ℚ)
    (i : Nat) (h1 : a.getD i false = true) :
    SFPSolution.internalRemove g ⟨a, c⟩ i =
      ⟨match (g.edges.getD i default).reverseEdgePtr with
        | some j => (a.set i false).set j false
        | none => a.set i false, c⟩ := by
  rw [SFPSolution.internalRemove, if_pos h1]
  cases (g.edges.getD i default).reverseEdgePtr <;> rfl

/-- `internalRemove` on an inactive edge: no effect. -/
theorem internalRemove_eq_of_inactive (g : Graph) (a : List Bool) (c : ℚ)
    (i : Nat) (h1 : a.getD i false = false) :
    SFPSolution.internalRemove g ⟨a, c⟩ i = ⟨a, c⟩ := by
  rw [SFPSolution.internalRemove, if_neg (by rw [h1]; simp)]

/-- Definitional behaviour of `apply` on an `ADD` move. -/
theorem apply_ADD (g : Graph) (s : SFPSolution) (i : Nat) (d : ℚ) :
    SFPMove.apply ⟨.ADD, i, d⟩ g s =
      ⟨(s.internalAdd g i).activeEdges,
        (s.internalAdd g i).currentCost + d⟩ := rfl

/-- Definitional behaviour of `apply` on a `REMOVE` move. -/
theorem apply_REMOVE (g : Graph) (s : SFPSolution) (i : Nat) (d : ℚ) :
    SFPMove.apply ⟨.REMOVE, i, d⟩ g s =
      ⟨(s.internalRemove g i).activeEdges,
        (s.internalRemove g i).currentCost - d⟩ := rfl

/-- Definitional behaviour of `undo` on an `ADD` move. -/
theorem undo_ADD (g : Graph) (s : SFPSolution) (i : Nat) (d : ℚ) :
    SFPMove.undo ⟨.ADD, i, d⟩ g s =
      ⟨(s.internalRemove g i).activeEdges,
        (s.internalRemove g i).currentCost - d⟩ := rfl

/-- Definitional behaviour of `undo` on a `REMOVE` move. -/
theorem undo_REMOVE (g : Graph) (s : SFPSolution) (i : Nat) (d : ℚ) :
    SFPMove.undo ⟨.REMOVE, i, d⟩ g s =
      ⟨(s.internalAdd g i).activeEdges,
        (s.internalAdd g i).currentCost + d⟩ := rfl

unseal Rat.add Rat.mul Rat.sub Rat.inv in
/-- **C6, counterexample.**  On the one-edge graph, applying an `Add` move
for edge `0` to a solution in which edge `0` (and its mirror `1`) is
*already active* and then undoing it does not restore the solution: the
`apply` leaves the bitset unchanged (guard in `internalAdd`), but the
`undo`'s `internalRemove` deactivates both copies. -/
theorem C6_apply_undo_counterexample :
    (SFPMove.mk .ADD 0 10).undo gExampleOneEdge
        ((SFPMove.mk .ADD 0 10).apply gExampleOneEdge
          ⟨[true, true], 10⟩)
      = ⟨[false, false], 10⟩ ∧
    (⟨[false, false], 10⟩ : SFPSolution) ≠ ⟨[true, true], 10⟩ := by decide

/-- **C6 (amended).**  `apply` followed by `undo` restores the solution
exactly — bitset and cached cost — provided the move's kind matches the
edge's current status (an `Add` move edits an inactive edge, a `Remove`
move an active one) and the status of the mirror copy agrees, which is how
every move produced and applied by the heuristics is used. -/
theorem C6_apply_undo_inverse (g : Graph) (s : SFPSolution) (m : SFPMove)
    (hlen : m.edgeIndex < s.activeEdges.length)
    (hA : m.type = .ADD → s.isEdgeActive m.edgeIndex = false ∧
      (∀ j, (g.edges.getD m.edgeIndex default).reverseEdgePtr = some j →
        s.isEdgeActive j = false))
    (hR : m.type = .REMOVE → s.isEdgeActive m.edgeIndex = true ∧
      (∀ j, (g.edges.getD m.edgeIndex default).reverseEdgePtr = some j →
        s.isEdgeActive j = true)) :
    m.undo g (m.apply g s) = s := by
  obtain ⟨a, c⟩ := s
  obtain ⟨t, i, d⟩ := m
  simp only at hlen
  cases t
  · -- ADD then undo
    obtain ⟨h1, h2⟩ := hA rfl
    simp only [SFPSolution.isEdgeActive] at h1 h2
    rw [apply_ADD, internalAdd_eq_of_inactive g a c i h1]
    cases hr : (g.edges.getD i default).reverseEdgePtr with
    | none =>
      simp only [hr]
      rw [undo_ADD, internalRemove_eq_of_active g _ _ i
        (list_getD_set_self a i true false hlen)]
      simp only [hr]
      have hres := list_set2_restore a i false h1
      simp only [Bool.not_false] at hres
      rw [hres]
      simp only [SFPSolution.mk.injEq, true_and]
      ring
    | some j =>
      have hj := h2 j hr
      simp only [hr]
      have hset : ((a.set i true).set j true).getD i false = true := by
        by_cases hij : j = i
        · subst hij
          exact list_getD_set_self _ _ _ _ (by simpa using hlen)
        · rw [list_getD_set_ne _ _ _ _ _ hij]
          exact list_getD_set_self _ _ _ _ hlen
      rw [undo_ADD, internalRemove_eq_of_active g _ _ i hset]
      simp only [hr]
      have hres := list_set4_restore a i j false h1 hj
      simp only [Bool.not_false] at hres
      rw [hres]
      simp only [SFPSolution.mk.injEq, true_and]
      ring
  · -- REMOVE then undo
    obtain ⟨h1, h2⟩ := hR rfl
    simp only [SFPSolution.isEdgeActive] at h1 h2
    rw [apply_REMOVE, internalRemove_eq_of_active g a c i h1]
    cases hr : (g.edges.getD i default).reverseEdgePtr with
    | none =>
      simp only [hr]
      rw [undo_REMOVE, internalAdd_eq_of_inactive g _ _ i
        (list_getD_set_self a i false false hlen)]
      simp only [hr]
      have hres := list_set2_restore a i true h1
      simp only [Bool.not_true] at hres
      rw [hres]
      simp only [SFPSolution.mk.injEq, true_and]
      ring
    | some j =>
      have hj := h2 j hr
      simp only [hr]
      have hset : ((a.set i false).set j false).getD i false = false := by
        by_cases hij : j = i
        · subst hij
          exact list_getD_set_self _ _ _ _ (by simpa using hlen)
        · rw [list_getD_set_ne _ _ _ _ _ hij]
          exact list_getD_set_self _ _ _ _ hlen
      rw [undo_REMOVE, internalAdd_eq_of_inactive g _ _ i hset]
      simp only [hr]
      have hres := list_set4_restore a i j true h1 hj
      simp only [Bool.not_true] at hres
      rw [hres]
      simp only [SFPSolution.mk.injEq, true_and]
      ring

unseal Rat.add Rat.mul Rat.sub Rat.inv in
/-- Witness for `C6_apply_undo_inverse`: an `Add` move on the inactive edge
`0` of the one-edge graph, applied and undone on the empty solution. -/
theorem C6_apply_undo_inverse_witness :
    (SFPMove.mk .ADD 0 10).undo gExampleOneEdge
        ((SFPMove.mk .ADD 0 10).apply gExampleOneEdge ⟨[false, false], 0⟩)
      = ⟨[false, false], 0⟩ :=
  C6_apply_undo_inverse gExampleOneEdge ⟨[false, false], 0⟩
    (SFPMove.mk .ADD 0 10) (by decide)
    (fun _ => ⟨by decide, fun j hj => by
      have hj' : (gExampleOneEdge.edges.getD 0 default).reverseEdgePtr
          = some j := hj
      have hh : (gExampleOneEdge.edges.getD 0 default).reverseEdgePtr
          = some 1 := by decide
      rw [hh] at hj'
      have hj1 : j = 1 := (Option.some.inj hj').symm
      subst hj1
      decide⟩)
    (fun h => by cases h)

/-- **C9.**  The no-op guard in `internalAdd`/`internalRemove` protects the
bitset only, not the cached cost: applying an `Add` move whose edge is
already active leaves `activeEdges` unchanged but still adds `costDelta` to
`currentCost`, and applying a `Remove` move whose edge is already inactive
leaves `activeEdges` unchanged but still subtracts `costDelta`; whenever
`costDelta ≠ 0`, such a call breaks the
`currentCost = Σ weight(active edges)` invariant. -/
theorem C9_guard_protects_bitset_only (g : Graph) (s : SFPSolution)
    (iA iR : Nat) (dA dR : ℚ)
    (hA : s.isEdgeActive iA = true) (hR : s.isEdgeActive iR = false) :
    (((SFPMove.mk .ADD iA dA).apply g s).activeEdges = s.activeEdges ∧
     ((SFPMove.mk .ADD iA dA).apply g s).currentCost = s.currentCost + dA ∧
     (s.currentCost = SFPSolution.activeCostSum g s → dA ≠ 0 →
       ((SFPMove.mk .ADD iA dA).apply g s).currentCost ≠
         SFPSolution.activeCostSum g ((SFPMove.mk .ADD iA dA).apply g s))) ∧
    (((SFPMove.mk .REMOVE iR dR).apply g s).activeEdges = s.activeEdges ∧
     ((SFPMove.mk .REMOVE iR dR).apply g s).currentCost
        = s.currentCost - dR ∧
     (s.currentCost = SFPSolution.activeCostSum g s → dR ≠ 0 →
       ((SFPMove.mk .REMOVE iR dR).apply g s).currentCost ≠
         SFPSolution.activeCostSum g
           ((SFPMove.mk .REMOVE iR dR).apply g s))) := by
  obtain ⟨a, c⟩ := s
  simp only [SFPSolution.isEdgeActive] at hA hR
  have eA : SFPMove.apply ⟨.ADD, iA, dA⟩ g ⟨a, c⟩ = ⟨a, c + dA⟩ := by
    rw [apply_ADD, internalAdd_eq_of_active g a c iA hA]
  have eR : SFPMove.apply ⟨.REMOVE, iR, dR⟩ g ⟨a, c⟩ = ⟨a, c - dR⟩ := by
    rw [apply_REMOVE, internalRemove_eq_of_inactive g a c iR hR]
  have hsum : ∀ c' : ℚ, SFPSolution.activeCostSum g ⟨a, c'⟩
      = SFPSolution.activeCostSum g ⟨a, c⟩ := fun c' => rfl
  refine ⟨⟨by rw [eA], by rw [eA], ?_⟩, ⟨by rw [eR], by rw [eR], ?_⟩⟩
  · intro hinv hd
    rw [eA, hsum (c + dA), ← hinv]
    intro hh
    have hh' : c + dA = c := hh
    apply hd
    linarith
  · intro hinv hd
    rw [eR, hsum (c - dR), ← hinv]
    intro hh
    have hh' : c - dR = c := hh
    apply hd
    linarith

unseal Rat.add Rat.mul Rat.sub Rat.inv in
/-- Witness for `C9_guard_protects_bitset_only`: the one-edge graph, a
solution with edge `0` active and edge `1` (artificially) inactive. -/
theorem C9_guard_protects_bitset_only_witness :
    (((SFPMove.mk .ADD 0 7).apply gExampleOneEdge
        ⟨[true, false], 10⟩).activeEdges = [true, false] ∧
     ((SFPMove.mk .ADD 0 7).apply gExampleOneEdge
        ⟨[true, false], 10⟩).currentCost = 10 + 7 ∧
     ((10 : ℚ) = SFPSolution.activeCostSum gExampleOneEdge
        ⟨[true, false], 10⟩ → (7 : ℚ) ≠ 0 →
       ((SFPMove.mk .ADD 0 7).apply gExampleOneEdge
          ⟨[true, false], 10⟩).currentCost ≠
         SFPSolution.activeCostSum gExampleOneEdge
           ((SFPMove.mk .ADD 0 7).apply gExampleOneEdge
             ⟨[true, false], 10⟩))) ∧
    (((SFPMove.mk .REMOVE 1 7).apply gExampleOneEdge
        ⟨[true, false], 10⟩).activeEdges = [true, false] ∧
     ((SFPMove.mk .REMOVE 1 7).apply gExampleOneEdge
        ⟨[true, false], 10⟩).currentCost = 10 - 7 ∧
     ((10 : ℚ) = SFPSolution.activeCostSum gExampleOneEdge
        ⟨[true, false], 10⟩ → (7 : ℚ) ≠ 0 →
       ((SFPMove.mk .REMOVE 1 7).apply gExampleOneEdge
          ⟨[true, false], 10⟩).currentCost ≠
         SFPSolution.activeCostSum gExampleOneEdge
           ((SFPMove.mk .REMOVE 1 7).apply gExampleOneEdge
             ⟨[true, false], 10⟩))) :=
  C9_guard_protects_bitset_only gExampleOneEdge ⟨[true, false], 10⟩
    0 1 7 7 (by decide) (by decide)

/-! ### Shortest-path engine: basic lemmas -/

theorem popMin_mem {pq : List (ℚ × Nat)} {m : ℚ × Nat}
    {rest : List (ℚ × Nat)} (h : popMin pq = some (m, rest)) :
    m ∈ pq ∧ rest = pq.erase m := by
  cases pq with
  | nil => simp [popMin] at h
  | cons x xs =>
    simp only [popMin, Option.some.injEq, Prod.mk.injEq] at h
    obtain ⟨hm, hrest⟩ := h
    subst hm
    refine ⟨?_, hrest.symm⟩
    clear hrest
    -- the foldl minimum is an element of x :: xs
    suffices H : ∀ (l : List (ℚ × Nat)) (b : ℚ × Nat),
        l.foldl (fun b a => if pqLe b a then b else a) b = b ∨
        l.foldl (fun b a => if pqLe b a then b else a) b ∈ l by
      rcases H xs x with h | h
      · rw [h]; exact List.mem_cons_self _ _
      · exact List.mem_cons_of_mem _ h
    intro l
    induction l with
    | nil => intro b; left; rfl
    | cons a t ih =>
      intro b
      rw [List.foldl_cons]
      by_cases hb : pqLe b a
      · rcases ih b with h | h
        · left; rw [if_pos hb]; exact h
        · right; rw [if_pos hb]; exact List.mem_cons_of_mem _ h
      · rcases ih a with h | h
        · right; rw [if_neg hb, h]; exact List.mem_cons_self _ _
        · right; rw [if_neg hb]; exact List.mem_cons_of_mem _ h

theorem popMin_rest_subset {pq : List (ℚ × Nat)} {m : ℚ × Nat}
    {rest : List (ℚ × Nat)} (h : popMin pq = some (m, rest)) :
    ∀ x ∈ rest, x ∈ pq := by
  intro x hx
  rw [(popMin_mem h).2] at hx
  exact List.mem_of_mem_erase hx

theorem popMin_rest_of_ne {pq : List (ℚ × Nat)} {m : ℚ × Nat}
    {rest : List (ℚ × Nat)} (h : popMin pq = some (m, rest)) :
    ∀ x ∈ pq, x ≠ m → x ∈ rest := by
  intro x hx hne
  rw [(popMin_mem h).2]
  exact List.mem_erase_of_ne hne |>.mpr hx

/-- **C10.**  For every graph and every in-range node `s` (with a
wellformed engine and at least one unit of loop fuel), `getShortPath` on
the query `(s, s)` succeeds immediately with the empty edge path and cost
`0` — a success result distinct from the unreachable sentinel
`([], -1)` — independently of `s`'s incident edges and of the
active-check variant. -/
theorem C10_self_query_empty_path_cost_zero (checkActive : Bool)
    (eng : DijkstraEngine) (g : Graph) (s : Nat) (fuel : Nat)
    (hwf : eng.engWFb = true) (hn : eng.nNodes = g.nNodes)
    (hs : s < g.nNodes) (hfuel : 1 ≤ fuel) :
    ∃ eng', eng.getShortPath checkActive g s s fuel
      = some (([], 0), eng') := by
  have hlens : eng.dist.length = eng.nNodes ∧
      eng.visitedToken.length = eng.nNodes ∧
      eng.parent.length = eng.nNodes := by
    simp only [DijkstraEngine.engWFb, Bool.and_eq_true, beq_iff_eq] at hwf
    exact ⟨hwf.1.1.1, hwf.1.1.2, hwf.1.2⟩
  obtain ⟨fuel, rfl⟩ : ∃ f, fuel = f + 1 := ⟨fuel - 1, by omega⟩
  have hpop : popMin [((0 : ℚ), s)] = some ((0, s), []) := by
    simp [popMin, List.erase_cons]
  have hvt : (eng.visitedToken.set s (eng.currentToken + 1)).getD s 0
      = eng.currentToken + 1 :=
    list_getD_set_self _ _ _ _ (by rw [hlens.2.1, hn]; omega)
  have hdist : (eng.dist.set s 0).getD s 0 = 0 :=
    list_getD_set_self _ _ _ _ (by rw [hlens.1, hn]; omega)
  have hloop : dijkstraLoop checkActive g (eng.currentToken + 1) s (fuel + 1)
      { dist := eng.dist.set s 0
        visitedToken := eng.visitedToken.set s (eng.currentToken + 1)
        parent := eng.parent.set s none
        pq := [(0, s)] } =
      some (true,
        { dist := eng.dist.set s 0
          visitedToken := eng.visitedToken.set s (eng.currentToken + 1)
          parent := eng.parent.set s none
          pq := [] }) := by
    rw [dijkstraLoop]
    simp only [hpop]
    rw [if_neg (by
      intro hcon
      have := hcon.2
      rw [hdist] at this
      exact absurd this (by simp))]
    simp
  unfold DijkstraEngine.getShortPath
  simp only [hloop, if_pos rfl]
  rw [show eng.nNodes + 1 = (eng.nNodes) + 1 from rfl]
  simp only [reconstructPath, if_pos rfl, hdist]
  exact ⟨_, rfl⟩

unseal Rat.add Rat.mul Rat.sub Rat.inv in
/-- Witness for `C10_self_query_empty_path_cost_zero` on the concrete path
graph with the query `(1, 1)`. -/
theorem C10_self_query_empty_path_cost_zero_witness :
    ∃ eng', (DijkstraEngine.init 3).getShortPath true gExampleC2 1 1 5
      = some (([], 0), eng') :=
  C10_self_query_empty_path_cost_zero true (DijkstraEngine.init 3)
    gExampleC2 1 5 (by decide) (by decide) (by decide) (by decide)

theorem list_getD_mem {α : Type _} (l : List α) (i : Nat) (d : α)
    (h : i < l.length) : l.getD i d ∈ l := by
  rw [List.getD_eq_getElem?_getD, List.getElem?_eq_getElem h]
  exact List.getElem_mem h

theorem csrWF_of_b {g : Graph} (h : g.csrWFb = true) : CsrWF g := by
  simp only [Graph.csrWFb, Bool.and_eq_true, beq_iff_eq, List.all_eq_true,
    List.mem_range, decide_eq_true_eq] at h
  obtain ⟨⟨⟨⟨⟨⟨h1, h2⟩, h3⟩, h4⟩, h5⟩, h6⟩, h7⟩ := h
  refine ⟨h1, h2, h3, h4, h5, ?_, ?_, ?_⟩
  · intro u hu i hi1 hi2
    have := h6 u hu
    have hmem : i ∈ List.range' (g.ptrs.getD u 0)
        (g.ptrs.getD (u + 1) 0 - g.ptrs.getD u 0) := by
      rw [List.mem_range'_1]
      omega
    simpa using this i hmem
  · intro i hi
    have := h7 (g.edges.getD i default) (list_getD_mem _ _ _ (by omega))
    exact this.1
  · intro i hi
    have := h7 (g.edges.getD i default) (list_getD_mem _ _ _ (by omega))
    exact this.2

theorem nonnegW_of_b {g : Graph} (h : g.nonnegWeightsb = true) : NonnegW g := by
  simp only [Graph.nonnegWeightsb, List.all_eq_true, decide_eq_true_eq] at h
  intro i
  by_cases hi : i < g.edges.length
  · exact h (g.edges.getD i default) (list_getD_mem _ _ _ hi)
  · rw [List.getD_eq_getElem?_getD, List.getElem?_eq_none (by omega)]
    norm_num [default]

/-- The CSR row pointers are monotone over any range of nodes. -/
theorem csr_ptrs_le {g : Graph} (w : CsrWF g) :
    ∀ b a, a ≤ b → b ≤ g.nNodes → g.ptrs.getD a 0 ≤ g.ptrs.getD b 0 := by
  intro b
  induction b with
  | zero =>
    intro a ha _
    interval_cases a
    exact le_refl _
  | succ b ih =>
    intro a ha hb
    rcases Nat.lt_or_ge a (b + 1) with h | h
    · exact le_trans (ih a (by omega) (by omega)) (w.ptrs_mono b (by omega))
    · have : a = b + 1 := by omega
      subst this
      exact le_refl _

/-- Everything in a node's CSR slice is an in-range edge index. -/
theorem csr_slice_lt_len {g : Graph} (w : CsrWF g) {u i : Nat}
    (hu : u < g.nNodes) (hi : i < g.ptrs.getD (u + 1) 0) :
    i < g.edges.length := by
  have := csr_ptrs_le w g.nNodes (u + 1) (by omega) (le_refl _)
  rw [w.ptrs_last] at this
  omega

/-- Every in-range edge index lies in the CSR slice of its own source. -/
theorem csr_find_slice {g : Graph} (w : CsrWF g) {i : Nat}
    (hi : i < g.edges.length) :
    ∃ u, u < g.nNodes ∧ g.ptrs.getD u 0 ≤ i ∧ i < g.ptrs.getD (u + 1) 0 ∧
      (g.edges.getD i default).source = u := by
  have hn : 0 < g.nNodes := by
    by_contra hn
    have h0 : g.nNodes = 0 := by omega
    have := w.ptrs_last
    rw [h0] at this
    rw [w.ptrs_zero] at this
    omega
  -- find the last node u with ptrs[u] ≤ i
  suffices H : ∀ k, k ≤ g.nNodes → g.ptrs.getD (g.nNodes - k) 0 ≤ i →
      ∃ u, u < g.nNodes ∧ g.ptrs.getD u 0 ≤ i ∧
        i < g.ptrs.getD (u + 1) 0 by
    obtain ⟨u, hu, h1, h2⟩ := H g.nNodes (le_refl _)
      (by rw [Nat.sub_self, w.ptrs_zero]; omega)
    exact ⟨u, hu, h1, h2, w.slice_src u hu i h1 h2⟩
  intro k
  induction k with
  | zero =>
    intro _ hle
    rw [Nat.sub_zero, w.ptrs_last] at hle
    omega
  | succ k ih =>
    intro hk hle
    by_cases hnext : g.ptrs.getD (g.nNodes - k) 0 ≤ i
    · exact ih (by omega) hnext
    · refine ⟨g.nNodes - (k + 1), by omega, hle, ?_⟩
      have : g.nNodes - (k + 1) + 1 = g.nNodes - k := by omega
      rw [this]
      omega

theorem walkCost_nil (g : Graph) : walkCost g [] = 0 := rfl

theorem walkCost_append (g : Graph) (es : List Nat) (i : Nat) :
    walkCost g (es ++ [i]) = walkCost g es
      + (g.edges.getD i default).weight := by
  simp [walkCost]

theorem walkCost_nonneg {g : Graph} (hw : NonnegW g) (es : List Nat) :
    0 ≤ walkCost g es := by
  induction es with
  | nil => simp [walkCost]
  | cons i t ih =>
    have := hw i
    simp only [walkCost, List.map_cons, List.sum_cons]
    have ht : 0 ≤ walkCost g t := ih
    unfold walkCost at ht
    linarith

/-- In a walk, every edge index is in range and considered (in particular
active, for the active-checking engine). -/
theorem walk_edges_considered {ca : Bool} {g : Graph} {s v : Nat}
    {es : List Nat} (hwalk : Walk ca g s v es) :
    ∀ i ∈ es, i < g.edges.length ∧
      (ca = true → (g.edges.getD i default).active = true) := by
  induction hwalk with
  | nil => intro i hi; simp at hi
  | cons hw he ih =>
    intro i hi
    rw [List.mem_append] at hi
    rcases hi with hi | hi
    · exact ih i hi
    · rw [List.mem_singleton] at hi
      subst hi
      exact ⟨he.1, he.2.2.2⟩

/-- A walk with an empty edge list stays at its start. -/
theorem walk_nil_eq {ca : Bool} {g : Graph} {a b : Nat} {es : List Nat}
    (h : Walk ca g a b es) (hes : es = []) : a = b := by
  cases h with
  | nil => rfl
  | cons hw he => simp at hes

/-- A nonempty walk's last edge enters the endpoint and its first edge
leaves the start. -/
theorem walk_first_last {ca : Bool} {g : Graph} {s v : Nat} {es : List Nat}
    (hwalk : Walk ca g s v es) (hne : es ≠ []) :
    (g.edges.getD (es.getLastD 0) default).target = v ∧
    (g.edges.getD (es.headD 0) default).source = s := by
  induction hwalk with
  | nil => exact absurd rfl hne
  | @cons u v es i hw he ih =>
    constructor
    · rw [List.getLastD_concat]
      exact he.2.2.1
    · cases es with
      | nil =>
        have hsu : s = u := walk_nil_eq hw rfl
        simpa [hsu] using he.2.1
      | cons a t =>
        have := (ih (by simp)).2
        simpa using this

theorem walk_nonempty_of_ne {ca : Bool} {g : Graph} {s v : Nat}
    {es : List Nat} (hwalk : Walk ca g s v es) (hne : s ≠ v) : es ≠ [] := by
  cases hwalk with
  | nil => exact absurd rfl hne
  | cons hw he => simp

theorem dLex_trans {a b c : ℚ × Nat} (h1 : dLex a b) (h2 : dLex b c) :
    dLex a c := by
  rcases h1 with h1 | ⟨h1, h1'⟩ <;> rcases h2 with h2 | ⟨h2, h2'⟩
  · exact Or.inl (lt_trans h1 h2)
  · exact Or.inl (h2 ▸ h1)
  · exact Or.inl (h1 ▸ h2)
  · exact Or.inr ⟨h1.trans h2, lt_trans h1' h2'⟩

theorem dLex_irrefl (a : ℚ × Nat) : ¬dLex a a := by
  intro h
  rcases h with h | ⟨_, h⟩
  · exact lt_irrefl _ h
  · exact lt_irrefl _ h

theorem engWFb_iff {eng : DijkstraEngine} :
    eng.engWFb = true ↔ eng.dist.length = eng.nNodes ∧
      eng.visitedToken.length = eng.nNodes ∧
      eng.parent.length = eng.nNodes ∧
      ∀ v, eng.visitedToken.getD v 0 ≤ eng.currentToken := by
  simp only [DijkstraEngine.engWFb, Bool.and_eq_true, beq_iff_eq,
    List.all_eq_true, and_assoc]
  constructor
  · rintro ⟨h1, h2, h3, h4⟩
    refine ⟨h1, h2, h3, ?_⟩
    intro v
    by_cases hv : v < eng.visitedToken.length
    · simpa using h4 _ (list_getD_mem eng.visitedToken v 0 hv)
    · rw [List.getD_eq_getElem?_getD, List.getElem?_eq_none (by omega)]
      simp
  · rintro ⟨h1, h2, h3, h4⟩
    refine ⟨h1, h2, h3, ?_⟩
    intro x hx
    obtain ⟨i, hi, rfl⟩ := List.mem_iff_getElem.mp hx
    have := h4 i
    rw [List.getD_eq_getElem?_getD, List.getElem?_eq_getElem hi] at this
    simpa using this

/-- The invariant holds for the seeded state at the start of a call. -/
theorem dinv_init (ca : Bool) (g : Graph) (eng : DijkstraEngine) (s t : Nat)
    (heng : eng.engWFb = true) (hn : eng.nNodes = g.nNodes)
    (hs : s < g.nNodes) :
    DInv ca g (eng.currentToken + 1) s t
      { dist := eng.dist.set s 0
        visitedToken := eng.visitedToken.set s (eng.currentToken + 1)
        parent := eng.parent.set s none
        pq := [(0, s)] } := by
  obtain ⟨hld, hlt, hlp, hstale⟩ := engWFb_iff.mp heng
  have hsd : s < eng.dist.length := by omega
  have hst : s < eng.visitedToken.length := by omega
  have hsp : s < eng.parent.length := by omega
  have hvt_s : (eng.visitedToken.set s (eng.currentToken + 1)).getD s 0
      = eng.currentToken + 1 := list_getD_set_self _ _ _ _ hst
  have hdist_s : (eng.dist.set s 0).getD s 0 = 0 :=
    list_getD_set_self _ _ _ _ hsd
  have hpar_s : (eng.parent.set s none).getD s none = none :=
    list_getD_set_self _ _ _ _ hsp
  have htok_only : ∀ v,
      (eng.visitedToken.set s (eng.currentToken + 1)).getD v 0
        = eng.currentToken + 1 → v = s := by
    intro v hv
    by_contra hne
    rw [list_getD_set_ne _ _ _ _ _ (fun hh => hne hh.symm)] at hv
    have := hstale v
    omega
  have hstale' : ∀ v,
      (eng.visitedToken.set s (eng.currentToken + 1)).getD v 0
        ≤ eng.currentToken + 1 := by
    intro v
    by_cases hv : v = s
    · subst hv; rw [hvt_s]
    · rw [list_getD_set_ne _ _ _ _ _ (fun hh => hv hh.symm)]
      exact le_trans (hstale v) (by omega)
  refine ⟨⟨by simpa using hld.trans hn, by simpa using hlt.trans hn,
    by simpa using hlp.trans hn, hs, hvt_s, hdist_s, hpar_s, hstale',
    ?_, ?_⟩, ?_, ?_, ?_, ?_⟩
  · -- tok_walk
    intro v _ hv
    have := htok_only v hv
    subst this
    exact ⟨[], Walk.nil v, by rw [walkCost_nil, hdist_s]⟩
  · -- parent_ok
    refine ⟨fun _ => 0, ?_⟩
    intro v _ hv hne
    exact absurd (htok_only v hv) hne
  · -- pq_tok
    intro p hp
    rw [List.mem_singleton] at hp
    subst hp
    exact ⟨hs, hvt_s, by rw [hdist_s]⟩
  · -- pq_walk
    intro p hp
    rw [List.mem_singleton] at hp
    subst hp
    exact ⟨[], Walk.nil s, rfl⟩
  · -- closed_or_queued
    intro u _ hu
    have := htok_only u hu
    subst this
    left
    rw [hdist_s]
    exact List.mem_singleton.mpr rfl
  · -- target_queued
    intro _ htk
    have := htok_only t htk
    subst this
    rw [hdist_s]
    exact List.mem_singleton.mpr rfl

theorem dLex_fst_le {a b : ℚ × Nat} (h : dLex a b) : a.1 ≤ b.1 := by
  rcases h with h | ⟨h, _⟩
  · exact le_of_lt h
  · exact le_of_eq h

theorem relaxStep_skip (ca : Bool) (g : Graph) (tok u : Nat) (d : ℚ)
    (st : DState) (i : Nat)
    (h : (ca && !(g.edges.getD i default).active) = true) :
    relaxStep ca g tok u d st i = st := by
  simp only [relaxStep]
  rw [if_pos h]

theorem relaxStep_update (ca : Bool) (g : Graph) (tok u : Nat) (d : ℚ)
    (st : DState) (i : Nat)
    (h1 : ¬(ca && !(g.edges.getD i default).active) = true)
    (h2 : st.visitedToken.getD (g.edges.getD i default).target 0 ≠ tok ∨
      d + (g.edges.getD i default).weight
        < st.dist.getD (g.edges.getD i default).target 0) :
    relaxStep ca g tok u d st i =
      { dist := st.dist.set (g.edges.getD i default).target
          (d + (g.edges.getD i default).weight)
        visitedToken :=
          st.visitedToken.set (g.edges.getD i default).target tok
        parent := st.parent.set (g.edges.getD i default).target (some (u, i))
        pq := (d + (g.edges.getD i default).weight,
          (g.edges.getD i default).target) :: st.pq } := by
  simp only [relaxStep]
  rw [if_neg h1, if_pos h2]

theorem relaxStep_noop (ca : Bool) (g : Graph) (tok u : Nat) (d : ℚ)
    (st : DState) (i : Nat)
    (h1 : ¬(ca && !(g.edges.getD i default).active) = true)
    (h2 : ¬(st.visitedToken.getD (g.edges.getD i default).target 0 ≠ tok ∨
      d + (g.edges.getD i default).weight
        < st.dist.getD (g.edges.getD i default).target 0)) :
    relaxStep ca g tok u d st i = st := by
  simp only [relaxStep]
  rw [if_neg h1, if_neg h2]

/-- One relaxation step preserves the processing invariant, keeps every
token, never raises a tokened distance, and leaves the relaxed edge's
target settled below `d + weight` whenever the edge is considered. -/
theorem relaxStep_rinv {ca : Bool} {g : Graph} (hw : CsrWF g)
    (hnn : NonnegW g) {tok s t u : Nat} {d : ℚ} {st : DState}
    (h : RInv ca g tok s t u d st) {i : Nat}
    (hi1 : g.ptrs.getD u 0 ≤ i) (hi2 : i < g.ptrs.getD (u + 1) 0) :
    RInv ca g tok s t u d (relaxStep ca g tok u d st i) ∧
    (∀ x, st.visitedToken.getD x 0 = tok →
      (relaxStep ca g tok u d st i).visitedToken.getD x 0 = tok) ∧
    (∀ x, st.visitedToken.getD x 0 = tok →
      (relaxStep ca g tok u d st i).dist.getD x 0 ≤ st.dist.getD x 0) ∧
    ((ca = true → (g.edges.getD i default).active = true) →
      ((relaxStep ca g tok u d st i).visitedToken.getD
          (g.edges.getD i default).target 0 = tok ∧
       (relaxStep ca g tok u d st i).dist.getD
          (g.edges.getD i default).target 0
         ≤ d + (g.edges.getD i default).weight)) := by
  by_cases hskip : (ca && !(g.edges.getD i default).active) = true
  · rw [relaxStep_skip ca g tok u d st i hskip]
    refine ⟨h, fun x hx => hx, fun x _ => le_refl _, ?_⟩
    intro hcons
    rw [Bool.and_eq_true, Bool.not_eq_true'] at hskip
    have hat := hcons hskip.1
    rw [hat] at hskip
    exact absurd hskip.2 (by decide)
  · have hact : ca = true → (g.edges.getD i default).active = true := by
      intro hca
      rcases Bool.eq_false_or_eq_true (g.edges.getD i default).active
        with htt | hff
      · exact htt
      · refine absurd ?_ hskip
        rw [hca, hff]
        rfl
    have hilen : i < g.edges.length := csr_slice_lt_len hw h.ult hi2
    have hvlt : (g.edges.getD i default).target < g.nNodes :=
      hw.tgt_lt i hilen
    have hsrc : (g.edges.getD i default).source = u :=
      hw.slice_src u h.ult i hi1 hi2
    have hedge : isEdgeFrom ca g i u (g.edges.getD i default).target :=
      ⟨hilen, hsrc, rfl, hact⟩
    have hwnn : 0 ≤ (g.edges.getD i default).weight := hnn i
    obtain ⟨es0, hwk0, hc0⟩ := h.tok_walk u h.ult h.utok
    have hd0 : 0 ≤ d := by
      have := walkCost_nonneg hnn es0
      rw [hc0, h.du] at this
      exact this
    have hwkv : Walk ca g s (g.edges.getD i default).target (es0 ++ [i]) :=
      Walk.cons hwk0 hedge
    have hcv : walkCost g (es0 ++ [i])
        = d + (g.edges.getD i default).weight := by
      rw [walkCost_append, hc0, h.du]
    by_cases hupd :
        st.visitedToken.getD (g.edges.getD i default).target 0 ≠ tok
        ∨ d + (g.edges.getD i default).weight
          < st.dist.getD (g.edges.getD i default).target 0
    · rw [relaxStep_update ca g tok u d st i hskip hupd]
      generalize hE : g.edges.getD i default = e
        at hupd hvlt hwnn hedge hcv hwkv ⊢
      have hvu : e.target ≠ u := by
        intro heq
        rcases hupd with hfv | hdec
        · rw [heq] at hfv
          exact hfv h.utok
        · rw [heq, h.du] at hdec
          linarith
      have hvs : e.target ≠ s := by
        intro heq
        rcases hupd with hfv | hdec
        · rw [heq] at hfv
          exact hfv h.src_tok
        · rw [heq, h.src_dist] at hdec
          linarith
      have hvd : e.target < st.dist.length := by
        rw [h.len_dist]; exact hvlt
      have hvtl : e.target < st.visitedToken.length := by
        rw [h.len_tok]; exact hvlt
      have hvpl : e.target < st.parent.length := by
        rw [h.len_par]; exact hvlt
      have hD_v : (st.dist.set e.target (d + e.weight)).getD e.target 0
          = d + e.weight := list_getD_set_self _ _ _ _ hvd
      have hD_ne : ∀ x, x ≠ e.target →
          (st.dist.set e.target (d + e.weight)).getD x 0
            = st.dist.getD x 0 :=
        fun x hx => list_getD_set_ne _ _ _ _ _ (Ne.symm hx)
      have hT_v : (st.visitedToken.set e.target tok).getD e.target 0
          = tok := list_getD_set_self _ _ _ _ hvtl
      have hT_ne : ∀ x, x ≠ e.target →
          (st.visitedToken.set e.target tok).getD x 0
            = st.visitedToken.getD x 0 :=
        fun x hx => list_getD_set_ne _ _ _ _ _ (Ne.symm hx)
      have hP_v : (st.parent.set e.target (some (u, i))).getD e.target none
          = some (u, i) := list_getD_set_self _ _ _ _ hvpl
      have hP_ne : ∀ x, x ≠ e.target →
          (st.parent.set e.target (some (u, i))).getD x none
            = st.parent.getD x none :=
        fun x hx => list_getD_set_ne _ _ _ _ _ (Ne.symm hx)
      have hT_keep : ∀ x, st.visitedToken.getD x 0 = tok →
          (st.visitedToken.set e.target tok).getD x 0 = tok := by
        intro x hx
        by_cases hxv : x = e.target
        · subst hxv
          exact hT_v
        · rw [hT_ne x hxv]
          exact hx
      have hD_le : ∀ x, st.visitedToken.getD x 0 = tok →
          (st.dist.set e.target (d + e.weight)).getD x 0
            ≤ st.dist.getD x 0 := by
        intro x hx
        by_cases hxv : x = e.target
        · subst hxv
          rw [hD_v]
          rcases hupd with hfv | hdec
          · exact absurd hx hfv
          · exact le_of_lt hdec
        · rw [hD_ne x hxv]
      obtain ⟨tm, htm⟩ := h.parent_ok
      refine ⟨⟨⟨by simpa using h.len_dist, by simpa using h.len_tok,
        by simpa using h.len_par, h.src_lt,
        (hT_ne s (Ne.symm hvs)).trans h.src_tok,
        (hD_ne s (Ne.symm hvs)).trans h.src_dist,
        (hP_ne s (Ne.symm hvs)).trans h.src_par,
        ?_, ?_, ?_⟩, ?_, ?_, ?_, ?_,
        (hD_ne u (Ne.symm hvu)).trans h.du,
        (hT_ne u (Ne.symm hvu)).trans h.utok, h.ult⟩,
        hT_keep, hD_le, fun _ => ⟨hT_v, le_of_eq hD_v⟩⟩
      · -- stale_le
        intro x
        by_cases hxv : x = e.target
        · subst hxv
          exact le_of_eq hT_v
        · exact le_trans (le_of_eq (hT_ne x hxv)) (h.stale_le x)
      · -- tok_walk
        intro x hxlt hxt
        by_cases hxv : x = e.target
        · subst hxv
          exact ⟨es0 ++ [i], hwkv, hcv.trans hD_v.symm⟩
        · have hxt' : st.visitedToken.getD x 0 = tok :=
            (hT_ne x hxv).symm.trans hxt
          obtain ⟨es2, hwk2, hc2⟩ := h.tok_walk x hxlt hxt'
          exact ⟨es2, hwk2, hc2.trans (hD_ne x hxv).symm⟩
      · -- parent_ok
        refine ⟨fun x => if x = e.target then tm u + 1 else tm x, ?_⟩
        intro x hxlt hxt hxs
        by_cases hxv : x = e.target
        · subst hxv
          refine ⟨u, i, hP_v, h.ult,
            (hT_ne u (Ne.symm hvu)).trans h.utok, hedge, ?_, ?_⟩
          · rw [hE]
            show (st.dist.set e.target (d + e.weight)).getD u 0 + e.weight
              ≤ (st.dist.set e.target (d + e.weight)).getD e.target 0
            rw [(hD_ne u (Ne.symm hvu)).trans h.du, hD_v]
          · show dLex ((st.dist.set e.target (d + e.weight)).getD u 0,
                if u = e.target then tm u + 1 else tm u)
              ((st.dist.set e.target (d + e.weight)).getD e.target 0,
                if e.target = e.target then tm u + 1 else tm e.target)
            rw [if_neg (Ne.symm hvu), if_pos rfl,
              (hD_ne u (Ne.symm hvu)).trans h.du, hD_v]
            rcases lt_or_eq_of_le hwnn with hlt | heq
            · exact Or.inl (show d < d + e.weight by linarith)
            · exact Or.inr ⟨by rw [← heq, add_zero], by omega⟩
        · have hxt' : st.visitedToken.getD x 0 = tok :=
            (hT_ne x hxv).symm.trans hxt
          obtain ⟨p, j, hpar, hplt, hptok, hpedge, hple, hplex⟩ :=
            htm x hxlt hxt' hxs
          refine ⟨p, j, (hP_ne x hxv).trans hpar, hplt, hT_keep p hptok,
            hpedge, ?_, ?_⟩
          · show (st.dist.set e.target (d + e.weight)).getD p 0
                + (g.edges.getD j default).weight
              ≤ (st.dist.set e.target (d + e.weight)).getD x 0
            rw [hD_ne x hxv]
            by_cases hpv : p = e.target
            · subst hpv
              rw [hD_v]
              rcases hupd with hfv | hdec
              · exact absurd hptok hfv
              · linarith [hple]
            · rw [hD_ne p hpv]
              exact hple
          · show dLex ((st.dist.set e.target (d + e.weight)).getD p 0,
                if p = e.target then tm u + 1 else tm p)
              ((st.dist.set e.target (d + e.weight)).getD x 0,
                if x = e.target then tm u + 1 else tm x)
            rw [hD_ne x hxv, if_neg hxv]
            by_cases hpv : p = e.target
            · subst hpv
              rw [hD_v, if_pos rfl]
              rcases hupd with hfv | hdec
              · exact absurd hptok hfv
              · have hxle : st.dist.getD e.target 0 ≤ st.dist.getD x 0 :=
                  dLex_fst_le hplex
                exact Or.inl
                  (show d + e.weight < st.dist.getD x 0 by linarith)
            · rw [hD_ne p hpv, if_neg hpv]
              exact hplex
      · -- pq_tok
        intro p hp
        rcases List.mem_cons.mp hp with hph | hpt
        · subst hph
          exact ⟨hvlt, hT_v, le_of_eq hD_v⟩
        · obtain ⟨h1, h2, h3⟩ := h.pq_tok p hpt
          refine ⟨h1, hT_keep p.2 h2, ?_⟩
          by_cases hpv : p.2 = e.target
          · rcases hupd with hfv | hdec
            · rw [hpv] at h2
              exact absurd h2 hfv
            · show (st.dist.set e.target (d + e.weight)).getD p.2 0 ≤ p.1
              rw [hpv, hD_v]
              rw [hpv] at h3
              linarith
          · show (st.dist.set e.target (d + e.weight)).getD p.2 0 ≤ p.1
            rw [hD_ne p.2 hpv]
            exact h3
      · -- pq_walk
        intro p hp
        rcases List.mem_cons.mp hp with hph | hpt
        · subst hph
          exact ⟨es0 ++ [i], hwkv, hcv⟩
        · exact h.pq_walk p hpt
      · -- closed_or_queued_ne
        intro x hxlt hxt hxu
        by_cases hxv : x = e.target
        · subst hxv
          left
          show ((st.dist.set e.target (d + e.weight)).getD e.target 0,
            e.target) ∈ (d + e.weight, e.target) :: st.pq
          rw [hD_v]
          exact List.mem_cons_self _ _
        · have hxt' : st.visitedToken.getD x 0 = tok :=
            (hT_ne x hxv).symm.trans hxt
          rcases h.closed_or_queued_ne x hxlt hxt' hxu with hq | hcl
          · left
            show ((st.dist.set e.target (d + e.weight)).getD x 0, x)
              ∈ (d + e.weight, e.target) :: st.pq
            rw [hD_ne x hxv]
            exact List.mem_cons_of_mem _ hq
          · right
            intro j hj1 hj2 hjact
            obtain ⟨hjt, hjd⟩ := hcl j hj1 hj2 hjact
            refine ⟨hT_keep _ hjt, ?_⟩
            show (st.dist.set e.target (d + e.weight)).getD
                (g.edges.getD j default).target 0
              ≤ (st.dist.set e.target (d + e.weight)).getD x 0
                + (g.edges.getD j default).weight
            rw [hD_ne x hxv]
            by_cases hjv : (g.edges.getD j default).target = e.target
            · rcases hupd with hfv | hdec
              · rw [hjv] at hjt
                exact absurd hjt hfv
              · rw [hjv, hD_v]
                rw [hjv] at hjd
                linarith
            · rw [hD_ne _ hjv]
              exact hjd
      · -- target_queued
        intro htl htt
        by_cases htv : t = e.target
        · subst htv
          show ((st.dist.set e.target (d + e.weight)).getD e.target 0,
            e.target) ∈ (d + e.weight, e.target) :: st.pq
          rw [hD_v]
          exact List.mem_cons_self _ _
        · have htt' : st.visitedToken.getD t 0 = tok :=
            (hT_ne t htv).symm.trans htt
          have hmem := h.target_queued htl htt'
          show ((st.dist.set e.target (d + e.weight)).getD t 0, t)
            ∈ (d + e.weight, e.target) :: st.pq
          rw [hD_ne t htv]
          exact List.mem_cons_of_mem _ hmem
    · rw [relaxStep_noop ca g tok u d st i hskip hupd]
      push_neg at hupd
      exact ⟨h, fun x hx => hx, fun x _ => le_refl _,
        fun _ => ⟨hupd.1, hupd.2⟩⟩

/-- Folding the relaxation step over any sub-slice preserves the
processing invariant and settles every considered edge of the slice. -/
theorem relaxFold_rinv {ca : Bool} {g : Graph} (hw : CsrWF g)
    (hnn : NonnegW g) {tok s t u : Nat} {d : ℚ} :
    ∀ (idxs : List Nat) (st : DState),
    RInv ca g tok s t u d st →
    (∀ i ∈ idxs, g.ptrs.getD u 0 ≤ i ∧ i < g.ptrs.getD (u + 1) 0) →
    RInv ca g tok s t u d (idxs.foldl (relaxStep ca g tok u d) st) ∧
    (∀ x, st.visitedToken.getD x 0 = tok →
      (idxs.foldl (relaxStep ca g tok u d) st).visitedToken.getD x 0
        = tok) ∧
    (∀ x, st.visitedToken.getD x 0 = tok →
      (idxs.foldl (relaxStep ca g tok u d) st).dist.getD x 0
        ≤ st.dist.getD x 0) ∧
    (∀ i ∈ idxs, (ca = true → (g.edges.getD i default).active = true) →
      ((idxs.foldl (relaxStep ca g tok u d) st).visitedToken.getD
          (g.edges.getD i default).target 0 = tok ∧
       (idxs.foldl (relaxStep ca g tok u d) st).dist.getD
          (g.edges.getD i default).target 0
         ≤ d + (g.edges.getD i default).weight)) := by
  intro idxs
  induction idxs with
  | nil =>
    intro st h _
    exact ⟨h, fun x hx => hx, fun x _ => le_refl _,
      fun i hi => absurd hi (by simp)⟩
  | cons a l ih =>
    intro st h hb
    have hba := hb a (List.mem_cons_self a l)
    obtain ⟨h1, h2, h3, h4⟩ := relaxStep_rinv hw hnn h hba.1 hba.2
    obtain ⟨g1, g2, g3, g4⟩ := ih (relaxStep ca g tok u d st a) h1
      (fun i hi => hb i (List.mem_cons_of_mem a hi))
    rw [List.foldl_cons]
    refine ⟨g1, fun x hx => g2 x (h2 x hx), ?_, ?_⟩
    · intro x hx
      exact le_trans (g3 x (h2 x hx)) (h3 x hx)
    · intro i hi hcons
      rcases List.mem_cons.mp hi with rfl | hil
      · obtain ⟨t1, t2⟩ := h4 hcons
        exact ⟨g2 _ t1, le_trans (g3 _ t1) t2⟩
      · exact g4 i hil hcons

/-- Relaxing all of `u`'s edges turns the processing invariant back into
the full loop invariant: `u` comes out closed. -/
theorem relaxEdges_dinv {ca : Bool} {g : Graph} (hw : CsrWF g)
    (hnn : NonnegW g) {tok s t u : Nat} {d : ℚ} {st : DState}
    (h : RInv ca g tok s t u d st) :
    DInv ca g tok s t (relaxEdges ca g tok u d st) := by
  have hmono : g.ptrs.getD u 0 ≤ g.ptrs.getD (u + 1) 0 :=
    hw.ptrs_mono u h.ult
  have hb : ∀ i ∈ List.range' (g.ptrs.getD u 0)
      (g.ptrs.getD (u + 1) 0 - g.ptrs.getD u 0),
      g.ptrs.getD u 0 ≤ i ∧ i < g.ptrs.getD (u + 1) 0 := by
    intro i hi
    rw [List.mem_range'_1] at hi
    omega
  obtain ⟨h1, _, _, h4⟩ := relaxFold_rinv hw hnn
    (List.range' (g.ptrs.getD u 0)
      (g.ptrs.getD (u + 1) 0 - g.ptrs.getD u 0)) st h hb
  have hfold : relaxEdges ca g tok u d st
      = (List.range' (g.ptrs.getD u 0)
          (g.ptrs.getD (u + 1) 0 - g.ptrs.getD u 0)).foldl
        (relaxStep ca g tok u d) st := rfl
  rw [hfold]
  refine ⟨h1.toDCore, h1.pq_tok, h1.pq_walk, ?_, h1.target_queued⟩
  intro x hxlt hxt
  by_cases hxu : x = u
  · subst hxu
    right
    intro j hj1 hj2 hjact
    have hjm : j ∈ List.range' (g.ptrs.getD x 0)
        (g.ptrs.getD (x + 1) 0 - g.ptrs.getD x 0) := by
      rw [List.mem_range'_1]
      omega
    have hset := h4 j hjm hjact
    refine ⟨hset.1, ?_⟩
    rw [h1.du]
    exact hset.2
  · exact h1.closed_or_queued_ne x hxlt hxt hxu

theorem dLexb_iff {a b : ℚ × Nat} : dLexb a b = true ↔ dLex a b := by
  simp [dLexb, dLex]

/-- Discarding a stale popped entry keeps the loop invariant. -/
theorem dinv_pop_stale {ca : Bool} {g : Graph} {tok s t : Nat} {st : DState}
    {d : ℚ} {u : Nat} {rest : List (ℚ × Nat)}
    (h : DInv ca g tok s t st) (hpop : popMin st.pq = some ((d, u), rest))
    (hguard : st.visitedToken.getD u 0 = tok ∧ st.dist.getD u 0 < d) :
    DInv ca g tok s t { st with pq := rest } := by
  refine ⟨⟨h.len_dist, h.len_tok, h.len_par, h.src_lt, h.src_tok,
    h.src_dist, h.src_par, h.stale_le, h.tok_walk, h.parent_ok⟩,
    fun p hp => h.pq_tok p (popMin_rest_subset hpop p hp),
    fun p hp => h.pq_walk p (popMin_rest_subset hpop p hp), ?_, ?_⟩
  · intro x hxlt hxt
    rcases h.closed_or_queued x hxlt hxt with hq | hcl
    · left
      refine popMin_rest_of_ne hpop _ hq ?_
      intro heq
      have hx2 : x = u := congrArg Prod.snd heq
      have hx1 : st.dist.getD x 0 = d := congrArg Prod.fst heq
      rw [hx2] at hx1
      exact absurd hx1 (ne_of_lt hguard.2)
    · exact Or.inr hcl
  · intro htl htt
    have hq := h.target_queued htl htt
    refine popMin_rest_of_ne hpop _ hq ?_
    intro heq
    have hx2 : t = u := congrArg Prod.snd heq
    have hx1 : st.dist.getD t 0 = d := congrArg Prod.fst heq
    rw [hx2] at hx1
    exact absurd hx1 (ne_of_lt hguard.2)

/-- Popping a fresh entry `(d, u)` with `u ≠ t` (guard failed, not the
target) puts the state into the processing invariant for `u`. -/
theorem rinv_pop_process {ca : Bool} {g : Graph} {tok s t : Nat}
    {st : DState} {d : ℚ} {u : Nat} {rest : List (ℚ × Nat)}
    (h : DInv ca g tok s t st) (hpop : popMin st.pq = some ((d, u), rest))
    (hguard : ¬(st.visitedToken.getD u 0 = tok ∧ st.dist.getD u 0 < d))
    (hut : u ≠ t) :
    RInv ca g tok s t u d { st with pq := rest } := by
  have hmem : (d, u) ∈ st.pq := (popMin_mem hpop).1
  obtain ⟨hult, hutok, hdle⟩ := h.pq_tok (d, u) hmem
  have hdu : st.dist.getD u 0 = d := by
    rcases lt_or_eq_of_le hdle with hlt | heq
    · exact absurd ⟨hutok, hlt⟩ hguard
    · exact heq
  refine ⟨⟨h.len_dist, h.len_tok, h.len_par, h.src_lt, h.src_tok,
    h.src_dist, h.src_par, h.stale_le, h.tok_walk, h.parent_ok⟩,
    fun p hp => h.pq_tok p (popMin_rest_subset hpop p hp),
    fun p hp => h.pq_walk p (popMin_rest_subset hpop p hp), ?_, ?_,
    hdu, hutok, hult⟩
  · intro x hxlt hxt hxu
    rcases h.closed_or_queued x hxlt hxt with hq | hcl
    · left
      refine popMin_rest_of_ne hpop _ hq ?_
      intro heq
      exact hxu (congrArg Prod.snd heq)
    · exact Or.inr hcl
  · intro htl htt
    have hq := h.target_queued htl htt
    refine popMin_rest_of_ne hpop _ hq ?_
    intro heq
    exact hut (congrArg Prod.snd heq).symm

theorem dijkstraLoop_succ_stale (ca : Bool) (g : Graph)
    (tok target fuel : Nat) (st : DState) {d : ℚ} {u : Nat}
    {rest : List (ℚ × Nat)} (hpop : popMin st.pq = some ((d, u), rest))
    (hg : st.visitedToken.getD u 0 = tok ∧ st.dist.getD u 0 < d) :
    dijkstraLoop ca g tok target (fuel + 1) st
      = dijkstraLoop ca g tok target fuel { st with pq := rest } := by
  simp only [dijkstraLoop, hpop]
  rw [if_pos hg]

theorem dijkstraLoop_succ_found (ca : Bool) (g : Graph)
    (tok target fuel : Nat) (st : DState) {d : ℚ} {u : Nat}
    {rest : List (ℚ × Nat)} (hpop : popMin st.pq = some ((d, u), rest))
    (hg : ¬(st.visitedToken.getD u 0 = tok ∧ st.dist.getD u 0 < d))
    (hu : u = target) :
    dijkstraLoop ca g tok target (fuel + 1) st
      = some (true, { st with pq := rest }) := by
  simp only [dijkstraLoop, hpop]
  rw [if_neg hg, if_pos hu]

theorem dijkstraLoop_succ_go (ca : Bool) (g : Graph)
    (tok target fuel : Nat) (st : DState) {d : ℚ} {u : Nat}
    {rest : List (ℚ × Nat)} (hpop : popMin st.pq = some ((d, u), rest))
    (hg : ¬(st.visitedToken.getD u 0 = tok ∧ st.dist.getD u 0 < d))
    (hu : u ≠ target) :
    dijkstraLoop ca g tok target (fuel + 1) st
      = dijkstraLoop ca g tok target fuel
          (relaxEdges ca g tok u d { st with pq := rest }) := by
  simp only [dijkstraLoop, hpop]
  rw [if_neg hg, if_neg hu]

theorem dijkstraLoop_succ_empty (ca : Bool) (g : Graph)
    (tok target fuel : Nat) (st : DState)
    (hpop : popMin st.pq = none) :
    dijkstraLoop ca g tok target (fuel + 1) st = some (false, st) := by
  simp only [dijkstraLoop, hpop]

theorem popMin_none {pq : List (ℚ × Nat)} (h : popMin pq = none) :
    pq = [] := by
  cases pq with
  | nil => rfl
  | cons x xs => simp [popMin] at h

/-- What a terminating main loop guarantees: on a normal (not-found) exit
the invariant holds with an empty queue; on a `found` exit the core
invariant holds and the target carries the current token. -/
theorem dijkstraLoop_spec {ca : Bool} {g : Graph} (hw : CsrWF g)
    (hnn : NonnegW g) {tok s t : Nat} :
    ∀ (fuel : Nat) (st : DState) (out : Bool × DState),
    DInv ca g tok s t st →
    dijkstraLoop ca g tok t fuel st = some out →
    (out.1 = false → DInv ca g tok s t out.2 ∧ out.2.pq = []) ∧
    (out.1 = true → DCore ca g tok s out.2 ∧
      out.2.visitedToken.getD t 0 = tok ∧ t < g.nNodes) := by
  intro fuel
  induction fuel with
  | zero =>
    intro st out h hrun
    simp [dijkstraLoop] at hrun
  | succ fuel ih =>
    intro st out h hrun
    cases hpop : popMin st.pq with
    | none =>
      rw [dijkstraLoop_succ_empty ca g tok t fuel st hpop] at hrun
      obtain rfl := Option.some.inj hrun
      refine ⟨fun _ => ⟨h, popMin_none hpop⟩, fun hfa => ?_⟩
      exact absurd hfa (by simp)
    | some pr =>
      obtain ⟨⟨d, u⟩, rest⟩ := pr
      by_cases hguard : st.visitedToken.getD u 0 = tok
          ∧ st.dist.getD u 0 < d
      · rw [dijkstraLoop_succ_stale ca g tok t fuel st hpop hguard] at hrun
        exact ih _ out (dinv_pop_stale h hpop hguard) hrun
      · by_cases hut : u = t
        · rw [dijkstraLoop_succ_found ca g tok t fuel st hpop hguard hut]
            at hrun
          obtain rfl := Option.some.inj hrun
          refine ⟨fun hfa => absurd hfa (by simp), fun _ => ?_⟩
          subst hut
          obtain ⟨hult, hutok, _⟩ := h.pq_tok (d, u) (popMin_mem hpop).1
          exact ⟨⟨h.len_dist, h.len_tok, h.len_par, h.src_lt, h.src_tok,
            h.src_dist, h.src_par, h.stale_le, h.tok_walk, h.parent_ok⟩,
            hutok, hult⟩
        · rw [dijkstraLoop_succ_go ca g tok t fuel st hpop hguard hut]
            at hrun
          exact ih _ out
            (relaxEdges_dinv hw hnn (rinv_pop_process h hpop hguard hut))
            hrun

/-- Walking the predecessor records terminates and yields (in reverse) a
walk from the source, as long as the strict `dLex` measure of the current
node bounds the remaining fuel. -/
theorem reconstructPath_go {ca : Bool} {g : Graph} {tok s : Nat}
    {st : DState} (hcore : DCore ca g tok s st) (tm : Nat → Nat)
    (htm : ∀ v < g.nNodes, st.visitedToken.getD v 0 = tok → v ≠ s →
      ∃ u i, st.parent.getD v none = some (u, i) ∧ u < g.nNodes ∧
        st.visitedToken.getD u 0 = tok ∧ isEdgeFrom ca g i u v ∧
        st.dist.getD u 0 + (g.edges.getD i default).weight
          ≤ st.dist.getD v 0 ∧
        dLex (st.dist.getD u 0, tm u) (st.dist.getD v 0, tm v)) :
    ∀ (fuel : Nat) (curr : Nat), curr < g.nNodes →
    st.visitedToken.getD curr 0 = tok →
    ((Finset.range g.nNodes).filter
      (fun x => dLexb (st.dist.getD x 0, tm x)
        (st.dist.getD curr 0, tm curr) = true)).card < fuel →
    ∃ path, reconstructPath st.parent s fuel curr = some path ∧
      Walk ca g s curr path.reverse ∧
      st.dist.getD s 0 + walkCost g path.reverse
        ≤ st.dist.getD curr 0 := by
  intro fuel
  induction fuel with
  | zero =>
    intro curr _ _ hcard
    exact absurd hcard (Nat.not_lt_zero _)
  | succ fuel ih =>
    intro curr hcl htok hcard
    by_cases hcs : curr = s
    · subst hcs
      refine ⟨[], ?_, Walk.nil curr, by simp [walkCost]⟩
      simp [reconstructPath]
    · obtain ⟨u, i, hpar, hult, hutok, hedge, hle, hlex⟩ :=
        htm curr hcl htok hcs
      have hsub : (Finset.range g.nNodes).filter
          (fun x => dLexb (st.dist.getD x 0, tm x)
            (st.dist.getD u 0, tm u) = true) ⊆
          (Finset.range g.nNodes).filter
          (fun x => dLexb (st.dist.getD x 0, tm x)
            (st.dist.getD curr 0, tm curr) = true) := by
        intro x hx
        rw [Finset.mem_filter] at hx ⊢
        exact ⟨hx.1, dLexb_iff.mpr (dLex_trans (dLexb_iff.mp hx.2) hlex)⟩
      have humem : u ∈ (Finset.range g.nNodes).filter
          (fun x => dLexb (st.dist.getD x 0, tm x)
            (st.dist.getD curr 0, tm curr) = true) := by
        rw [Finset.mem_filter]
        exact ⟨Finset.mem_range.mpr hult, dLexb_iff.mpr hlex⟩
      have hunot : u ∉ (Finset.range g.nNodes).filter
          (fun x => dLexb (st.dist.getD x 0, tm x)
            (st.dist.getD u 0, tm u) = true) := by
        rw [Finset.mem_filter]
        intro hmem
        exact dLex_irrefl _ (dLexb_iff.mp hmem.2)
      have hlt : ((Finset.range g.nNodes).filter
          (fun x => dLexb (st.dist.getD x 0, tm x)
            (st.dist.getD u 0, tm u) = true)).card <
          ((Finset.range g.nNodes).filter
          (fun x => dLexb (st.dist.getD x 0, tm x)
            (st.dist.getD curr 0, tm curr) = true)).card :=
        Finset.card_lt_card
          ((Finset.ssubset_iff_of_subset hsub).mpr ⟨u, humem, hunot⟩)
      obtain ⟨path, hrp, hwalk, hcost⟩ := ih u hult hutok (by omega)
      refine ⟨i :: path, ?_, ?_, ?_⟩
      · simp only [reconstructPath]
        rw [if_neg hcs]
        simp only [hpar]
        rw [hrp]
        rfl
      · rw [List.reverse_cons]
        exact Walk.cons hwalk hedge
      · rw [List.reverse_cons, walkCost_append]
        linarith

/-- With fuel exceeding the node count, predecessor reconstruction from
any tokened node succeeds and returns the reversed edge list of a walk
from the source. -/
theorem reconstructPath_total {ca : Bool} {g : Graph} {tok s : Nat}
    {st : DState} (hcore : DCore ca g tok s st) {curr : Nat}
    (hcl : curr < g.nNodes) (htok : st.visitedToken.getD curr 0 = tok)
    {fuel : Nat} (hfuel : g.nNodes < fuel) :
    ∃ path, reconstructPath st.parent s fuel curr = some path ∧
      Walk ca g s curr path.reverse ∧
      st.dist.getD s 0 + walkCost g path.reverse
        ≤ st.dist.getD curr 0 := by
  obtain ⟨tm, htm⟩ := hcore.parent_ok
  refine reconstructPath_go hcore tm htm fuel curr hcl htok ?_
  calc ((Finset.range g.nNodes).filter
      (fun x => dLexb (st.dist.getD x 0, tm x)
        (st.dist.getD curr 0, tm curr) = true)).card
      ≤ (Finset.range g.nNodes).card := Finset.card_filter_le _ _
    _ = g.nNodes := Finset.card_range _
    _ < fuel := hfuel

/-- When the loop invariant holds with an empty queue, every node
reachable from the source over considered edges carries the current
token. -/
theorem dinv_empty_complete {ca : Bool} {g : Graph} {tok s t : Nat}
    {st : DState} (hwf : CsrWF g) (h : DInv ca g tok s t st)
    (hpq : st.pq = []) :
    ∀ (v : Nat) (es : List Nat), Walk ca g s v es → v < g.nNodes →
      st.visitedToken.getD v 0 = tok := by
  intro v es hwalk
  induction hwalk with
  | nil =>
    intro _
    exact h.src_tok
  | @cons u v es i hwp he ih =>
    intro hvlt
    have hult : u < g.nNodes := by
      rw [← he.2.1]
      exact hwf.src_lt i he.1
    have hutok := ih hult
    rcases h.closed_or_queued u hult hutok with hq | hcl
    · rw [hpq] at hq
      simp at hq
    · obtain ⟨u', hu'lt, h1, h2, hsrc⟩ := csr_find_slice hwf he.1
      have huu : u' = u := by
        rw [← hsrc]
        exact he.2.1
      subst huu
      have hfact := hcl i h1 h2 he.2.2.2
      rw [he.2.2.1] at hfact
      exact hfact.1

/-- Complete analysis of a terminating `getShortPath` run: either the
sentinel `([], -1)` — in which case the target (if in range) is
unreachable over considered edges — or a success whose returned edge
list reverses to a walk from source to target over considered edges, of
total weight at most the returned cost, the cost itself being the cost
of such a walk (hence non-negative). -/
theorem getShortPath_cases {ca : Bool} {g : Graph} {eng : DijkstraEngine}
    {s t fuel : Nat} {path : List Nat} {cost : ℚ} {eng' : DijkstraEngine}
    (hw : CsrWF g) (hnn : NonnegW g) (heng : eng.engWFb = true)
    (hn : eng.nNodes = g.nNodes) (hs : s < g.nNodes)
    (hrun : DijkstraEngine.getShortPath ca eng g s t fuel
      = some ((path, cost), eng')) :
    (path = [] ∧ cost = -1 ∧
      (t < g.nNodes → ¬∃ es, Walk ca g s t es)) ∨
    (t < g.nNodes ∧ Walk ca g s t path.reverse ∧ 0 ≤ cost ∧
      walkCost g path.reverse ≤ cost ∧
      ∃ es, Walk ca g s t es ∧ walkCost g es = cost) := by
  simp only [DijkstraEngine.getShortPath] at hrun
  have hDI := dinv_init ca g eng s t heng hn hs
  cases hloop : dijkstraLoop ca g (eng.currentToken + 1) t fuel
      { dist := eng.dist.set s 0
        visitedToken := eng.visitedToken.set s (eng.currentToken + 1)
        parent := eng.parent.set s none
        pq := [(0, s)] } with
  | none =>
    rw [hloop] at hrun
    exact absurd hrun (by simp)
  | some pr =>
    obtain ⟨found, stf⟩ := pr
    simp only [hloop] at hrun
    cases found with
    | false =>
      rw [if_neg Bool.false_ne_true] at hrun
      left
      have hspec := (dijkstraLoop_spec hw hnn fuel _ (false, stf) hDI
        hloop).1 rfl
      have hDIf : DInv ca g (eng.currentToken + 1) s t stf := hspec.1
      have hpqe : stf.pq = [] := hspec.2
      have h1 := Option.some.inj hrun
      have h2 : (([], -1) : List Nat × ℚ) = (path, cost) :=
        congrArg Prod.fst h1
      refine ⟨(congrArg Prod.fst h2).symm, (congrArg Prod.snd h2).symm,
        ?_⟩
      rintro htlt ⟨es, hwk⟩
      have httok := dinv_empty_complete hw hDIf hpqe t es hwk htlt
      have hmem := hDIf.target_queued htlt httok
      rw [hpqe] at hmem
      simp at hmem
    | true =>
      have hspec := (dijkstraLoop_spec hw hnn fuel _ (true, stf) hDI
        hloop).2 rfl
      have hcore : DCore ca g (eng.currentToken + 1) s stf := hspec.1
      have httok : stf.visitedToken.getD t 0 = eng.currentToken + 1 :=
        hspec.2.1
      have htlt : t < g.nNodes := hspec.2.2
      obtain ⟨path', hrp, hwalk, hwc⟩ := reconstructPath_total hcore htlt
        httok (show g.nNodes < eng.nNodes + 1 by omega)
      rw [if_pos rfl] at hrun
      simp only [hrp] at hrun
      have h1 := Option.some.inj hrun
      have h2 : (path', stf.dist.getD t 0) = (path, cost) :=
        congrArg Prod.fst h1
      have hpp : path' = path := congrArg Prod.fst h2
      have hcc : stf.dist.getD t 0 = cost := congrArg Prod.snd h2
      right
      obtain ⟨es, hwes, hces⟩ := hcore.tok_walk t htlt httok
      have hsd : stf.dist.getD s 0 = 0 := hcore.src_dist
      refine ⟨htlt, ?_, ?_, ?_, es, hwes, hces.trans hcc⟩
      · rw [← hpp]
        exact hwalk
      · rw [← hcc, ← hces]
        exact walkCost_nonneg hnn es
      · rw [← hpp, ← hcc]
        rw [hsd] at hwc
        linarith

theorem list_reverse_headD {α : Type _} (l : List α) (d : α) :
    l.reverse.headD d = l.getLastD d := by
  cases l with
  | nil => rfl
  | cons a t =>
    rw [List.headD_eq_head?, List.head?_reverse, List.getLastD_eq_getLast?]

theorem list_reverse_getLastD {α : Type _} (l : List α) (d : α) :
    l.reverse.getLastD d = l.headD d := by
  have := list_reverse_headD l.reverse d
  rw [List.reverse_reverse] at this
  exact this.symm

unseal Rat.add Rat.mul Rat.sub Rat.inv in
/-- **C4** counterexample: the `src/utils/Dijkstra.hpp` copy of
`getShortPath` omits the `if (!edge.active) continue;` guard
(`checkActive = false`); on the single-edge graph whose only undirected
edge is deactivated it still routes the query (0,1) through the inactive
edge `0` and charges its weight `10`, while the active-checking
`src/algorithms/dijkstra.cpp` engine (`checkActive = true`) correctly
reports the target unreachable. -/
theorem C4_inactive_edge_in_path_counterexample :
    (gExampleC4.edges.getD 0 default).active = false ∧
    DijkstraEngine.getShortPath false (DijkstraEngine.init 2) gExampleC4
      0 1 4 = some (([0], 10),
        ⟨[0, 10], [1, 1], [none, some (0, 0)], 2, 1⟩) ∧
    DijkstraEngine.getShortPath true (DijkstraEngine.init 2) gExampleC4
      0 1 4 = some (([], -1),
        ⟨[0, 0], [1, 0], [none, none], 2, 1⟩) :=
  ⟨by decide, by decide, by decide⟩

/-- **C4.** (amended)  For the canonical active-checking engine
(`src/algorithms/dijkstra.cpp`, `checkActive = true`), on a wellformed
CSR graph with non-negative weights: every edge index in the returned
path is an active edge, and every non-sentinel returned cost is the total
weight of a walk that uses active edges only — an inactive edge never
appears in the returned path and never contributes to the returned cost.
(The `src/utils/Dijkstra.hpp` copy omits the active check and violates
the original universal claim; see the counterexample.) -/
theorem C4_active_edges_only (g : Graph) (eng : DijkstraEngine)
    (s t fuel : Nat) (path : List Nat) (cost : ℚ) (eng' : DijkstraEngine)
    (hw : g.csrWFb = true) (hnn : g.nonnegWeightsb = true)
    (heng : eng.engWFb = true) (hn : eng.nNodes = g.nNodes)
    (hs : s < g.nNodes)
    (hrun : DijkstraEngine.getShortPath true eng g s t fuel
      = some ((path, cost), eng')) :
    (∀ i ∈ path, (g.edges.getD i default).active = true) ∧
    (cost ≠ -1 → ∃ es, Walk true g s t es ∧
      (∀ i ∈ es, (g.edges.getD i default).active = true) ∧
      walkCost g es = cost) := by
  have hcases := getShortPath_cases (csrWF_of_b hw) (nonnegW_of_b hnn)
    heng hn hs hrun
  constructor
  · intro i hi
    rcases hcases with h | h
    · rw [h.1] at hi
      simp at hi
    · exact (walk_edges_considered h.2.1 i (List.mem_reverse.mpr hi)).2 rfl
  · intro hc
    rcases hcases with h | h
    · exact absurd h.2.1 hc
    · obtain ⟨es, hwes, hces⟩ := h.2.2.2.2
      exact ⟨es, hwes,
        fun i hi => (walk_edges_considered hwes i hi).2 rfl, hces⟩

unseal Rat.add Rat.mul Rat.sub Rat.inv in
theorem C4_active_edges_only_witness :
    gExampleC2.csrWFb = true ∧
    gExampleC2.nonnegWeightsb = true ∧
    (DijkstraEngine.init 3).engWFb = true ∧
    (DijkstraEngine.init 3).nNodes = gExampleC2.nNodes ∧
    0 < gExampleC2.nNodes ∧
    DijkstraEngine.getShortPath true (DijkstraEngine.init 3) gExampleC2
      0 2 6 = some (([2, 0], 15),
        ⟨[0, 10, 15], [1, 1, 1], [none, some (0, 0), some (1, 2)],
         3, 1⟩) ∧
    ((∀ i ∈ ([2, 0] : List Nat),
        (gExampleC2.edges.getD i default).active = true) ∧
     ((15 : ℚ) ≠ -1 → ∃ es, Walk true gExampleC2 0 2 es ∧
       (∀ i ∈ es, (gExampleC2.edges.getD i default).active = true) ∧
       walkCost gExampleC2 es = 15)) :=
  ⟨by decide, by decide, by decide, by decide, by decide, by decide,
   C4_active_edges_only gExampleC2 (DijkstraEngine.init 3) 0 2 6 [2, 0] 15
     ⟨[0, 10, 15], [1, 1, 1], [none, some (0, 0), some (1, 2)], 3, 1⟩
     (by decide) (by decide) (by decide) (by decide) (by decide)
     (by decide)⟩

unseal Rat.add Rat.mul Rat.sub Rat.inv in
/-- **C5** counterexample: on the path graph 0 — 1 — 2 the successful
query (0, 2) returns the edge list `[2, 0]`: its FIRST element is edge
`2` = (1 → 2), the edge entering the target (source node 1, not 0), and
its last element is edge `0` = (0 → 1), the edge leaving the source.  The
backward predecessor walk is returned as built (`// Return Inverted
Path`), never reversed, contradicting the claimed source→target
orientation. -/
theorem C5_unreversed_counterexample :
    DijkstraEngine.getShortPath true (DijkstraEngine.init 3) gExampleC2
      0 2 6 = some (([2, 0], 15),
        ⟨[0, 10, 15], [1, 1, 1], [none, some (0, 0), some (1, 2)],
         3, 1⟩) ∧
    (gExampleC2.edges.getD (([2, 0] : List Nat).headD 0) default).source
      = 1 ∧
    (gExampleC2.edges.getD (([2, 0] : List Nat).headD 0) default).target
      = 2 ∧
    (gExampleC2.edges.getD
        (([2, 0] : List Nat).getLastD 0) default).source = 0 :=
  ⟨by decide, by decide, by decide, by decide⟩

/-- **C5.** (amended)  For every terminating successful query with
`source ≠ target` (wellformed CSR graph, non-negative weights, wellformed
engine), the returned edge-index list is the BACKWARD predecessor walk,
not reversed: reversing it yields a walk from source to target, the first
returned element is the edge entering `target`, and the last returned
element is the edge leaving `source`. -/
theorem C5_backward_path_orientation (ca : Bool) (g : Graph)
    (eng : DijkstraEngine) (s t fuel : Nat) (path : List Nat) (cost : ℚ)
    (eng' : DijkstraEngine)
    (hw : g.csrWFb = true) (hnn : g.nonnegWeightsb = true)
    (heng : eng.engWFb = true) (hn : eng.nNodes = g.nNodes)
    (hs : s < g.nNodes) (hst : s ≠ t)
    (hrun : DijkstraEngine.getShortPath ca eng g s t fuel
      = some ((path, cost), eng'))
    (hfound : cost ≠ -1) :
    path ≠ [] ∧ Walk ca g s t path.reverse ∧
    (g.edges.getD (path.headD 0) default).target = t ∧
    (g.edges.getD (path.getLastD 0) default).source = s := by
  rcases getShortPath_cases (csrWF_of_b hw) (nonnegW_of_b hnn) heng hn hs
    hrun with h | h
  · exact absurd h.2.1 hfound
  · have hwalk := h.2.1
    have hner : path.reverse ≠ [] := walk_nonempty_of_ne hwalk hst
    have hne : path ≠ [] := by
      intro hnil
      rw [hnil] at hner
      exact hner rfl
    obtain ⟨hlast, hhead⟩ := walk_first_last hwalk hner
    refine ⟨hne, hwalk, ?_, ?_⟩
    · rw [← list_reverse_getLastD path 0]
      exact hlast
    · rw [← list_reverse_headD path 0]
      exact hhead

unseal Rat.add Rat.mul Rat.sub Rat.inv in
theorem C5_backward_path_orientation_witness :
    gExampleC2.csrWFb = true ∧
    gExampleC2.nonnegWeightsb = true ∧
    (DijkstraEngine.init 3).engWFb = true ∧
    (DijkstraEngine.init 3).nNodes = gExampleC2.nNodes ∧
    0 < gExampleC2.nNodes ∧ (0 : Nat) ≠ 2 ∧
    DijkstraEngine.getShortPath true (DijkstraEngine.init 3) gExampleC2
      0 2 6 = some (([2, 0], 15),
        ⟨[0, 10, 15], [1, 1, 1], [none, some (0, 0), some (1, 2)],
         3, 1⟩) ∧ (15 : ℚ) ≠ -1 ∧
    (([2, 0] : List Nat) ≠ [] ∧
     Walk true gExampleC2 0 2 ([2, 0] : List Nat).reverse ∧
     (gExampleC2.edges.getD (([2, 0] : List Nat).headD 0) default).target
       = 2 ∧
     (gExampleC2.edges.getD
         (([2, 0] : List Nat).getLastD 0) default).source = 0) :=
  ⟨by decide, by decide, by decide, by decide, by decide, by decide,
   by decide, by decide,
   C5_backward_path_orientation true gExampleC2 (DijkstraEngine.init 3)
     0 2 6 [2, 0] 15
     ⟨[0, 10, 15], [1, 1, 1], [none, some (0, 0), some (1, 2)], 3, 1⟩
     (by decide) (by decide) (by decide) (by decide) (by decide)
     (by decide) (by decide) (by decide)⟩

/-- **C7.**  Whenever the target is unreachable from the source over the
edges the engine considers, a terminating `getShortPath` run returns the
empty edge path together with the sentinel cost `-1` — a plain value
return (no exception on this route) — and the sentinel is consistently
distinguishable from every real path cost: every non-sentinel returned
cost is `≥ 0` under the non-negative-weight precondition (so `-1`
collides with no real cost, including zero-weight paths) and equals the
total weight of an actual walk. -/
theorem C7_unreachable_sentinel (ca : Bool) (g : Graph)
    (eng : DijkstraEngine) (s t fuel : Nat) (path : List Nat) (cost : ℚ)
    (eng' : DijkstraEngine)
    (hw : g.csrWFb = true) (hnn : g.nonnegWeightsb = true)
    (heng : eng.engWFb = true) (hn : eng.nNodes = g.nNodes)
    (hs : s < g.nNodes)
    (hrun : DijkstraEngine.getShortPath ca eng g s t fuel
      = some ((path, cost), eng')) :
    ((¬∃ es, Walk ca g s t es) → path = [] ∧ cost = -1) ∧
    (cost ≠ -1 → 0 ≤ cost ∧
      ∃ es, Walk ca g s t es ∧ walkCost g es = cost) := by
  have hcases := getShortPath_cases (csrWF_of_b hw) (nonnegW_of_b hnn)
    heng hn hs hrun
  constructor
  · intro hunr
    rcases hcases with h | h
    · exact ⟨h.1, h.2.1⟩
    · exact absurd ⟨path.reverse, h.2.1⟩ hunr
  · intro hc
    rcases hcases with h | h
    · exact absurd h.2.1 hc
    · exact ⟨h.2.2.1, h.2.2.2.2⟩

unseal Rat.add Rat.mul Rat.sub Rat.inv in
theorem C7_unreachable_sentinel_witness :
    gExampleC7.csrWFb = true ∧
    gExampleC7.nonnegWeightsb = true ∧
    (DijkstraEngine.init 3).engWFb = true ∧
    (DijkstraEngine.init 3).nNodes = gExampleC7.nNodes ∧
    0 < gExampleC7.nNodes ∧
    DijkstraEngine.getShortPath true (DijkstraEngine.init 3) gExampleC7
      0 2 5 = some (([], -1),
        ⟨[0, 10, 0], [1, 1, 0], [none, some (0, 0), none], 3, 1⟩) ∧
    (((¬∃ es, Walk true gExampleC7 0 2 es) →
        ([] : List Nat) = [] ∧ (-1 : ℚ) = -1) ∧
     ((-1 : ℚ) ≠ -1 → 0 ≤ (-1 : ℚ) ∧
       ∃ es, Walk true gExampleC7 0 2 es ∧
         walkCost gExampleC7 es = -1)) :=
  ⟨by decide, by decide, by decide, by decide, by decide, by decide,
   C7_unreachable_sentinel true gExampleC7 (DijkstraEngine.init 3)
     0 2 5 [] (-1)
     ⟨[0, 10, 0], [1, 1, 0], [none, some (0, 0), none], 3, 1⟩
     (by decide) (by decide) (by decide) (by decide) (by decide)
     (by decide)⟩

/-! ### Prune: degree bookkeeping -/

theorem mirrorWF_of_b {g : Graph} (h : g.mirrorWFb = true) : MirrorWF g := by
  simp only [Graph.mirrorWFb, Bool.and_eq_true, List.all_eq_true,
    decide_eq_true_eq, List.mem_range] at h
  obtain ⟨⟨h1, h2⟩, h3⟩ := h
  refine ⟨h1, ?_, ?_⟩
  · intro i hi
    exact h2 _ (list_getD_mem _ _ _ hi)
  · intro i hi
    have := h3 i hi
    cases hrev : (g.edges.getD i default).reverseEdgePtr with
    | none =>
      rw [hrev] at this
      simp at this
    | some j =>
      rw [hrev] at this
      simp only [Bool.and_eq_true, decide_eq_true_eq] at this
      exact ⟨j, rfl, this.1.1.1.1, this.1.1.1.2, this.1.1.2, this.1.2,
        this.2⟩

theorem symBitset_of_b {g : Graph} {s : SFPSolution}
    (h : symBitsetb g s = true) : SymBitset g s := by
  simp only [symBitsetb, Bool.and_eq_true, beq_iff_eq, List.all_eq_true,
    List.mem_range] at h
  refine ⟨h.1, ?_⟩
  intro i hi hact j hj
  have := h.2 i hi
  rw [Bool.or_eq_true, Bool.not_eq_true'] at this
  rcases this with hfa | hrest
  · rw [hact] at hfa
    exact absurd hfa (by decide)
  · rw [hj] at hrest
    exact hrest


theorem countP_congr_range {n : Nat} {p q : Nat → Bool}
    (h : ∀ x, x < n → p x = q x) :
    (List.range n).countP p = (List.range n).countP q := by
  induction n with
  | zero => rfl
  | succ n ih =>
    rw [List.range_succ, List.countP_append, List.countP_append,
      ih (fun x hx => h x (by omega))]
    simp [List.countP_cons, h n (by omega)]

theorem countP_flip_one (n : Nat) {i : Nat} {p q : Nat → Bool} (hi : i < n)
    (hpe : ∀ x, x ≠ i → q x = p x) (hpi : p i = true)
    (hqi : q i = false) :
    (List.range n).countP p = (List.range n).countP q + 1 := by
  induction n with
  | zero => omega
  | succ n ih =>
    rw [List.range_succ, List.countP_append, List.countP_append]
    by_cases hin : i < n
    · have hn : q n = p n := hpe n (by omega)
      rw [ih hin]
      simp only [List.countP_cons, List.countP_nil, ← hn]
      ring
    · have hieq : i = n := by omega
      subst hieq
      have heq : (List.range i).countP p = (List.range i).countP q :=
        countP_congr_range (fun x hx => (hpe x (by omega)).symm)
      rw [heq]
      simp [List.countP_cons, hpi, hqi]

theorem degStep_skip {g : Graph} {s : SFPSolution} (deg : List Nat)
    {i : Nat} (h : s.isEdgeActive i = false ∨
      ¬(g.edges.getD i default).source < (g.edges.getD i default).target) :
    degStep g s deg i = deg := by
  by_cases hact : s.isEdgeActive i = true
  · by_cases hcan : (g.edges.getD i default).source
        < (g.edges.getD i default).target
    · exfalso
      rcases h with h | h
      · rw [hact] at h
        exact absurd h (by decide)
      · exact h hcan
    · simp only [degStep]
      rw [if_pos hact, if_neg hcan]
  · simp only [degStep]
    rw [if_neg hact]

theorem degStep_count {g : Graph} {s : SFPSolution} (deg : List Nat)
    {i : Nat} (hact : s.isEdgeActive i = true)
    (hcan : (g.edges.getD i default).source
      < (g.edges.getD i default).target) :
    degStep g s deg i
      = (deg.set (g.edges.getD i default).source
          (deg.getD (g.edges.getD i default).source 0 + 1)).set
        (g.edges.getD i default).target
        ((deg.set (g.edges.getD i default).source
          (deg.getD (g.edges.getD i default).source 0 + 1)).getD
          (g.edges.getD i default).target 0 + 1) := by
  simp only [degStep]
  rw [if_pos hact, if_pos hcan]

theorem degPred_true_iff {g : Graph} {s : SFPSolution} {v i : Nat} :
    degPred g s v i = true ↔
      s.isEdgeActive i = true ∧
      (g.edges.getD i default).source < (g.edges.getD i default).target ∧
      ((g.edges.getD i default).source = v ∨
       (g.edges.getD i default).target = v) := by
  simp [degPred, and_assoc]

/-- Pointwise characterization of the degree fold: it counts the active
canonical incident solution edges. -/
theorem pruneDegrees_char {g : Graph} (w : CsrWF g) (s : SFPSolution) :
    (pruneDegrees g s).length = g.nNodes ∧
    ∀ v, v < g.nNodes →
      (pruneDegrees g s).getD v 0 = degCount g s v := by
  have main : ∀ (l : List Nat) (deg : List Nat),
      deg.length = g.nNodes → (∀ i ∈ l, i < g.edges.length) →
      (l.foldl (degStep g s) deg).length = g.nNodes ∧
      ∀ v, v < g.nNodes →
        (l.foldl (degStep g s) deg).getD v 0
          = deg.getD v 0 + l.countP (degPred g s v) := by
    intro l
    induction l with
    | nil =>
      intro deg hlen _
      exact ⟨hlen, fun v _ => by simp⟩
    | cons a tl ih =>
      intro deg hlen hbnd
      have halen : a < g.edges.length := hbnd a (List.mem_cons_self a tl)
      rw [List.foldl_cons]
      by_cases hact : s.isEdgeActive a = true
      · by_cases hcan : (g.edges.getD a default).source
            < (g.edges.getD a default).target
        · have hsrc : (g.edges.getD a default).source < g.nNodes :=
            w.src_lt a halen
          have htgt : (g.edges.getD a default).target < g.nNodes :=
            w.tgt_lt a halen
          have hne : (g.edges.getD a default).source
              ≠ (g.edges.getD a default).target := Nat.ne_of_lt hcan
          rw [degStep_count deg hact hcan]
          have hlen2 : ((deg.set (g.edges.getD a default).source
              (deg.getD (g.edges.getD a default).source 0 + 1)).set
            (g.edges.getD a default).target
            ((deg.set (g.edges.getD a default).source
              (deg.getD (g.edges.getD a default).source 0 + 1)).getD
              (g.edges.getD a default).target 0 + 1)).length
              = g.nNodes := by
            rw [List.length_set, List.length_set, hlen]
          obtain ⟨ihl, ihv⟩ := ih _ hlen2
            (fun i hi => hbnd i (List.mem_cons_of_mem a hi))
          refine ⟨ihl, ?_⟩
          intro v hv
          rw [ihv v hv, List.countP_cons]
          have hs1 : (deg.set (g.edges.getD a default).source
              (deg.getD (g.edges.getD a default).source 0 + 1)).getD
              (g.edges.getD a default).target 0
              = deg.getD (g.edges.getD a default).target 0 :=
            list_getD_set_ne _ _ _ _ _ hne
          by_cases hvs : v = (g.edges.getD a default).source
          · subst hvs
            have e1 : ((deg.set (g.edges.getD a default).source
                (deg.getD (g.edges.getD a default).source 0 + 1)).set
                (g.edges.getD a default).target
                ((deg.set (g.edges.getD a default).source
                  (deg.getD (g.edges.getD a default).source 0 + 1)).getD
                  (g.edges.getD a default).target 0 + 1)).getD
                (g.edges.getD a default).source 0
                = deg.getD (g.edges.getD a default).source 0 + 1 := by
              rw [list_getD_set_ne _ _ _ _ _ hne.symm,
                list_getD_set_self _ _ _ _ (by rw [hlen]; exact hsrc)]
            rw [e1]
            have hpa : degPred g s (g.edges.getD a default).source a
                = true :=
              degPred_true_iff.mpr ⟨hact, hcan, Or.inl rfl⟩
            rw [hpa, if_pos rfl]
            omega
          · by_cases hvt : v = (g.edges.getD a default).target
            · subst hvt
              have e1 : ((deg.set (g.edges.getD a default).source
                  (deg.getD (g.edges.getD a default).source 0 + 1)).set
                  (g.edges.getD a default).target
                  ((deg.set (g.edges.getD a default).source
                    (deg.getD (g.edges.getD a default).source 0 + 1)).getD
                    (g.edges.getD a default).target 0 + 1)).getD
                  (g.edges.getD a default).target 0
                  = deg.getD (g.edges.getD a default).target 0 + 1 := by
                rw [list_getD_set_self _ _ _ _
                  (by rw [List.length_set, hlen]; exact htgt), hs1]
              rw [e1]
              have hpa : degPred g s (g.edges.getD a default).target a
                  = true :=
                degPred_true_iff.mpr ⟨hact, hcan, Or.inr rfl⟩
              rw [hpa, if_pos rfl]
              omega
            · have e1 : ((deg.set (g.edges.getD a default).source
                  (deg.getD (g.edges.getD a default).source 0 + 1)).set
                  (g.edges.getD a default).target
                  ((deg.set (g.edges.getD a default).source
                    (deg.getD (g.edges.getD a default).source 0 + 1)).getD
                    (g.edges.getD a default).target 0 + 1)).getD v 0
                  = deg.getD v 0 := by
                rw [list_getD_set_ne _ _ _ _ _ (fun hh => hvt hh.symm),
                  list_getD_set_ne _ _ _ _ _ (fun hh => hvs hh.symm)]
              rw [e1]
              have hpa : degPred g s v a = false := by
                rw [Bool.eq_false_iff]
                intro hc
                rcases (degPred_true_iff.mp hc).2.2 with hh | hh
                · exact hvs hh.symm
                · exact hvt hh.symm
              rw [hpa, if_neg (by decide)]
              omega
        · rw [degStep_skip deg (Or.inr hcan)]
          obtain ⟨ihl, ihv⟩ := ih deg hlen
            (fun i hi => hbnd i (List.mem_cons_of_mem a hi))
          refine ⟨ihl, ?_⟩
          intro v hv
          rw [ihv v hv, List.countP_cons]
          have hpa : degPred g s v a = false := by
            rw [Bool.eq_false_iff]
            intro hc
            exact hcan (degPred_true_iff.mp hc).2.1
          rw [hpa]
          simp
      · rw [degStep_skip deg (Or.inl (Bool.eq_false_iff.mpr hact))]
        obtain ⟨ihl, ihv⟩ := ih deg hlen
          (fun i hi => hbnd i (List.mem_cons_of_mem a hi))
        refine ⟨ihl, ?_⟩
        intro v hv
        rw [ihv v hv, List.countP_cons]
        have hpa : degPred g s v a = false := by
          rw [Bool.eq_false_iff]
          intro hc
          exact hact (degPred_true_iff.mp hc).1
        rw [hpa]
        simp
  obtain ⟨hl, hv⟩ := main (List.range g.nEdges)
    (List.replicate g.nNodes 0) (by simp)
    (fun i hi => by rw [← w.ne_len]; exact List.mem_range.mp hi)
  refine ⟨hl, ?_⟩
  intro v hvlt
  have hchar := hv v hvlt
  have hrep : (List.replicate g.nNodes (0 : Nat)).getD v 0 = 0 := by
    rw [List.getD_eq_getElem?_getD, List.getElem?_replicate]
    simp [hvlt]
  rw [hrep, Nat.zero_add] at hchar
  exact hchar

/-- Behaviour of a `REMOVE` move on an active edge with a reverse
partner: both bits drop, the cost drops by the delta. -/
theorem apply_REMOVE_active {g : Graph} {a : List Bool} {c : ℚ}
    {i j : Nat} (h1 : a.getD i false = true)
    (hrev : (g.edges.getD i default).reverseEdgePtr = some j) (d : ℚ) :
    SFPMove.apply ⟨.REMOVE, i, d⟩ g ⟨a, c⟩ =
      ⟨(a.set i false).set j false, c - d⟩ := by
  rw [apply_REMOVE, internalRemove_eq_of_active g a c i h1]
  simp only [hrev]

/-- The mirror partner of an edge, unpacked. -/
theorem mirror_facts {g : Graph} (m : MirrorWF g) {i j : Nat}
    (hi : i < g.edges.length)
    (hrev : (g.edges.getD i default).reverseEdgePtr = some j) :
    j < g.edges.length ∧ j ≠ i ∧
    (g.edges.getD j default).reverseEdgePtr = some i ∧
    (g.edges.getD j default).source = (g.edges.getD i default).target ∧
    (g.edges.getD j default).target = (g.edges.getD i default).source := by
  obtain ⟨j', hj', hjlt, hback, hsrc, htgt, _⟩ := m.rev_some i hi
  rw [hrev] at hj'
  have hjj : j' = j := (Option.some.inj hj').symm
  subst hjj
  refine ⟨hjlt, ?_, hback, hsrc, htgt⟩
  intro hji
  subst hji
  exact m.no_self j' hjlt hsrc

/-- Deactivating an active edge together with its mirror changes the
activity of exactly those two indices. -/
theorem isEdgeActive_after_remove {g : Graph} {s : SFPSolution}
    (hlen : s.activeEdges.length = g.nEdges) (i j : Nat)
    (hi : i < g.nEdges) (hj : j < g.nEdges) (hji : j ≠ i) (c' : ℚ) :
    (SFPSolution.isEdgeActive
        ⟨(s.activeEdges.set i false).set j false, c'⟩ i = false) ∧
    (SFPSolution.isEdgeActive
        ⟨(s.activeEdges.set i false).set j false, c'⟩ j = false) ∧
    (∀ x, x ≠ i → x ≠ j →
      SFPSolution.isEdgeActive
        ⟨(s.activeEdges.set i false).set j false, c'⟩ x
        = s.isEdgeActive x) := by
  refine ⟨?_, ?_, ?_⟩
  · show ((s.activeEdges.set i false).set j false).getD i false = false
    rw [list_getD_set_ne _ _ _ _ _ hji,
      list_getD_set_self _ _ _ _ (by rw [hlen]; exact hi)]
  · show ((s.activeEdges.set i false).set j false).getD j false = false
    have hjb : j < (s.activeEdges.set i false).length := by
      rw [List.length_set, hlen]
      exact hj
    rw [list_getD_set_self _ _ _ _ hjb]
  · intro x hxi hxj
    show ((s.activeEdges.set i false).set j false).getD x false
      = s.activeEdges.getD x false
    rw [list_getD_set_ne _ _ _ _ _ (fun hh => hxj hh.symm),
      list_getD_set_ne _ _ _ _ _ (fun hh => hxi hh.symm)]

/-- Removing an active canonical-or-mirror pair decrements the degree of
exactly the two endpoints. -/
theorem degCount_remove {g : Graph} (m : MirrorWF g)
    {s : SFPSolution} (hsym : SymBitset g s) {i j : Nat}
    (hi : i < g.edges.length) (hact : s.isEdgeActive i = true)
    (hrev : (g.edges.getD i default).reverseEdgePtr = some j) (c' : ℚ) :
    ∀ v,
      (((g.edges.getD i default).source = v ∨
        (g.edges.getD i default).target = v) →
        degCount g ⟨(s.activeEdges.set i false).set j false, c'⟩ v + 1
          = degCount g s v) ∧
      (¬((g.edges.getD i default).source = v ∨
        (g.edges.getD i default).target = v) →
        degCount g ⟨(s.activeEdges.set i false).set j false, c'⟩ v
          = degCount g s v) := by
  intro v
  obtain ⟨hjlt, hji, hback, hjsrc, hjtgt⟩ := mirror_facts m hi hrev
  have hine : g.nEdges = g.edges.length := m.ne_len
  have hjact : s.isEdgeActive j = true :=
    hsym.sym i (by omega) hact j hrev
  have hA := isEdgeActive_after_remove hsym.len i j
    (by omega) (by omega) hji c'
  have hnsi : (g.edges.getD i default).source
      ≠ (g.edges.getD i default).target := m.no_self i hi
  -- the canonical member of the pair
  rcases Nat.lt_or_ge (g.edges.getD i default).source
      (g.edges.getD i default).target with hci | hcj
  · -- i is canonical, j is not
    have hjnc : ¬(g.edges.getD j default).source
        < (g.edges.getD j default).target := by
      rw [hjsrc, hjtgt]
      omega
    have hqe : ∀ x, x ≠ i →
        degPred g ⟨(s.activeEdges.set i false).set j false, c'⟩ v x
          = degPred g s v x := by
      intro x hxi
      by_cases hxj : x = j
      · rw [hxj]
        have h1 : degPred g s v j = false := by
          rw [Bool.eq_false_iff]
          intro hc
          exact hjnc (degPred_true_iff.mp hc).2.1
        have h2 : degPred g
            ⟨(s.activeEdges.set i false).set j false, c'⟩ v j = false := by
          rw [Bool.eq_false_iff]
          intro hc
          exact hjnc (degPred_true_iff.mp hc).2.1
        rw [h1, h2]
      · rw [degPred, degPred, hA.2.2 x hxi hxj]
    constructor
    · intro hinc
      have hp : degPred g s v i = true :=
        degPred_true_iff.mpr ⟨hact, hci, hinc⟩
      have hq : degPred g
          ⟨(s.activeEdges.set i false).set j false, c'⟩ v i = false := by
        rw [Bool.eq_false_iff]
        intro hc
        have := (degPred_true_iff.mp hc).1
        rw [hA.1] at this
        exact absurd this (by decide)
      have := countP_flip_one g.nEdges (by omega) hqe hp hq
      rw [degCount, degCount, this]
    · intro hninc
      have heq : ∀ x, x < g.nEdges →
          degPred g ⟨(s.activeEdges.set i false).set j false, c'⟩ v x
            = degPred g s v x := by
        intro x _
        by_cases hxi : x = i
        · rw [hxi]
          have h1 : degPred g s v i = false := by
            rw [Bool.eq_false_iff]
            intro hc
            exact hninc (degPred_true_iff.mp hc).2.2
          have h2 : degPred g
              ⟨(s.activeEdges.set i false).set j false, c'⟩ v i
              = false := by
            rw [Bool.eq_false_iff]
            intro hc
            exact hninc (degPred_true_iff.mp hc).2.2
          rw [h1, h2]
        · exact hqe x hxi
      exact countP_congr_range heq
  · -- j is canonical, i is not
    have hcj' : (g.edges.getD j default).source
        < (g.edges.getD j default).target := by
      rw [hjsrc, hjtgt]
      omega
    have hinc_j : ∀ w, ((g.edges.getD i default).source = w ∨
        (g.edges.getD i default).target = w) ↔
        ((g.edges.getD j default).source = w ∨
         (g.edges.getD j default).target = w) := by
      intro x
      rw [hjsrc, hjtgt]
      exact Or.comm
    have hinc2 : ¬(g.edges.getD i default).source
        < (g.edges.getD i default).target := by omega
    have hqe : ∀ x, x ≠ j →
        degPred g ⟨(s.activeEdges.set i false).set j false, c'⟩ v x
          = degPred g s v x := by
      intro x hxj
      by_cases hxi : x = i
      · rw [hxi]
        have h1 : degPred g s v i = false := by
          rw [Bool.eq_false_iff]
          intro hc
          exact hinc2 (degPred_true_iff.mp hc).2.1
        have h2 : degPred g
            ⟨(s.activeEdges.set i false).set j false, c'⟩ v i = false := by
          rw [Bool.eq_false_iff]
          intro hc
          exact hinc2 (degPred_true_iff.mp hc).2.1
        rw [h1, h2]
      · rw [degPred, degPred, hA.2.2 x hxi hxj]
    constructor
    · intro hinc
      have hp : degPred g s v j = true :=
        degPred_true_iff.mpr ⟨hjact, hcj', (hinc_j v).mp hinc⟩
      have hq : degPred g
          ⟨(s.activeEdges.set i false).set j false, c'⟩ v j = false := by
        rw [Bool.eq_false_iff]
        intro hc
        have := (degPred_true_iff.mp hc).1
        rw [hA.2.1] at this
        exact absurd this (by decide)
      have := countP_flip_one g.nEdges (by omega) hqe hp hq
      rw [degCount, degCount, this]
    · intro hninc
      have heq : ∀ x, x < g.nEdges →
          degPred g ⟨(s.activeEdges.set i false).set j false, c'⟩ v x
            = degPred g s v x := by
        intro x _
        by_cases hxj : x = j
        · rw [hxj]
          have h1 : degPred g s v j = false := by
            rw [Bool.eq_false_iff]
            intro hc
            exact hninc ((hinc_j v).mpr (degPred_true_iff.mp hc).2.2)
          have h2 : degPred g
              ⟨(s.activeEdges.set i false).set j false, c'⟩ v j
              = false := by
            rw [Bool.eq_false_iff]
            intro hc
            exact hninc ((hinc_j v).mpr (degPred_true_iff.mp hc).2.2)
          rw [h1, h2]
        · exact hqe x hxj
      exact countP_congr_range heq

/-- A node with positive degree has an active physical out-edge, so the
linear scan finds one (and the found edge leaves the node). -/
theorem firstActiveEdge_finds {g : Graph} (w : CsrWF g) (m : MirrorWF g)
    {s : SFPSolution} (hsym : SymBitset g s) {v : Nat}
    (hv : v < g.nNodes) (hpos : 0 < degCount g s v) :
    ∃ e, firstActiveEdge g s v = some e ∧ s.isEdgeActive e = true ∧
      e < g.edges.length ∧ (g.edges.getD e default).source = v ∧
      g.ptrs.getD v 0 ≤ e ∧ e < g.ptrs.getD (v + 1) 0 := by
  obtain ⟨c, hcmem, hcp⟩ := List.countP_pos.mp hpos
  have hclen : c < g.edges.length := by
    rw [← w.ne_len]
    exact List.mem_range.mp hcmem
  obtain ⟨hcact, _, hinc⟩ := degPred_true_iff.mp hcp
  -- an active physical edge leaving v
  have hout : ∃ o, o < g.edges.length ∧ s.isEdgeActive o = true ∧
      (g.edges.getD o default).source = v := by
    rcases hinc with hsc | htc
    · exact ⟨c, hclen, hcact, hsc⟩
    · cases hrev : (g.edges.getD c default).reverseEdgePtr with
      | none =>
        obtain ⟨j, hj, _⟩ := m.rev_some c hclen
        rw [hrev] at hj
        exact absurd hj (by simp)
      | some j =>
        obtain ⟨hjlt, _, _, hjsrc, _⟩ := mirror_facts m hclen hrev
        have hjact : s.isEdgeActive j = true :=
          hsym.sym c (by rw [m.ne_len]; exact hclen) hcact j hrev
        exact ⟨j, hjlt, hjact, by rw [hjsrc, htc]⟩
  obtain ⟨o, holen, hoact, hosrc⟩ := hout
  obtain ⟨u, hult, hlo, hhi, husrc⟩ := csr_find_slice w holen
  have huv : u = v := by
    rw [← husrc, hosrc]
  subst huv
  have homem : o ∈ List.range' (g.ptrs.getD u 0)
      (g.ptrs.getD (u + 1) 0 - g.ptrs.getD u 0) := by
    rw [List.mem_range'_1]
    omega
  have hsome : (firstActiveEdge g s u).isSome := by
    rw [firstActiveEdge, List.find?_isSome]
    exact ⟨o, homem, hoact⟩
  cases he : firstActiveEdge g s u with
  | none =>
    rw [he] at hsome
    exact absurd hsome (by simp)
  | some e =>
    have hemem : e ∈ List.range' (g.ptrs.getD u 0)
        (g.ptrs.getD (u + 1) 0 - g.ptrs.getD u 0) :=
      List.mem_of_find?_eq_some he
    rw [List.mem_range'_1] at hemem
    have he1 : g.ptrs.getD u 0 ≤ e := hemem.1
    have he2 : e < g.ptrs.getD (u + 1) 0 := by omega
    have heact : s.isEdgeActive e = true := List.find?_some he
    exact ⟨e, rfl, heact, csr_slice_lt_len w hult he2,
      w.slice_src u hult e he1 he2, he1, he2⟩

/-- Removing an edge together with its mirror keeps the bitset
symmetric. -/
theorem symBitset_remove {g : Graph} (m : MirrorWF g) {s : SFPSolution}
    (hsym : SymBitset g s) {i j : Nat} (hi : i < g.edges.length)
    (hrev : (g.edges.getD i default).reverseEdgePtr = some j) (c' : ℚ) :
    SymBitset g ⟨(s.activeEdges.set i false).set j false, c'⟩ := by
  obtain ⟨hjlt, hji, hback, _, _⟩ := mirror_facts m hi hrev
  have hA := isEdgeActive_after_remove hsym.len i j
    (by rw [m.ne_len]; exact hi) (by rw [m.ne_len]; exact hjlt) hji c'
  refine ⟨by simp [hsym.len], ?_⟩
  intro x hx hactx k hk
  by_cases hxj : x = j
  · subst hxj
    rw [hA.2.1] at hactx
    exact absurd hactx (by decide)
  · by_cases hxi : x = i
    · subst hxi
      rw [hA.1] at hactx
      exact absurd hactx (by decide)
    · rw [hA.2.2 x hxi hxj] at hactx
      have hxlen : x < g.edges.length := by
        rw [← m.ne_len]
        exact hx
      obtain ⟨k', hk', hklt, hkback, _, _⟩ := m.rev_some x hxlen
      rw [hk] at hk'
      have hkk : k' = k := (Option.some.inj hk').symm
      subst hkk
      have hki : k' ≠ i := by
        intro hh
        subst hh
        rw [hrev] at hkback
        exact hxj (Option.some.inj hkback).symm
      have hkj : k' ≠ j := by
        intro hh
        subst hh
        rw [hback] at hkback
        exact hxi (Option.some.inj hkback).symm
      rw [hA.2.2 k' hki hkj]
      exact hsym.sym x hx hactx k' hk

theorem pruneLoop_nil (g : Graph) (isT : List Bool) (fuel : Nat)
    (sol : SFPSolution) (deg : List Nat) (changed : Bool) :
    pruneLoop g isT (fuel + 1) sol deg [] changed
      = some (changed, sol) := rfl

theorem pruneLoop_skip (g : Graph) (isT : List Bool) (fuel : Nat)
    (sol : SFPSolution) (deg : List Nat) {source : Nat} (qrest : List Nat)
    (changed : Bool) (h : deg.getD source 0 ≠ 1) :
    pruneLoop g isT (fuel + 1) sol deg (source :: qrest) changed
      = pruneLoop g isT fuel sol deg qrest changed := by
  simp only [pruneLoop]
  rw [if_pos h]

theorem pruneLoop_nofind (g : Graph) (isT : List Bool) (fuel : Nat)
    (sol : SFPSolution) (deg : List Nat) {source : Nat} (qrest : List Nat)
    (changed : Bool) (h : ¬deg.getD source 0 ≠ 1)
    (hfind : firstActiveEdge g sol source = none) :
    pruneLoop g isT (fuel + 1) sol deg (source :: qrest) changed
      = pruneLoop g isT fuel sol deg qrest changed := by
  simp only [pruneLoop]
  rw [if_neg h]
  simp only [hfind]

theorem pruneLoop_remove (g : Graph) (isT : List Bool) (fuel : Nat)
    (sol : SFPSolution) (deg : List Nat) {source : Nat} (qrest : List Nat)
    (changed : Bool) (h : ¬deg.getD source 0 ≠ 1) {e : Nat}
    (hfind : firstActiveEdge g sol source = some e) :
    pruneLoop g isT (fuel + 1) sol deg (source :: qrest) changed
      = pruneLoop g isT fuel
          (SFPMove.apply
            ⟨MoveType.REMOVE, e, (g.edges.getD e default).weight⟩ g sol)
          ((deg.set source (deg.getD source 0 - 1)).set
            (g.edges.getD e default).target
            ((deg.set source (deg.getD source 0 - 1)).getD
              (g.edges.getD e default).target 0 - 1))
          (if ((deg.set source (deg.getD source 0 - 1)).set
                (g.edges.getD e default).target
                ((deg.set source (deg.getD source 0 - 1)).getD
                  (g.edges.getD e default).target 0 - 1)).getD
                (g.edges.getD e default).target 0 = 1
              ∧ isT.getD (g.edges.getD e default).target false = false
            then qrest ++ [(g.edges.getD e default).target] else qrest)
          true := by
  simp only [pruneLoop]
  rw [if_neg h]
  simp only [hfind]

/-- `apply_REMOVE_active`, stated on projections. -/
theorem apply_REMOVE_active' {g : Graph} {s : SFPSolution} {i j : Nat}
    (h1 : s.isEdgeActive i = true)
    (hrev : (g.edges.getD i default).reverseEdgePtr = some j) (d : ℚ) :
    SFPMove.apply ⟨.REMOVE, i, d⟩ g s =
      ⟨(s.activeEdges.set i false).set j false, s.currentCost - d⟩ := by
  obtain ⟨a, c⟩ := s
  exact apply_REMOVE_active h1 hrev d

/-- The cascade maintains degree consistency and the "every degree-1
non-terminal is queued" invariant; at exit no degree-1 non-terminal
remains. -/
theorem pruneLoop_final {g : Graph} (w : CsrWF g) (m : MirrorWF g)
    (isT : List Bool) :
    ∀ (fuel : Nat) (sol : SFPSolution) (deg q : List Nat)
      (changed : Bool) (out : Bool × SFPSolution),
    SymBitset g sol →
    deg.length = g.nNodes →
    (∀ v, v < g.nNodes → deg.getD v 0 = degCount g sol v) →
    (∀ v, v < g.nNodes → degCount g sol v = 1 →
      isT.getD v false = false → v ∈ q) →
    (∀ x ∈ q, x < g.nNodes) →
    pruneLoop g isT fuel sol deg q changed = some out →
    SymBitset g out.2 ∧
    ∀ v, v < g.nNodes → degCount g out.2 v = 1 →
      isT.getD v false = false → False := by
  intro fuel
  induction fuel with
  | zero =>
    intro sol deg q changed out _ _ _ _ _ hrun
    simp [pruneLoop] at hrun
  | succ fuel ih =>
    intro sol deg q changed out hsym hdlen hdeg hq hqb hrun
    cases q with
    | nil =>
      rw [pruneLoop_nil] at hrun
      obtain rfl := Option.some.inj hrun
      refine ⟨hsym, ?_⟩
      intro v hv h1c hterm
      have := hq v hv h1c hterm
      simp at this
    | cons source qrest =>
      by_cases hguard : deg.getD source 0 ≠ 1
      · rw [pruneLoop_skip g isT fuel sol deg qrest changed hguard]
          at hrun
        refine ih sol deg qrest changed out hsym hdlen hdeg ?_
          (fun x hx => hqb x (List.mem_cons_of_mem _ hx)) hrun
        intro v hv h1c hterm
        have hmem := hq v hv h1c hterm
        rcases List.mem_cons.mp hmem with rfl | hmem'
        · rw [hdeg v hv] at hguard
          exact absurd h1c hguard
        · exact hmem'
      · have hslt : source < g.nNodes :=
          hqb source (List.mem_cons_self _ _)
        have hds : deg.getD source 0 = 1 := by omega
        have hdc : degCount g sol source = 1 := by
          rw [← hdeg source hslt]
          exact hds
        obtain ⟨e, hfind, heact, helen, hesrc, he1, he2⟩ :=
          firstActiveEdge_finds w m hsym hslt (by omega)
        rw [pruneLoop_remove g isT fuel sol deg qrest changed hguard
          hfind] at hrun
        obtain ⟨j, hrev, hjlt, hback, hjsrc, hjtgt, _⟩ :=
          m.rev_some e helen
        rw [apply_REMOVE_active' heact hrev
          (g.edges.getD e default).weight] at hrun
        have htgtlt : (g.edges.getD e default).target < g.nNodes :=
          w.tgt_lt e helen
        have hst : source ≠ (g.edges.getD e default).target := by
          rw [← hesrc]
          exact m.no_self e helen
        have hsym' := symBitset_remove m hsym helen hrev
          (sol.currentCost - (g.edges.getD e default).weight)
        have hdec := degCount_remove m hsym helen heact hrev
          (sol.currentCost - (g.edges.getD e default).weight)
        -- the updated degree array
        have hd1len : (deg.set source (deg.getD source 0 - 1)).length
            = g.nNodes := by
          rw [List.length_set, hdlen]
        have hdlen' : ((deg.set source (deg.getD source 0 - 1)).set
            (g.edges.getD e default).target
            ((deg.set source (deg.getD source 0 - 1)).getD
              (g.edges.getD e default).target 0 - 1)).length
            = g.nNodes := by
          rw [List.length_set, hd1len]
        have hd1tgt : (deg.set source (deg.getD source 0 - 1)).getD
            (g.edges.getD e default).target 0
            = deg.getD (g.edges.getD e default).target 0 :=
          list_getD_set_ne _ _ _ _ _ hst
        have hdegtgt : ((deg.set source (deg.getD source 0 - 1)).set
            (g.edges.getD e default).target
            ((deg.set source (deg.getD source 0 - 1)).getD
              (g.edges.getD e default).target 0 - 1)).getD
            (g.edges.getD e default).target 0
            = deg.getD (g.edges.getD e default).target 0 - 1 := by
          rw [list_getD_set_self _ _ _ _ (by rw [hd1len]; exact htgtlt),
            hd1tgt]
        have hdegsrc : ((deg.set source (deg.getD source 0 - 1)).set
            (g.edges.getD e default).target
            ((deg.set source (deg.getD source 0 - 1)).getD
              (g.edges.getD e default).target 0 - 1)).getD source 0
            = 0 := by
          rw [list_getD_set_ne _ _ _ _ _ (Ne.symm hst),
            list_getD_set_self _ _ _ _ (by rw [hdlen]; exact hslt), hds]
        have hdegoth : ∀ v, v ≠ source →
            v ≠ (g.edges.getD e default).target →
            ((deg.set source (deg.getD source 0 - 1)).set
              (g.edges.getD e default).target
              ((deg.set source (deg.getD source 0 - 1)).getD
                (g.edges.getD e default).target 0 - 1)).getD v 0
            = deg.getD v 0 := by
          intro v hv1 hv2
          rw [list_getD_set_ne _ _ _ _ _ (fun hh => hv2 hh.symm),
            list_getD_set_ne _ _ _ _ _ (fun hh => hv1 hh.symm)]
        have hsrcdec : degCount g
            ⟨(sol.activeEdges.set e false).set j false,
              sol.currentCost - (g.edges.getD e default).weight⟩ source
            = 0 := by
          have := (hdec source).1 (Or.inl hesrc)
          omega
        have htgtdec : degCount g
            ⟨(sol.activeEdges.set e false).set j false,
              sol.currentCost - (g.edges.getD e default).weight⟩
            (g.edges.getD e default).target + 1
            = degCount g sol (g.edges.getD e default).target :=
          (hdec (g.edges.getD e default).target).1 (Or.inr rfl)
        have hdeg' : ∀ v, v < g.nNodes →
            ((deg.set source (deg.getD source 0 - 1)).set
              (g.edges.getD e default).target
              ((deg.set source (deg.getD source 0 - 1)).getD
                (g.edges.getD e default).target 0 - 1)).getD v 0
            = degCount g
              ⟨(sol.activeEdges.set e false).set j false,
                sol.currentCost - (g.edges.getD e default).weight⟩ v := by
          intro v hv
          by_cases hv1 : v = source
          · subst hv1
            rw [hdegsrc, hsrcdec]
          · by_cases hv2 : v = (g.edges.getD e default).target
            · subst hv2
              rw [hdegtgt, hdeg _ hv]
              omega
            · rw [hdegoth v hv1 hv2, hdeg v hv]
              exact ((hdec v).2 (by
                rintro (hh | hh)
                · exact hv1 (hesrc ▸ hh.symm)
                · exact hv2 hh.symm)).symm
        refine ih _ _ _ true out hsym' hdlen' hdeg' ?_ ?_ hrun
        · intro v hv h1c hterm
          by_cases hv1 : v = source
          · subst hv1
            rw [hsrcdec] at h1c
            exact absurd h1c (by omega)
          · by_cases hv2 : v = (g.edges.getD e default).target
            · subst hv2
              have hcond : ((deg.set source (deg.getD source 0 - 1)).set
                  (g.edges.getD e default).target
                  ((deg.set source (deg.getD source 0 - 1)).getD
                    (g.edges.getD e default).target 0 - 1)).getD
                  (g.edges.getD e default).target 0 = 1
                  ∧ isT.getD (g.edges.getD e default).target false
                    = false := by
                refine ⟨?_, hterm⟩
                rw [hdeg' _ hv, h1c]
              rw [if_pos hcond]
              exact List.mem_append_right _ (List.mem_singleton.mpr rfl)
            · have hold : degCount g sol v = 1 := by
                rw [← h1c]
                exact ((hdec v).2 (by
                  rintro (hh | hh)
                  · exact hv1 (hesrc ▸ hh.symm)
                  · exact hv2 hh.symm)).symm
              have hmem := hq v hv hold hterm
              rcases List.mem_cons.mp hmem with rfl | hmem'
              · exact absurd rfl hv1
              · by_cases hcond : ((deg.set source
                    (deg.getD source 0 - 1)).set
                    (g.edges.getD e default).target
                    ((deg.set source (deg.getD source 0 - 1)).getD
                      (g.edges.getD e default).target 0 - 1)).getD
                    (g.edges.getD e default).target 0 = 1
                    ∧ isT.getD (g.edges.getD e default).target false
                      = false
                · rw [if_pos hcond]
                  exact List.mem_append_left _ hmem'
                · rw [if_neg hcond]
                  exact hmem'
        · intro x hx
          by_cases hcond : ((deg.set source (deg.getD source 0 - 1)).set
              (g.edges.getD e default).target
              ((deg.set source (deg.getD source 0 - 1)).getD
                (g.edges.getD e default).target 0 - 1)).getD
              (g.edges.getD e default).target 0 = 1
              ∧ isT.getD (g.edges.getD e default).target false = false
          · rw [if_pos hcond] at hx
            rcases List.mem_append.mp hx with hx' | hx'
            · exact hqb x (List.mem_cons_of_mem _ hx')
            · rw [List.mem_singleton.mp hx']
              exact htgtlt
          · rw [if_neg hcond] at hx
            exact hqb x (List.mem_cons_of_mem _ hx)

/-- **C8.**  `prune` is idempotent: on a wellformed graph (CSR layout,
proper mirror pairing, no self-loops) and a mirror-symmetric solution
bitset, immediately re-running `prune` on the result of a terminating
`prune` call removes no edge, returns `false`, and leaves the
active-edge bitset and the cached cost exactly unchanged. -/
theorem C8_prune_idempotent (g : Graph) (terminals : List (Nat × Nat))
    (s : SFPSolution) (b1 : Bool) (s1 : SFPSolution)
    (hw : g.csrWFb = true) (hm : g.mirrorWFb = true)
    (hsymb : symBitsetb g s = true)
    (h1 : prune g terminals s = some (b1, s1)) :
    prune g terminals s1 = some (false, s1) := by
  have w := csrWF_of_b hw
  have m := mirrorWF_of_b hm
  have hsym := symBitset_of_b hsymb
  simp only [prune] at h1
  obtain ⟨hdlen, hdeg⟩ := pruneDegrees_char w s
  have hfinal := pruneLoop_final w m (terminalFlags g.nNodes terminals)
    (g.nNodes + g.nEdges + 1) s (pruneDegrees g s) _ false (b1, s1)
    hsym hdlen hdeg ?_ ?_ h1
  · obtain ⟨hsym1, hnone⟩ := hfinal
    simp only [prune]
    have hq1 : (List.range g.nNodes).filter
        (fun i => decide ((pruneDegrees g s1).getD i 0 = 1) &&
          decide ((terminalFlags g.nNodes terminals).getD i false
            = false)) = [] := by
      rw [List.filter_eq_nil_iff]
      intro x hx
      rw [Bool.and_eq_true, decide_eq_true_eq, decide_eq_true_eq]
      rintro ⟨hd1, ht⟩
      have hxlt := List.mem_range.mp hx
      rw [(pruneDegrees_char w s1).2 x hxlt] at hd1
      exact hnone x hxlt hd1 ht
    rw [hq1]
    exact pruneLoop_nil g (terminalFlags g.nNodes terminals)
      (g.nNodes + g.nEdges) s1 (pruneDegrees g s1) false
  · intro v hv h1c hterm
    rw [List.mem_filter]
    refine ⟨List.mem_range.mpr hv, ?_⟩
    rw [Bool.and_eq_true, decide_eq_true_eq, decide_eq_true_eq]
    exact ⟨by rw [hdeg v hv]; exact h1c, hterm⟩
  · intro x hx
    exact List.mem_range.mp (List.mem_of_mem_filter hx)

unseal Rat.add Rat.mul Rat.sub Rat.inv in
theorem C8_prune_idempotent_witness :
    gExampleC2.csrWFb = true ∧ gExampleC2.mirrorWFb = true ∧
    symBitsetb gExampleC2 ⟨[true, true, true, true], 15⟩ = true ∧
    prune gExampleC2 [(0, 1)] ⟨[true, true, true, true], 15⟩
      = some (true, ⟨[true, true, false, false], 10⟩) ∧
    prune gExampleC2 [(0, 1)] ⟨[true, true, false, false], 10⟩
      = some (false, ⟨[true, true, false, false], 10⟩) :=
  ⟨by decide, by decide, by decide, by decide,
   C8_prune_idempotent gExampleC2 [(0, 1)]
     ⟨[true, true, true, true], 15⟩ true
     ⟨[true, true, false, false], 10⟩ (by decide) (by decide)
     (by decide) (by decide)⟩

/-! ### Cost-consistency toolkit (half-sum invariant) -/

theorem sum_range_congr {n : Nat} {F G : Nat → ℚ}
    (h : ∀ x, x < n → F x = G x) :
    ((List.range n).map F).sum = ((List.range n).map G).sum := by
  induction n with
  | zero => rfl
  | succ n ih =>
    rw [List.range_succ, List.map_append, List.map_append,
      List.sum_append, List.sum_append,
      ih (fun x hx => h x (by omega))]
    simp [h n (by omega)]

theorem sum_range_flip_one {n i : Nat} {F G : Nat → ℚ} (hi : i < n)
    (he : ∀ x, x ≠ i → F x = G x) :
    ((List.range n).map G).sum
      = ((List.range n).map F).sum - F i + G i := by
  induction n with
  | zero => omega
  | succ n ih =>
    rw [List.range_succ, List.map_append, List.map_append,
      List.sum_append, List.sum_append]
    by_cases hin : i < n
    · rw [ih hin]
      have hn : F n = G n := he n (by omega)
      simp [hn]
      ring
    · have hieq : i = n := by omega
      subst hieq
      rw [sum_range_congr (fun x hx => he x (by omega))]
      simp

theorem sum_range_flip_two {n i j : Nat} {F G : Nat → ℚ} (hij : i ≠ j)
    (hi : i < n) (hj : j < n)
    (he : ∀ x, x ≠ i → x ≠ j → F x = G x) :
    ((List.range n).map G).sum
      = ((List.range n).map F).sum - F i - F j + G i + G j := by
  have h1 : ((List.range n).map (fun x => if x = i then G x else F x)).sum
      = ((List.range n).map F).sum - F i + G i := by
    have := @sum_range_flip_one n i F
      (fun x => if x = i then G x else F x) hi
      (fun x hx => by simp [hx])
    simpa using this
  have h2 : ((List.range n).map G).sum
      = ((List.range n).map (fun x => if x = i then G x else F x)).sum
        - (if j = i then G j else F j) + G j := by
    exact sum_range_flip_one hj (fun x hx => by
      by_cases hxi : x = i
      · simp [hxi]
      · simp [hxi]
        exact he x hxi hx)
  rw [h2, h1, if_neg (Ne.symm hij)]
  ring

/-- Behaviour of an `ADD` move on an inactive edge with a reverse
partner: both bits rise, the cost rises by the delta. -/
theorem apply_ADD_inactive' {g : Graph} {s : SFPSolution} {i j : Nat}
    (h1 : s.isEdgeActive i = false)
    (hrev : (g.edges.getD i default).reverseEdgePtr = some j) (d : ℚ) :
    SFPMove.apply ⟨.ADD, i, d⟩ g s =
      ⟨(s.activeEdges.set i true).set j true, s.currentCost + d⟩ := by
  obtain ⟨a, c⟩ := s
  rw [apply_ADD, internalAdd_eq_of_inactive g a c i h1]
  simp only [hrev]

/-- An `ADD` move on an out-of-range index is a no-op: the bit write
misses the bitset and the out-of-range default edge has weight `0`. -/
theorem apply_ADD_oob {g : Graph} {s : SFPSolution} {i : Nat}
    (hlen : s.activeEdges.length = g.nEdges)
    (hne : g.nEdges = g.edges.length) (hoob : ¬i < g.edges.length) :
    SFPMove.apply ⟨.ADD, i, (g.edges.getD i default).weight⟩ g s
      = s := by
  have hgd : g.edges.getD i default = default := by
    rw [List.getD_eq_getElem?_getD, List.getElem?_eq_none (by omega)]
    rfl
  have hact : s.isEdgeActive i = false := by
    show s.activeEdges.getD i false = false
    rw [List.getD_eq_getElem?_getD, List.getElem?_eq_none (by omega)]
    rfl
  obtain ⟨a, c⟩ := s
  rw [apply_ADD, internalAdd_eq_of_inactive g a c i hact]
  rw [hgd]
  have hset : a.set i true = a :=
    List.set_eq_of_length_le (by
      simp only [SFPSolution.activeEdges] at hlen
      omega)
  simp [hset]
  rfl

/-- Activity of the bitset after setting an edge and its mirror to the
same value. -/
theorem isEdgeActive_after_set2 {g : Graph} {s : SFPSolution}
    (hlen : s.activeEdges.length = g.nEdges) (i j : Nat) (b : Bool)
    (hi : i < g.nEdges) (hj : j < g.nEdges) (hji : j ≠ i) (c' : ℚ) :
    (SFPSolution.isEdgeActive
        ⟨(s.activeEdges.set i b).set j b, c'⟩ i = b) ∧
    (SFPSolution.isEdgeActive
        ⟨(s.activeEdges.set i b).set j b, c'⟩ j = b) ∧
    (∀ x, x ≠ i → x ≠ j →
      SFPSolution.isEdgeActive
        ⟨(s.activeEdges.set i b).set j b, c'⟩ x
        = s.isEdgeActive x) := by
  refine ⟨?_, ?_, ?_⟩
  · show ((s.activeEdges.set i b).set j b).getD i false = b
    rw [list_getD_set_ne _ _ _ _ _ hji,
      list_getD_set_self _ _ _ _ (by rw [hlen]; exact hi)]
  · show ((s.activeEdges.set i b).set j b).getD j false = b
    have hjb : j < (s.activeEdges.set i b).length := by
      rw [List.length_set, hlen]
      exact hj
    rw [list_getD_set_self _ _ _ _ hjb]
  · intro x hxi hxj
    show ((s.activeEdges.set i b).set j b).getD x false
      = s.activeEdges.getD x false
    rw [list_getD_set_ne _ _ _ _ _ (fun hh => hxj hh.symm),
      list_getD_set_ne _ _ _ _ _ (fun hh => hxi hh.symm)]

/-- Activating an edge together with its mirror keeps the bitset
symmetric. -/
theorem symBitset_addPair {g : Graph} (m : MirrorWF g) {s : SFPSolution}
    (hsym : SymBitset g s) {i j : Nat} (hi : i < g.edges.length)
    (hrev : (g.edges.getD i default).reverseEdgePtr = some j) (c' : ℚ) :
    SymBitset g ⟨(s.activeEdges.set i true).set j true, c'⟩ := by
  obtain ⟨hjlt, hji, hback, _, _⟩ := mirror_facts m hi hrev
  have hA := isEdgeActive_after_set2 hsym.len i j true
    (by rw [m.ne_len]; exact hi) (by rw [m.ne_len]; exact hjlt) hji c'
  refine ⟨by simp [hsym.len], ?_⟩
  intro x hx hactx k hk
  by_cases hxi : x = i
  · subst hxi
    rw [hrev] at hk
    obtain rfl := Option.some.inj hk
    exact hA.2.1
  · by_cases hxj : x = j
    · subst hxj
      rw [hback] at hk
      obtain rfl := Option.some.inj hk
      exact hA.1
    · rw [hA.2.2 x hxi hxj] at hactx
      have hxlen : x < g.edges.length := by
        rw [← m.ne_len]
        exact hx
      obtain ⟨k', hk', hklt, hkback, _, _⟩ := m.rev_some x hxlen
      rw [hk] at hk'
      have hkk : k' = k := (Option.some.inj hk').symm
      subst hkk
      have hki : k' ≠ i := by
        intro hh
        subst hh
        rw [hrev] at hkback
        exact hxj (Option.some.inj hkback).symm
      have hkj : k' ≠ j := by
        intro hh
        subst hh
        rw [hback] at hkback
        exact hxi (Option.some.inj hkback).symm
      rw [hA.2.2 k' hki hkj]
      exact hsym.sym x hx hactx k' hk

/-- An `ADD` move carrying the original graph weight of an inactive
in-range edge preserves the half-sum cost invariant and the bitset
symmetry. -/
theorem costConsistent_add {g : Graph} (m : MirrorWF g)
    {s : SFPSolution} (hsym : SymBitset g s) {i : Nat}
    (hi : i < g.edges.length) (hact : s.isEdgeActive i = false)
    (hcost : costConsistent g s) :
    costConsistent g (SFPMove.apply ⟨MoveType.ADD, i,
      (g.edges.getD i default).weight⟩ g s) ∧
    SymBitset g (SFPMove.apply ⟨MoveType.ADD, i,
      (g.edges.getD i default).weight⟩ g s) := by
  obtain ⟨j, hrev, hjlt, hback, hjsrc, hjtgt, hjw⟩ := m.rev_some i hi
  obtain ⟨_, hji, _, _, _⟩ := mirror_facts m hi hrev
  have hjact : s.isEdgeActive j = false := by
    rcases Bool.eq_false_or_eq_true (s.isEdgeActive j) with ht | hf
    · have := hsym.sym j (by rw [m.ne_len]; exact hjlt) ht i hback
      rw [hact] at this
      exact absurd this (by decide)
    · exact hf
  rw [apply_ADD_inactive' hact hrev]
  have hA := isEdgeActive_after_set2 hsym.len i j true
    (by rw [m.ne_len]; exact hi) (by rw [m.ne_len]; exact hjlt) hji
    (s.currentCost + (g.edges.getD i default).weight)
  constructor
  · show 2 * (s.currentCost + (g.edges.getD i default).weight)
      = SFPSolution.activeCostSum g
        ⟨(s.activeEdges.set i true).set j true,
         s.currentCost + (g.edges.getD i default).weight⟩
    have hflip := @sum_range_flip_two g.nEdges i j
      (fun x => if s.isEdgeActive x = true
        then (g.edges.getD x default).weight else 0)
      (fun x => if SFPSolution.isEdgeActive
          ⟨(s.activeEdges.set i true).set j true,
           s.currentCost + (g.edges.getD i default).weight⟩ x = true
        then (g.edges.getD x default).weight else 0)
      (Ne.symm hji) (by rw [m.ne_len]; exact hi)
      (by rw [m.ne_len]; exact hjlt)
      (fun x hxi hxj => by simp only [hA.2.2 x hxi hxj])
    have hcost' : 2 * s.currentCost
        = ((List.range g.nEdges).map
          (fun x => if s.isEdgeActive x = true
            then (g.edges.getD x default).weight else 0)).sum := by
      have := hcost
      rw [costConsistent, SFPSolution.activeCostSum] at this
      convert this using 2
    rw [SFPSolution.activeCostSum]
    rw [show (fun x => if SFPSolution.isEdgeActive
          ⟨(s.activeEdges.set i true).set j true,
           s.currentCost + (g.edges.getD i default).weight⟩ x
          then (g.edges.getD x default).weight else 0)
        = (fun x => if SFPSolution.isEdgeActive
          ⟨(s.activeEdges.set i true).set j true,
           s.currentCost + (g.edges.getD i default).weight⟩ x = true
          then (g.edges.getD x default).weight else 0) from rfl]
    rw [hflip, ← hcost']
    simp only [hact, hjact, hA.1, hA.2.1]
    show 2 * (s.currentCost + (g.edges.getD i default).weight)
      = 2 * s.currentCost - 0 - 0
        + (g.edges.getD i default).weight + (g.edges.getD j default).weight
    rw [hjw]
    ring
  · exact symBitset_addPair m hsym hi hrev _

/-- A `REMOVE` move carrying the original graph weight of an active
in-range edge preserves the half-sum cost invariant and the bitset
symmetry. -/
theorem costConsistent_remove {g : Graph} (m : MirrorWF g)
    {s : SFPSolution} (hsym : SymBitset g s) {i : Nat}
    (hi : i < g.edges.length) (hact : s.isEdgeActive i = true)
    (hcost : costConsistent g s) :
    costConsistent g (SFPMove.apply ⟨MoveType.REMOVE, i,
      (g.edges.getD i default).weight⟩ g s) ∧
    SymBitset g (SFPMove.apply ⟨MoveType.REMOVE, i,
      (g.edges.getD i default).weight⟩ g s) := by
  obtain ⟨j, hrev, hjlt, hback, hjsrc, hjtgt, hjw⟩ := m.rev_some i hi
  obtain ⟨_, hji, _, _, _⟩ := mirror_facts m hi hrev
  have hjact : s.isEdgeActive j = true :=
    hsym.sym i (by rw [m.ne_len]; exact hi) hact j hrev
  rw [apply_REMOVE_active' hact hrev]
  have hA := isEdgeActive_after_set2 hsym.len i j false
    (by rw [m.ne_len]; exact hi) (by rw [m.ne_len]; exact hjlt) hji
    (s.currentCost - (g.edges.getD i default).weight)
  constructor
  · show 2 * (s.currentCost - (g.edges.getD i default).weight)
      = SFPSolution.activeCostSum g
        ⟨(s.activeEdges.set i false).set j false,
         s.currentCost - (g.edges.getD i default).weight⟩
    have hflip := @sum_range_flip_two g.nEdges i j
      (fun x => if s.isEdgeActive x = true
        then (g.edges.getD x default).weight else 0)
      (fun x => if SFPSolution.isEdgeActive
          ⟨(s.activeEdges.set i false).set j false,
           s.currentCost - (g.edges.getD i default).weight⟩ x = true
        then (g.edges.getD x default).weight else 0)
      (Ne.symm hji) (by rw [m.ne_len]; exact hi)
      (by rw [m.ne_len]; exact hjlt)
      (fun x hxi hxj => by simp only [hA.2.2 x hxi hxj])
    have hcost' : 2 * s.currentCost
        = ((List.range g.nEdges).map
          (fun x => if s.isEdgeActive x = true
            then (g.edges.getD x default).weight else 0)).sum := by
      have := hcost
      rw [costConsistent, SFPSolution.activeCostSum] at this
      convert this using 2
    rw [SFPSolution.activeCostSum]
    rw [show (fun x => if SFPSolution.isEdgeActive
          ⟨(s.activeEdges.set i false).set j false,
           s.currentCost - (g.edges.getD i default).weight⟩ x
          then (g.edges.getD x default).weight else 0)
        = (fun x => if SFPSolution.isEdgeActive
          ⟨(s.activeEdges.set i false).set j false,
           s.currentCost - (g.edges.getD i default).weight⟩ x = true
          then (g.edges.getD x default).weight else 0) from rfl]
    rw [hflip, ← hcost']
    simp only [hact, hjact, hA.1, hA.2.1]
    show 2 * (s.currentCost - (g.edges.getD i default).weight)
      = 2 * s.currentCost
        - (g.edges.getD i default).weight - (g.edges.getD j default).weight
        + 0 + 0
    rw [hjw]
    ring
  · exact symBitset_remove m hsym hi hrev _

/-! ### Foundational lemmas for the cost-provenance claim -/

theorem list_getD_oob {α : Type _} (l : List α) (i : Nat) (d : α)
    (h : ¬i < l.length) : l.getD i d = d := by
  rw [List.getD_eq_getElem?_getD, List.getElem?_eq_none (by omega)]
  rfl

@[simp] theorem withWeight_src (e : Edge) (w : ℚ) :
    (e.withWeight w).source = e.source := rfl

@[simp] theorem withWeight_tgt (e : Edge) (w : ℚ) :
    (e.withWeight w).target = e.target := rfl

/-- Reading back the written slot of a weight write. -/
theorem setWeight_getD_self {g : Graph} {i : Nat}
    (hi : i < g.edges.length) (w : ℚ) :
    (g.setWeight i w).edges.getD i default
      = (g.edges.getD i default).withWeight w := by
  show (g.edges.set i ((g.edges.getD i default).withWeight w)).getD i default
    = (g.edges.getD i default).withWeight w
  exact list_getD_set_self _ _ _ _ hi

/-- Pointwise content of a double weight write at an edge and its
mirror. -/
theorem setWeight2_getD {g : Graph} {e j : Nat} (hji : j ≠ e)
    (he : e < g.edges.length) (hj : j < g.edges.length) (w : ℚ) :
    (∀ x, x ≠ e → x ≠ j →
      ((g.setWeight e w).setWeight j w).edges.getD x default
        = g.edges.getD x default) ∧
    ((g.setWeight e w).setWeight j w).edges.getD e default
      = (g.edges.getD e default).withWeight w ∧
    ((g.setWeight e w).setWeight j w).edges.getD j default
      = (g.edges.getD j default).withWeight w := by
  have hg1j : (g.setWeight e w).edges.getD j default
      = g.edges.getD j default := by
    show ((g.edges.set e _).getD j default) = g.edges.getD j default
    exact list_getD_set_ne _ _ _ _ _ (fun hh => hji hh.symm)
  refine ⟨?_, ?_, ?_⟩
  · intro x hxe hxj
    show (((g.setWeight e w).edges.set j _).getD x default)
      = g.edges.getD x default
    rw [list_getD_set_ne _ _ _ _ _ (fun hh => hxj hh.symm)]
    show ((g.edges.set e _).getD x default) = g.edges.getD x default
    exact list_getD_set_ne _ _ _ _ _ (fun hh => hxe hh.symm)
  · show (((g.setWeight e w).edges.set j _).getD e default)
      = (g.edges.getD e default).withWeight w
    rw [list_getD_set_ne _ _ _ _ _ hji]
    exact setWeight_getD_self he w
  · show (((g.setWeight e w).edges.set j
        (((g.setWeight e w).edges.getD j default).withWeight w)).getD
        j default)
      = (g.edges.getD j default).withWeight w
    rw [list_getD_set_self _ _ _ _ (by
      show j < (g.edges.set e _).length
      simp only [List.length_set]
      exact hj)]
    rw [hg1j]

/-- Two graphs with equal fields are equal. -/
theorem graph_eq_of_fields {g1 g2 : Graph} (h1 : g1.ptrs = g2.ptrs)
    (h2 : g1.edges = g2.edges) (h3 : g1.totalWeight = g2.totalWeight)
    (h4 : g1.isBidirectional = g2.isBidirectional)
    (h5 : g1.nNodes = g2.nNodes) (h6 : g1.nEdges = g2.nEdges) :
    g1 = g2 := by
  cases g1
  cases g2
  simp_all

/-- `penalizeEdge` on an in-range edge with a mirror pointer: both slots
are written and the mirror index is returned. -/
theorem penalizeEdge_eq {g : Graph} {e j : Nat} (he : e < g.edges.length)
    (hrev : (g.edges.getD e default).reverseEdgePtr = some j) :
    penalizeEdge g e
      = ((g.setWeight e fltMax).setWeight j fltMax, some j) := by
  have hsc : ((g.setWeight e fltMax).edges.getD e default).reverseEdgePtr
      = some j := by
    rw [setWeight_getD_self he, withWeight_rev]
    exact hrev
  show (match ((g.setWeight e fltMax).edges.getD e default).reverseEdgePtr
      with
    | some rev => ((g.setWeight e fltMax).setWeight rev fltMax, some rev)
    | none => (g.setWeight e fltMax, none))
    = ((g.setWeight e fltMax).setWeight j fltMax, some j)
  rw [hsc]

/-- Restoring a penalized edge pair with the original weight undoes the
penalization exactly (the mirror has the same weight). -/
theorem restore_setWeight2_id {g : Graph} (m : MirrorWF g) {e j : Nat}
    (he : e < g.edges.length)
    (hrev : (g.edges.getD e default).reverseEdgePtr = some j) :
    restoreEdge ((g.setWeight e fltMax).setWeight j fltMax) e (some j)
      ((g.edges.getD e default).weight) = g := by
  obtain ⟨hjlt, hji, hback, _, _⟩ := mirror_facts m he hrev
  have hjw : (g.edges.getD j default).weight
      = (g.edges.getD e default).weight := by
    obtain ⟨j2, hrev2, _, _, _, _, hw2⟩ := m.rev_some e he
    rw [hrev2] at hrev
    obtain rfl := Option.some.inj hrev
    exact hw2
  have hQget := setWeight2_getD hji he hjlt fltMax
  have hQedges : ((g.setWeight e fltMax).setWeight j fltMax).edges
      = (g.edges.set e ((g.edges.getD e default).withWeight fltMax)).set j
          ((g.edges.getD j default).withWeight fltMax) := by
    show (g.edges.set e ((g.edges.getD e default).withWeight fltMax)).set j
        (((g.edges.set e
          ((g.edges.getD e default).withWeight fltMax)).getD j
          default).withWeight fltMax)
      = (g.edges.set e ((g.edges.getD e default).withWeight fltMax)).set j
          ((g.edges.getD j default).withWeight fltMax)
    rw [list_getD_set_ne _ _ _ _ _ (fun hh => hji hh.symm)]
  have hre : restoreEdge ((g.setWeight e fltMax).setWeight j fltMax) e
        (some j) ((g.edges.getD e default).weight)
      = (((g.setWeight e fltMax).setWeight j fltMax).setWeight e
          ((g.edges.getD e default).weight)).setWeight j
          ((g.edges.getD e default).weight) := rfl
  rw [hre]
  have h1 : (((g.setWeight e fltMax).setWeight j fltMax).setWeight e
        ((g.edges.getD e default).weight)).edges
      = ((g.setWeight e fltMax).setWeight j fltMax).edges.set e
          (g.edges.getD e default) := by
    show ((g.setWeight e fltMax).setWeight j fltMax).edges.set e
        ((((g.setWeight e fltMax).setWeight j fltMax).edges.getD e
          default).withWeight ((g.edges.getD e default).weight))
      = ((g.setWeight e fltMax).setWeight j fltMax).edges.set e
          (g.edges.getD e default)
    rw [hQget.2.1]
    rfl
  have h2get : ((((g.setWeight e fltMax).setWeight j fltMax).edges.set e
        (g.edges.getD e default)).getD j default)
      = (g.edges.getD j default).withWeight fltMax := by
    rw [list_getD_set_ne _ _ _ _ _ (fun hh => hji hh.symm)]
    exact hQget.2.2
  refine graph_eq_of_fields rfl ?_ rfl rfl rfl rfl
  show (((g.setWeight e fltMax).setWeight j fltMax).setWeight e
      ((g.edges.getD e default).weight)).edges.set j
      ((((((g.setWeight e fltMax).setWeight j fltMax).setWeight e
        ((g.edges.getD e default).weight)).edges).getD j
        default).withWeight ((g.edges.getD e default).weight))
    = g.edges
  rw [h1, h2get]
  rw [← hjw]
  rw [show ((g.edges.getD j default).withWeight fltMax).withWeight
      ((g.edges.getD j default).weight) = g.edges.getD j default from rfl]
  rw [hQedges]
  calc (((g.edges.set e ((g.edges.getD e default).withWeight
          fltMax)).set j ((g.edges.getD j default).withWeight
          fltMax)).set e (g.edges.getD e default)).set j
          (g.edges.getD j default)
      = (((g.edges.set e ((g.edges.getD e default).withWeight
          fltMax)).set j ((g.edges.getD j default).withWeight
          fltMax)).set j (g.edges.getD j default)).set e
          (g.edges.getD e default) :=
        List.set_comm _ _ _ (fun hh => hji hh.symm)
    _ = ((g.edges.set e ((g.edges.getD e default).withWeight
          fltMax)).set j (g.edges.getD j default)).set e
          (g.edges.getD e default) := by
        rw [List.set_set]
    _ = ((g.edges.set e ((g.edges.getD e default).withWeight
          fltMax)).set e (g.edges.getD e default)).set j
          (g.edges.getD j default) :=
        List.set_comm _ _ _ hji
    _ = (g.edges.set e (g.edges.getD e default)).set j
          (g.edges.getD j default) := by
        rw [List.set_set]
    _ = g.edges.set j (g.edges.getD j default) := by
        rw [list_set_getD_self]
    _ = g.edges := by
        rw [list_set_getD_self]

/-- CSR wellformedness transfers to a graph with the same layout and
endpoints (only weights and flags may differ). -/
theorem csrWF_transfer {g P : Graph} (w : CsrWF g)
    (hn : P.nNodes = g.nNodes) (hne : P.nEdges = g.nEdges)
    (hp : P.ptrs = g.ptrs) (hl : P.edges.length = g.edges.length)
    (hsrc : ∀ x, (P.edges.getD x default).source
      = (g.edges.getD x default).source)
    (htgt : ∀ x, (P.edges.getD x default).target
      = (g.edges.getD x default).target) : CsrWF P := by
  constructor
  · rw [hp, hn]
    exact w.ptrs_len
  · rw [hne, hl]
    exact w.ne_len
  · rw [hp]
    exact w.ptrs_zero
  · rw [hp, hn, hl]
    exact w.ptrs_last
  · intro u hu
    rw [hp]
    exact w.ptrs_mono u (by rw [hn] at hu; exact hu)
  · intro u hu i h1 h2
    rw [hsrc]
    rw [hp] at h1 h2
    exact w.slice_src u (by rw [hn] at hu; exact hu) i h1 h2
  · intro i hi
    rw [hsrc, hn]
    exact w.src_lt i (by rw [hl] at hi; exact hi)
  · intro i hi
    rw [htgt, hn]
    exact w.tgt_lt i (by rw [hl] at hi; exact hi)

/-- Weight non-negativity survives replacing some weights by the
(positive) infinity placeholder. -/
theorem nonnegW_of_pointwise {g P : Graph} (hnn : NonnegW g)
    (h : ∀ x, (P.edges.getD x default).weight
        = (g.edges.getD x default).weight ∨
      (P.edges.getD x default).weight = fltMax) : NonnegW P := by
  intro i
  rcases h i with hh | hh
  · rw [hh]
    exact hnn i
  · rw [hh]
    show (0 : ℚ) ≤ (2 ^ 128 : ℚ) - 2 ^ 104
    norm_num

theorem walkCost_cons (g : Graph) (i : Nat) (es : List Nat) :
    walkCost g (i :: es)
      = (g.edges.getD i default).weight + walkCost g es := by
  simp [walkCost]

/-- Under non-negative weights, each member of an edge list is bounded by
the list's total weight. -/
theorem walkCost_member_le {g : Graph} (hnn : NonnegW g) :
    ∀ (es : List Nat), ∀ i ∈ es,
      (g.edges.getD i default).weight ≤ walkCost g es := by
  intro es
  induction es with
  | nil =>
    intro i hi
    simp at hi
  | cons a rest ih =>
    intro i hi
    rw [walkCost_cons]
    rcases List.mem_cons.mp hi with rfl | hmem
    · have h1 := walkCost_nonneg hnn rest
      linarith
    · have h1 := ih i hmem
      have h2 := hnn a
      linarith

/-- The freshly constructed solution has every edge inactive. -/
theorem empty_isEdgeActive (g : Graph) (i : Nat) :
    (SFPSolution.empty g).isEdgeActive i = false := by
  show (List.replicate g.nEdges false).getD i false = false
  rw [List.getD_eq_getElem?_getD]
  rcases Nat.lt_or_ge i g.nEdges with h | h
  · rw [List.getElem?_eq_getElem (by simpa using h)]
    simp
  · rw [List.getElem?_eq_none (by simpa using h)]
    rfl

/-- The empty solution satisfies the half-sum cost invariant. -/
theorem costConsistent_empty (g : Graph) :
    costConsistent g (SFPSolution.empty g) := by
  show 2 * (SFPSolution.empty g).currentCost
    = SFPSolution.activeCostSum g (SFPSolution.empty g)
  rw [SFPSolution.activeCostSum]
  have hz : ∀ x ∈ (List.range g.nEdges).map
      (fun i => if (SFPSolution.empty g).isEdgeActive i
        then (g.edges.getD i default).weight else 0), x = 0 := by
    intro x hx
    obtain ⟨i, _, rfl⟩ := List.mem_map.mp hx
    rw [empty_isEdgeActive]
    rfl
  rw [List.sum_eq_zero hz]
  show 2 * (0 : ℚ) = 0
  norm_num

/-- The empty solution's bitset is (vacuously) mirror-symmetric. -/
theorem symBitset_empty (g : Graph) :
    SymBitset g (SFPSolution.empty g) := by
  refine ⟨?_, ?_⟩
  · show (List.replicate g.nEdges false).length = g.nEdges
    simp
  · intro i hi hact
    rw [empty_isEdgeActive] at hact
    exact absurd hact (by decide)

/-- An active bit names an in-range edge. -/
theorem isEdgeActive_lt {g : Graph} {s : SFPSolution} {i : Nat}
    (hlen : s.activeEdges.length = g.nEdges)
    (hne : g.nEdges = g.edges.length)
    (h : s.isEdgeActive i = true) : i < g.edges.length := by
  by_contra hge
  have h0 : s.activeEdges.getD i false = false :=
    list_getD_oob _ _ _ (by omega)
  have h1 : s.activeEdges.getD i false = true := h
  rw [h0] at h1
  exact absurd h1 (by decide)

/-- An `ADD` move with a zero delta on an out-of-range index is a
no-op. -/
theorem apply_ADD_zero_oob {g : Graph} {s : SFPSolution} {i : Nat}
    (hlen : s.activeEdges.length = g.nEdges)
    (hne : g.nEdges = g.edges.length) (hoob : ¬i < g.edges.length)
    {w : ℚ} (hw : w = 0) :
    SFPMove.apply ⟨.ADD, i, w⟩ g s = s := by
  subst hw
  have hact : s.isEdgeActive i = false := by
    show s.activeEdges.getD i false = false
    exact list_getD_oob _ _ _ (by omega)
  have hgd : g.edges.getD i default = default :=
    list_getD_oob _ _ _ hoob
  obtain ⟨a, c⟩ := s
  rw [apply_ADD, internalAdd_eq_of_inactive g a c i hact]
  rw [hgd]
  have hset : a.set i true = a :=
    List.set_eq_of_length_le (by
      simp only [SFPSolution.activeEdges] at hlen
      omega)
  simp [hset]

/-! ### Cost consistency through the constructive heuristic -/

theorem generateAbsorb_nil (gOrig : Graph) (sol : SFPSolution)
    (gw : Graph) : generateAbsorb gOrig sol gw [] = (sol, gw) := rfl

theorem generateAbsorb_cons (gOrig : Graph) (sol : SFPSolution)
    (gw : Graph) (e : Nat) (rest : List Nat) :
    generateAbsorb gOrig sol gw (e :: rest)
      = generateAbsorb gOrig
          (if sol.isEdgeActive e = false then
            SFPMove.apply ⟨MoveType.ADD, e,
              (gOrig.edges.getD e default).weight⟩ gOrig sol
          else sol)
          (zeroPathEdge gw e) rest := rfl

/-- Absorbing any engine-returned path preserves the cost invariant and
bitset symmetry: in-range additions carry the original weight, and
out-of-range additions are no-ops. -/
theorem generateAbsorb_preserves {g : Graph} (m : MirrorWF g) :
    ∀ (pathEdges : List Nat) (sol : SFPSolution) (gw : Graph),
      SymBitset g sol → costConsistent g sol →
      costConsistent g (generateAbsorb g sol gw pathEdges).1 ∧
      SymBitset g (generateAbsorb g sol gw pathEdges).1 := by
  intro pathEdges
  induction pathEdges with
  | nil =>
    intro sol gw hsym hcost
    rw [generateAbsorb_nil]
    exact ⟨hcost, hsym⟩
  | cons e rest ih =>
    intro sol gw hsym hcost
    rw [generateAbsorb_cons]
    by_cases hact : sol.isEdgeActive e = false
    · rw [if_pos hact]
      by_cases he : e < g.edges.length
      · obtain ⟨hc2, hs2⟩ := costConsistent_add m hsym he hact hcost
        exact ih _ _ hs2 hc2
      · rw [apply_ADD_oob hsym.len m.ne_len he]
        exact ih _ _ hsym hcost
    · rw [if_neg hact]
      exact ih _ _ hsym hcost

/-- The RCL loop of `generate` preserves the cost invariant and bitset
symmetry of the solution state. -/
theorem generateLoop_preserves {ca : Bool} {g : Graph} (m : MirrorWF g)
    {alpha : ℚ} {f : Nat → Nat} {dfuel : Nat} :
    ∀ (fuel : Nat) (sol : SFPSolution) (gw : Graph)
      (eng : DijkstraEngine) (cl : List (Nat × Nat × ℚ)) (k : Nat)
      (out : SFPSolution),
      SymBitset g sol → costConsistent g sol →
      generateLoop ca g alpha f dfuel fuel sol gw eng cl k = some out →
      costConsistent g out ∧ SymBitset g out := by
  intro fuel
  induction fuel with
  | zero =>
    intro sol gw eng cl k out hsym hcost hrun
    cases cl with
    | nil =>
      simp only [generateLoop] at hrun
      obtain rfl := Option.some.inj hrun
      exact ⟨hcost, hsym⟩
    | cons c cs =>
      simp only [generateLoop] at hrun
      exact Option.noConfusion hrun
  | succ fuel ih =>
    intro sol gw eng cl k out hsym hcost hrun
    cases cl with
    | nil =>
      simp only [generateLoop] at hrun
      obtain rfl := Option.some.inj hrun
      exact ⟨hcost, hsym⟩
    | cons c cs =>
      simp only [generateLoop] at hrun
      split at hrun
      · exact Option.noConfusion hrun
      · split at hrun
        · exact Option.noConfusion hrun
        · rename_i cl2 eng1 hup pathEdges cst eng2 hgs
          obtain ⟨hc2, hs2⟩ :=
            generateAbsorb_preserves m pathEdges sol gw hsym hcost
          exact ih _ _ _ _ _ _ hs2 hc2 hrun

/-- `GRASPConstructiveHeuristic::generate` returns a cost-consistent,
mirror-symmetric solution whenever it returns at all. -/
theorem generate_costConsistent {ca : Bool} {g : Graph}
    {terminals : List (Nat × Nat)} {alpha : ℚ} {f : Nat → Nat}
    {dfuel : Nat} {sol : SFPSolution} (m : MirrorWF g)
    (hrun : generate ca g terminals alpha f dfuel = some sol) :
    costConsistent g sol ∧ SymBitset g sol := by
  simp only [generate] at hrun
  split at hrun
  · exact Option.noConfusion hrun
  · exact generateLoop_preserves m _ _ _ _ _ _ _ (symBitset_empty g)
      (costConsistent_empty g) hrun

/-! ### Cost consistency through prune -/

/-- The linear scan of `prune` returns an active edge. -/
theorem firstActiveEdge_active {g : Graph} {s : SFPSolution}
    {source e : Nat} (h : firstActiveEdge g s source = some e) :
    s.isEdgeActive e = true := by
  have h2 : (List.range' (g.ptrs.getD source 0)
      (g.ptrs.getD (source + 1) 0 - g.ptrs.getD source 0)).find?
      (fun i => s.isEdgeActive i) = some e := h
  exact List.find?_some h2

/-- The prune cascade preserves the cost invariant and bitset symmetry:
every removal targets an active in-range edge and carries its original
graph weight. -/
theorem pruneLoop_cost_preserves {g : Graph} (m : MirrorWF g)
    (isT : List Bool) :
    ∀ (fuel : Nat) (sol : SFPSolution) (deg q : List Nat)
      (changed : Bool) (out : Bool × SFPSolution),
      SymBitset g sol → costConsistent g sol →
      pruneLoop g isT fuel sol deg q changed = some out →
      costConsistent g out.2 ∧ SymBitset g out.2 := by
  intro fuel
  induction fuel with
  | zero =>
    intro sol deg q changed out _ _ hrun
    simp only [pruneLoop] at hrun
    exact Option.noConfusion hrun
  | succ fuel ih =>
    intro sol deg q changed out hsym hcost hrun
    cases q with
    | nil =>
      rw [pruneLoop_nil] at hrun
      obtain rfl := Option.some.inj hrun
      exact ⟨hcost, hsym⟩
    | cons source qrest =>
      by_cases hdeg : deg.getD source 0 ≠ 1
      · rw [pruneLoop_skip g isT fuel sol deg qrest changed hdeg] at hrun
        exact ih _ _ _ _ _ hsym hcost hrun
      · cases hfind : firstActiveEdge g sol source with
        | none =>
          rw [pruneLoop_nofind g isT fuel sol deg qrest changed hdeg
            hfind] at hrun
          exact ih _ _ _ _ _ hsym hcost hrun
        | some e =>
          rw [pruneLoop_remove g isT fuel sol deg qrest changed hdeg
            hfind] at hrun
          have hact := firstActiveEdge_active hfind
          have he : e < g.edges.length :=
            isEdgeActive_lt hsym.len m.ne_len hact
          obtain ⟨hc2, hs2⟩ := costConsistent_remove m hsym he hact hcost
          exact ih _ _ _ _ _ hs2 hc2 hrun

/-- `prune` preserves the cost invariant and bitset symmetry. -/
theorem prune_cost_preserves {g : Graph} (m : MirrorWF g)
    {terminals : List (Nat × Nat)} {s : SFPSolution}
    {out : Bool × SFPSolution} (hsym : SymBitset g s)
    (hcost : costConsistent g s)
    (hrun : prune g terminals s = some out) :
    costConsistent g out.2 ∧ SymBitset g out.2 :=
  pruneLoop_cost_preserves m _ _ _ _ _ _ _ hsym hcost hrun

/-! ### Engine wellformedness across calls -/

/-- A freshly constructed engine is wellformed. -/
theorem engWFb_init (n : Nat) : (DijkstraEngine.init n).engWFb = true := by
  apply engWFb_iff.mpr
  refine ⟨by simp [DijkstraEngine.init], by simp [DijkstraEngine.init],
    by simp [DijkstraEngine.init], ?_⟩
  intro v
  show (List.replicate n 0).getD v 0 ≤ 0
  rcases Nat.lt_or_ge v n with h | h
  · rw [List.getD_eq_getElem?_getD,
      List.getElem?_eq_getElem (by simpa using h)]
    simp
  · rw [list_getD_oob _ _ _ (by simpa using h)]

/-- `getShortPath` returns a wellformed engine of unchanged size. -/
theorem getShortPath_engine {ca : Bool} {g : Graph}
    {eng : DijkstraEngine} {s t fuel : Nat} {r : List Nat × ℚ}
    {eng2 : DijkstraEngine} (hw : CsrWF g) (hnn : NonnegW g)
    (heng : eng.engWFb = true) (hn : eng.nNodes = g.nNodes)
    (hs : s < g.nNodes)
    (hrun : DijkstraEngine.getShortPath ca eng g s t fuel
      = some (r, eng2)) :
    eng2.engWFb = true ∧ eng2.nNodes = eng.nNodes := by
  simp only [DijkstraEngine.getShortPath] at hrun
  have hDI := dinv_init ca g eng s t heng hn hs
  cases hloop : dijkstraLoop ca g (eng.currentToken + 1) t fuel
      { dist := eng.dist.set s 0
        visitedToken := eng.visitedToken.set s (eng.currentToken + 1)
        parent := eng.parent.set s none
        pq := [(0, s)] } with
  | none =>
    rw [hloop] at hrun
    exact Option.noConfusion hrun
  | some pr =>
    obtain ⟨found, stf⟩ := pr
    simp only [hloop] at hrun
    have hcore : DCore ca g (eng.currentToken + 1) s stf := by
      cases found with
      | false =>
        exact ((dijkstraLoop_spec hw hnn fuel _ (false, stf) hDI
          hloop).1 rfl).1.toDCore
      | true =>
        exact ((dijkstraLoop_spec hw hnn fuel _ (true, stf) hDI
          hloop).2 rfl).1
    have hgoal : ∀ (r2 : List Nat × ℚ),
        some (r2, (⟨stf.dist, stf.visitedToken, stf.parent, eng.nNodes,
          eng.currentToken + 1⟩ : DijkstraEngine)) = some (r, eng2) →
        eng2.engWFb = true ∧ eng2.nNodes = eng.nNodes := by
      intro r2 hinj
      have h1 := Option.some.inj hinj
      have heq : (⟨stf.dist, stf.visitedToken, stf.parent, eng.nNodes,
          eng.currentToken + 1⟩ : DijkstraEngine) = eng2 :=
        congrArg Prod.snd h1
      rw [← heq]
      refine ⟨engWFb_iff.mpr ⟨?_, ?_, ?_, ?_⟩, rfl⟩
      · show stf.dist.length = eng.nNodes
        rw [hcore.len_dist]
        exact hn.symm
      · show stf.visitedToken.length = eng.nNodes
        rw [hcore.len_tok]
        exact hn.symm
      · show stf.parent.length = eng.nNodes
        rw [hcore.len_par]
        exact hn.symm
      · intro v
        exact hcore.stale_le v
    cases found with
    | false =>
      rw [if_neg Bool.false_ne_true] at hrun
      exact hgoal _ hrun
    | true =>
      rw [if_pos rfl] at hrun
      cases hrp : reconstructPath stf.parent s (eng.nNodes + 1) t with
      | none =>
        rw [hrp] at hrun
        exact Option.noConfusion hrun
      | some path =>
        simp only [hrp] at hrun
        exact hgoal _ hrun

/-! ### Cost consistency through the repair step of `optimize` -/

/-- The path-absorption loop of the repair step preserves the cost
invariant when every in-range path edge still carries its original
weight in the working graph. -/
theorem addPathEdges_preserves {g P : Graph} (m : MirrorWF g)
    (hlen : P.edges.length = g.edges.length) :
    ∀ (path : List Nat) (cand : SFPSolution) (d : DSU)
      (out : SFPSolution × DSU),
      (∀ idx ∈ path, idx < g.edges.length →
        (P.edges.getD idx default).weight
          = (g.edges.getD idx default).weight) →
      SymBitset g cand → costConsistent g cand →
      addPathEdges g P path cand d = some out →
      costConsistent g out.1 ∧ SymBitset g out.1 := by
  intro path
  induction path with
  | nil =>
    intro cand d out _ hsym hcost hrun
    simp only [addPathEdges] at hrun
    obtain rfl := Option.some.inj hrun
    exact ⟨hcost, hsym⟩
  | cons idx rest ih =>
    intro cand d out hW hsym hcost hrun
    simp only [addPathEdges] at hrun
    by_cases hact : cand.isEdgeActive idx = false
    · rw [if_pos hact] at hrun
      split at hrun
      · exact Option.noConfusion hrun
      · rename_i b d2 hunite
        by_cases hidx : idx < g.edges.length
        · have hwEq := hW idx (List.mem_cons_self idx rest) hidx
          rw [hwEq] at hrun
          obtain ⟨hc2, hs2⟩ := costConsistent_add m hsym hidx hact hcost
          exact ih _ _ _
            (fun x hx hxl => hW x (List.mem_cons_of_mem _ hx) hxl)
            hs2 hc2 hrun
        · have hPd : P.edges.getD idx default = default :=
            list_getD_oob _ _ _ (by rw [hlen]; exact hidx)
          rw [hPd] at hrun
          rw [apply_ADD_zero_oob hsym.len m.ne_len hidx
            (show (default : Edge).weight = 0 from rfl)] at hrun
          exact ih _ _ _
            (fun x hx hxl => hW x (List.mem_cons_of_mem _ hx) hxl)
            hsym hcost hrun
    · rw [if_neg hact] at hrun
      exact ih _ _ _
        (fun x hx hxl => hW x (List.mem_cons_of_mem _ hx) hxl)
        hsym hcost hrun

/-- The per-pair repair loop preserves the cost invariant: the
`pathCost >= INF || pathCost < 0` guard forces every accepted path to
avoid the penalized edge pair, so every added edge carries its original
weight. -/
theorem repairPairs_preserves {ca : Bool} {g P : Graph}
    (m : MirrorWF g) (hPw : CsrWF P) (hPnn : NonnegW P)
    (hPn : P.nNodes = g.nNodes) (hlen : P.edges.length = g.edges.length)
    (hweights : ∀ idx, (P.edges.getD idx default).weight
        = (g.edges.getD idx default).weight ∨
      (P.edges.getD idx default).weight = fltMax) {dfuel : Nat} :
    ∀ (pairs : List (Nat × Nat)) (cand : SFPSolution) (d : DSU)
      (eng : DijkstraEngine) (out : Bool × SFPSolution × DijkstraEngine),
      (∀ p ∈ pairs, p.1 < g.nNodes) →
      eng.engWFb = true → eng.nNodes = g.nNodes →
      SymBitset g cand → costConsistent g cand →
      repairPairs ca g P dfuel pairs cand d eng = some out →
      costConsistent g out.2.1 ∧ SymBitset g out.2.1 ∧
      out.2.2.engWFb = true ∧ out.2.2.nNodes = g.nNodes := by
  intro pairs
  induction pairs with
  | nil =>
    intro cand d eng out _ heng hengn hsym hcost hrun
    simp only [repairPairs] at hrun
    obtain rfl := Option.some.inj hrun
    exact ⟨hcost, hsym, heng, hengn⟩
  | cons p rest ih =>
    intro cand d eng out hterm heng hengn hsym hcost hrun
    simp only [repairPairs] at hrun
    split at hrun
    · exact Option.noConfusion hrun
    · rename_i conn d1 hconn
      by_cases hcb : conn = true
      · rw [if_pos hcb] at hrun
        exact ih _ _ _ _ (fun q hq => hterm q (List.mem_cons_of_mem _ hq))
          heng hengn hsym hcost hrun
      · rw [if_neg hcb] at hrun
        split at hrun
        · exact Option.noConfusion hrun
        · rename_i newPath pathCost eng1 hgs
          have hsP : p.1 < P.nNodes := by
            rw [hPn]
            exact hterm p (List.mem_cons_self p rest)
          have hnP : eng.nNodes = P.nNodes := by
            rw [hengn, hPn]
          have hengF := getShortPath_engine hPw hPnn heng hnP hsP hgs
          by_cases hguard : fltMax ≤ pathCost ∨ pathCost < 0
          · rw [if_pos hguard] at hrun
            obtain rfl := Option.some.inj hrun
            exact ⟨hcost, hsym, hengF.1, by rw [hengF.2, hengn]⟩
          · rw [if_neg hguard] at hrun
            split at hrun
            · exact Option.noConfusion hrun
            · rename_i cand2 d2 hadd
              push_neg at hguard
              obtain ⟨hlt, hge⟩ := hguard
              have hcases := getShortPath_cases hPw hPnn heng hnP hsP hgs
              have hWmem : ∀ idx ∈ newPath, idx < g.edges.length →
                  (P.edges.getD idx default).weight
                    = (g.edges.getD idx default).weight := by
                rcases hcases with ⟨_, hc, _⟩ | ⟨_, _, _, hwc, _⟩
                · exfalso
                  rw [hc] at hge
                  norm_num at hge
                · intro idx hidx _
                  rcases hweights idx with hh | hh
                  · exact hh
                  · exfalso
                    have hmem2 : idx ∈ newPath.reverse :=
                      List.mem_reverse.mpr hidx
                    have h1 := walkCost_member_le hPnn newPath.reverse
                      idx hmem2
                    rw [hh] at h1
                    linarith
              obtain ⟨hc2, hs2⟩ := addPathEdges_preserves m hlen newPath
                cand d1 (cand2, d2) hWmem hsym hcost hadd
              exact ih _ _ _ _
                (fun q hq => hterm q (List.mem_cons_of_mem _ hq))
                hengF.1 (by rw [hengF.2, hengn]) hs2 hc2 hrun

/-- One destroy-and-repair trial of `optimize`, entered with the working
graph equal to the problem graph, preserves the cost invariant, restores
the working graph exactly, and keeps the engine wellformed; a rejected
trial returns the incoming solution unchanged. -/
theorem optimizeTrial_preserves {ca : Bool} {g : Graph}
    {terminals : List (Nat × Nat)} {dfuel : Nat}
    (m : MirrorWF g) (w : CsrWF g) (hnn : NonnegW g)
    (hterm : ∀ p ∈ terminals, p.1 < g.nNodes)
    {sol : SFPSolution} {eng : DijkstraEngine} {e : Nat}
    {out : Bool × SFPSolution × Graph × DijkstraEngine}
    (hsym : SymBitset g sol) (hcost : costConsistent g sol)
    (hact : sol.isEdgeActive e = true)
    (heng : eng.engWFb = true) (hengn : eng.nNodes = g.nNodes)
    (hrun : optimizeTrial ca g terminals dfuel sol g eng e = some out) :
    costConsistent g out.2.1 ∧ SymBitset g out.2.1 ∧
    out.2.2.1 = g ∧ out.2.2.2.engWFb = true ∧
    out.2.2.2.nNodes = g.nNodes ∧ (out.1 = false → out.2.1 = sol) := by
  have he : e < g.edges.length := isEdgeActive_lt hsym.len m.ne_len hact
  obtain ⟨j, hrev, hjlt, hback, hjsrc, hjtgt, hjw⟩ := m.rev_some e he
  have hji : j ≠ e := (mirror_facts m he hrev).2.1
  simp only [optimizeTrial, penalizeEdge_eq he hrev] at hrun
  have hQlen : ((g.setWeight e fltMax).setWeight j fltMax).edges.length
      = g.edges.length := by
    show ((g.edges.set e _).set j _).length = g.edges.length
    simp only [List.length_set]
  have hQget := setWeight2_getD hji he hjlt fltMax
  have hsrc : ∀ x, (((g.setWeight e fltMax).setWeight
        j fltMax).edges.getD x default).source
      = (g.edges.getD x default).source := by
    intro x
    by_cases hxe : x = e
    · subst hxe
      rw [hQget.2.1, withWeight_src]
    · by_cases hxj : x = j
      · subst hxj
        rw [hQget.2.2, withWeight_src]
      · rw [hQget.1 x hxe hxj]
  have htgt : ∀ x, (((g.setWeight e fltMax).setWeight
        j fltMax).edges.getD x default).target
      = (g.edges.getD x default).target := by
    intro x
    by_cases hxe : x = e
    · subst hxe
      rw [hQget.2.1, withWeight_tgt]
    · by_cases hxj : x = j
      · subst hxj
        rw [hQget.2.2, withWeight_tgt]
      · rw [hQget.1 x hxe hxj]
  have hQw : ∀ idx, (((g.setWeight e fltMax).setWeight
        j fltMax).edges.getD idx default).weight
      = (g.edges.getD idx default).weight ∨
      (((g.setWeight e fltMax).setWeight
        j fltMax).edges.getD idx default).weight = fltMax := by
    intro idx
    by_cases hxe : idx = e
    · subst hxe
      right
      rw [hQget.2.1, withWeight_weight]
    · by_cases hxj : idx = j
      · subst hxj
        right
        rw [hQget.2.2, withWeight_weight]
      · left
        rw [hQget.1 idx hxe hxj]
  have hQcsr : CsrWF ((g.setWeight e fltMax).setWeight j fltMax) :=
    csrWF_transfer w rfl rfl rfl hQlen hsrc htgt
  have hQnn : NonnegW ((g.setWeight e fltMax).setWeight j fltMax) :=
    nonnegW_of_pointwise hnn hQw
  split at hrun
  · exact Option.noConfusion hrun
  · rename_i d0 hd0
    obtain ⟨hcC, hsC⟩ := costConsistent_remove m hsym he hact hcost
    split at hrun
    · exact Option.noConfusion hrun
    · rename_i ok cand eng1 hrep
      have hR := repairPairs_preserves m hQcsr hQnn rfl hQlen hQw
        terminals _ d0 eng (ok, cand, eng1) hterm heng hengn hsC hcC hrep
      by_cases haccept : ok = true ∧
          cand.getObjectiveValue < sol.getObjectiveValue
      · rw [if_pos haccept] at hrun
        obtain rfl := Option.some.inj hrun
        refine ⟨hR.1, hR.2.1, restore_setWeight2_id m he hrev,
          hR.2.2.1, hR.2.2.2, ?_⟩
        intro hfalse
        exact Bool.noConfusion hfalse
      · rw [if_neg haccept] at hrun
        obtain rfl := Option.some.inj hrun
        exact ⟨hcost, hsym, restore_setWeight2_id m he hrev,
          hR.2.2.1, hR.2.2.2, fun _ => rfl⟩

/-- The edge sweep of `optimize` preserves the cost invariant; the
working graph re-enters every trial equal to the problem graph. -/
theorem optimizeSweep_preserves {ca : Bool} {g : Graph}
    {terminals : List (Nat × Nat)} {dfuel : Nat}
    (m : MirrorWF g) (w : CsrWF g) (hnn : NonnegW g)
    (hterm : ∀ p ∈ terminals, p.1 < g.nNodes) :
    ∀ (el : List Nat) (sol : SFPSolution) (eng : DijkstraEngine)
      (out : Bool × SFPSolution × Graph × DijkstraEngine),
      (∀ e ∈ el, sol.isEdgeActive e = true) →
      SymBitset g sol → costConsistent g sol →
      eng.engWFb = true → eng.nNodes = g.nNodes →
      optimizeSweep ca g terminals dfuel el sol g eng = some out →
      costConsistent g out.2.1 ∧ SymBitset g out.2.1 ∧
      out.2.2.1 = g ∧ out.2.2.2.engWFb = true ∧
      out.2.2.2.nNodes = g.nNodes := by
  intro el
  induction el with
  | nil =>
    intro sol eng out _ hsym hcost heng hengn hrun
    simp only [optimizeSweep] at hrun
    obtain rfl := Option.some.inj hrun
    exact ⟨hcost, hsym, rfl, heng, hengn⟩
  | cons e rest ih =>
    intro sol eng out hel hsym hcost heng hengn hrun
    simp only [optimizeSweep] at hrun
    split at hrun
    · exact Option.noConfusion hrun
    · rename_i accepted sol2 gw2 eng2 htrial
      have hT := optimizeTrial_preserves m w hnn hterm hsym hcost
        (hel e (List.mem_cons_self e rest)) heng hengn htrial
      have hTc : costConsistent g sol2 := hT.1
      have hTs : SymBitset g sol2 := hT.2.1
      have hTg : gw2 = g := hT.2.2.1
      have hTe : eng2.engWFb = true := hT.2.2.2.1
      have hTn : eng2.nNodes = g.nNodes := hT.2.2.2.2.1
      have hTf : accepted = false → sol2 = sol := hT.2.2.2.2.2
      by_cases hacc : accepted = true
      · rw [if_pos hacc] at hrun
        obtain rfl := Option.some.inj hrun
        exact ⟨hTc, hTs, hTg, hTe, hTn⟩
      · rw [if_neg hacc] at hrun
        have haf : accepted = false := by
          cases accepted with
          | false => rfl
          | true => exact absurd rfl hacc
        rw [hTg, hTf haf] at hrun
        exact ih _ _ _ (fun x hx => hel x (List.mem_cons_of_mem _ hx))
          hsym hcost hTe hTn hrun

/-- The improvement loop of `optimize` preserves the cost invariant. -/
theorem optimizeLoop_preserves {ca : Bool} {g : Graph}
    {terminals : List (Nat × Nat)} {dfuel : Nat}
    (m : MirrorWF g) (w : CsrWF g) (hnn : NonnegW g)
    (hterm : ∀ p ∈ terminals, p.1 < g.nNodes) :
    ∀ (lfuel : Nat) (sol : SFPSolution) (eng : DijkstraEngine)
      (gi : Bool) (out : Bool × SFPSolution),
      SymBitset g sol → costConsistent g sol →
      eng.engWFb = true → eng.nNodes = g.nNodes →
      optimizeLoop ca g terminals dfuel lfuel sol g eng gi = some out →
      costConsistent g out.2 ∧ SymBitset g out.2 := by
  intro lfuel
  induction lfuel with
  | zero =>
    intro sol eng gi out _ _ _ _ hrun
    simp only [optimizeLoop] at hrun
    exact Option.noConfusion hrun
  | succ lfuel ih =>
    intro sol eng gi out hsym hcost heng hengn hrun
    simp only [optimizeLoop] at hrun
    split at hrun
    · exact Option.noConfusion hrun
    · rename_i improved sol2 gw2 eng2 hsweep
      have hfilter : ∀ x ∈ (List.range g.nEdges).filter (fun i =>
          sol.isEdgeActive i &&
          decide ((g.edges.getD i default).source
            < (g.edges.getD i default).target)),
          sol.isEdgeActive x = true := by
        intro x hx
        have hb := (List.mem_filter.mp hx).2
        rw [Bool.and_eq_true] at hb
        exact hb.1
      have hS := optimizeSweep_preserves m w hnn hterm _ sol eng
        (improved, sol2, gw2, eng2) hfilter hsym hcost heng hengn hsweep
      have hSc : costConsistent g sol2 := hS.1
      have hSs : SymBitset g sol2 := hS.2.1
      have hSg : gw2 = g := hS.2.2.1
      have hSe : eng2.engWFb = true := hS.2.2.2.1
      have hSn : eng2.nNodes = g.nNodes := hS.2.2.2.2
      by_cases himp : improved = true
      · rw [if_pos himp] at hrun
        rw [hSg] at hrun
        exact ih _ _ _ _ hSs hSc hSe hSn hrun
      · rw [if_neg himp] at hrun
        obtain rfl := Option.some.inj hrun
        exact ⟨hSc, hSs⟩

/-- `GRASPLocalSearch::optimize` preserves the cost invariant and bitset
symmetry of its input solution. -/
theorem optimize_preserves {ca : Bool} {g : Graph}
    {terminals : List (Nat × Nat)} {dfuel lfuel : Nat}
    {sol : SFPSolution} {b : Bool} {sol2 : SFPSolution}
    (m : MirrorWF g) (w : CsrWF g) (hnn : NonnegW g)
    (hterm : ∀ p ∈ terminals, p.1 < g.nNodes)
    (hsym : SymBitset g sol) (hcost : costConsistent g sol)
    (hrun : optimize ca g terminals dfuel lfuel sol = some (b, sol2)) :
    costConsistent g sol2 ∧ SymBitset g sol2 := by
  simp only [optimize] at hrun
  split at hrun
  · exact Option.noConfusion hrun
  · rename_i ch1 sol1 hprune1
    obtain ⟨hc1, hs1⟩ := prune_cost_preserves m hsym hcost hprune1
    split at hrun
    · exact Option.noConfusion hrun
    · rename_i gi solL hloop
      have hL := optimizeLoop_preserves m w hnn hterm lfuel sol1
        (DijkstraEngine.init g.nNodes) ch1 (gi, solL) hs1 hc1
        (engWFb_init g.nNodes) rfl hloop
      split at hrun
      · exact Option.noConfusion hrun
      · rename_i ch2 sol3 hprune2
        have hLc : costConsistent g solL := hL.1
        have hLs : SymBitset g solL := hL.2
        obtain ⟨hc3, hs3⟩ := prune_cost_preserves m hLs hLc hprune2
        have h1 := Option.some.inj hrun
        have hseq : sol3 = sol2 := congrArg Prod.snd h1
        rw [← hseq]
        exact ⟨hc3, hs3⟩

/-! ### The C3 claim: move cost provenance -/

/-- Every move emitted by `AddNeighbourhood::moves` is an `ADD` on an
inactive canonical edge carrying the edge's graph weight. -/
theorem add_moves_spec {g : Graph} {sol : SFPSolution} {mv : SFPMove}
    (h : mv ∈ AddNeighbourhood.moves g sol) :
    mv.type = MoveType.ADD ∧
    mv.costDelta = (g.edges.getD mv.edgeIndex default).weight ∧
    sol.isEdgeActive mv.edgeIndex = false := by
  obtain ⟨i, hi, hsome⟩ := List.mem_filterMap.mp h
  have hsome2 : (if sol.isEdgeActive i = false then
      if (g.edges.getD i default).source
          < (g.edges.getD i default).target then
        some (⟨MoveType.ADD, i, (g.edges.getD i default).weight⟩ : SFPMove)
      else none
    else none) = some mv := hsome
  by_cases hact : sol.isEdgeActive i = false
  · rw [if_pos hact] at hsome2
    by_cases hst : (g.edges.getD i default).source
        < (g.edges.getD i default).target
    · rw [if_pos hst] at hsome2
      obtain rfl := Option.some.inj hsome2
      exact ⟨rfl, rfl, hact⟩
    · rw [if_neg hst] at hsome2
      exact Option.noConfusion hsome2
  · rw [if_neg hact] at hsome2
    exact Option.noConfusion hsome2

/-- Every move emitted by `RemoveNeighbourhood::moves` is a `REMOVE` on
an active canonical edge carrying the NEGATED graph weight. -/
theorem remove_moves_spec {g : Graph} {sol : SFPSolution} {mv : SFPMove}
    (h : mv ∈ RemoveNeighbourhood.moves g sol) :
    mv.type = MoveType.REMOVE ∧
    mv.costDelta = -(g.edges.getD mv.edgeIndex default).weight ∧
    sol.isEdgeActive mv.edgeIndex = true := by
  obtain ⟨i, hi, hsome⟩ := List.mem_filterMap.mp h
  have hsome2 : (if sol.isEdgeActive i = true then
      if (g.edges.getD i default).source
          < (g.edges.getD i default).target then
        some (⟨MoveType.REMOVE, i,
          -(g.edges.getD i default).weight⟩ : SFPMove)
      else none
    else none) = some mv := hsome
  by_cases hact : sol.isEdgeActive i = true
  · rw [if_pos hact] at hsome2
    by_cases hst : (g.edges.getD i default).source
        < (g.edges.getD i default).target
    · rw [if_pos hst] at hsome2
      obtain rfl := Option.some.inj hsome2
      exact ⟨rfl, rfl, hact⟩
    · rw [if_neg hst] at hsome2
      exact Option.noConfusion hsome2
  · rw [if_neg hact] at hsome2
    exact Option.noConfusion hsome2

unseal Rat.add Rat.mul Rat.sub Rat.inv in
/-- **C3, counterexample.**  On the single-edge graph with its edge
active, `RemoveNeighbourhood::moves` emits the move
`(REMOVE, 0, -10)`: its `costDelta` is the NEGATED original weight
`-10`, not the original weight `10` — and applying that move (whose
`REMOVE` branch subtracts `costDelta`) *increases* the cached cost from
`10` to `20`. -/
theorem C3_remove_negated_counterexample :
    RemoveNeighbourhood.moves gExampleOneEdge ⟨[true, true], 10⟩
      = [⟨MoveType.REMOVE, 0, -10⟩] ∧
    (gExampleOneEdge.edges.getD 0 default).weight = 10 ∧
    ¬((-10 : ℚ) = 10) ∧
    (SFPMove.apply ⟨MoveType.REMOVE, 0, -10⟩ gExampleOneEdge
      ⟨[true, true], 10⟩).currentCost = 20 := by
  refine ⟨by decide, by decide, by norm_num, by decide⟩

/-- **C3 (amended).**  Cost provenance of the four move-creation sites:
(1) the Add generator carries `costDelta` equal to the edge's original
graph weight; (2) the Remove generator instead carries the NEGATED
original weight; (3) the constructive heuristic only ever applies moves
whose delta is the original weight — its result satisfies the half-sum
invariant `2 * currentCost = sum of original weights of active physical
edges`, so no zeroed working-graph weight leaks into a delta; (4) the
local search preserves that invariant: under the engine guard
`pathCost >= FLT_MAX || pathCost < 0`, repair additions read the working
graph only at edges whose weight is unpenalized. -/
theorem C3_costDelta_original_weight :
    (∀ (g : Graph) (sol : SFPSolution) (mv : SFPMove),
      mv ∈ AddNeighbourhood.moves g sol →
      mv.type = MoveType.ADD ∧
      mv.costDelta = (g.edges.getD mv.edgeIndex default).weight) ∧
    (∀ (g : Graph) (sol : SFPSolution) (mv : SFPMove),
      mv ∈ RemoveNeighbourhood.moves g sol →
      mv.type = MoveType.REMOVE ∧
      mv.costDelta = -(g.edges.getD mv.edgeIndex default).weight) ∧
    (∀ (ca : Bool) (g : Graph) (terminals : List (Nat × Nat))
      (alpha : ℚ) (f : Nat → Nat) (dfuel : Nat) (sol : SFPSolution),
      MirrorWF g →
      generate ca g terminals alpha f dfuel = some sol →
      costConsistent g sol) ∧
    (∀ (ca : Bool) (g : Graph) (terminals : List (Nat × Nat))
      (dfuel lfuel : Nat) (sol : SFPSolution) (b : Bool)
      (sol2 : SFPSolution), MirrorWF g → CsrWF g → NonnegW g →
      (∀ p ∈ terminals, p.1 < g.nNodes) →
      SymBitset g sol → costConsistent g sol →
      optimize ca g terminals dfuel lfuel sol = some (b, sol2) →
      costConsistent g sol2) := by
  refine ⟨?_, ?_, ?_, ?_⟩
  · intro g sol mv h
    exact ⟨(add_moves_spec h).1, (add_moves_spec h).2.1⟩
  · intro g sol mv h
    exact ⟨(remove_moves_spec h).1, (remove_moves_spec h).2.1⟩
  · intro ca g terminals alpha f dfuel sol m hrun
    exact (generate_costConsistent m hrun).1
  · intro ca g terminals dfuel lfuel sol b sol2 m w hnn hterm hsym
      hcost hrun
    exact (optimize_preserves m w hnn hterm hsym hcost hrun).1

set_option maxRecDepth 40000 in
unseal Rat.add Rat.mul Rat.sub Rat.inv in
/-- Witness for `C3_costDelta_original_weight` on concrete runs: the Add
generator's move on the single-edge graph, a complete `generate` run on
the path graph `0 — 1 — 2` (terminals `{0, 2}`, result cost `15`), and a
complete `optimize` run on its output. -/
theorem C3_costDelta_original_weight_witness :
    ((⟨MoveType.ADD, 0, 10⟩ : SFPMove) ∈
        AddNeighbourhood.moves gExampleOneEdge ⟨[false, false], 0⟩ ∧
      (⟨MoveType.ADD, 0, 10⟩ : SFPMove).costDelta
        = (gExampleOneEdge.edges.getD 0 default).weight) ∧
    (generate true gExampleC2 [(0, 2)] 1 (fun _ => 0) 10
        = some ⟨[true, true, true, true], 15⟩ ∧
      costConsistent gExampleC2 ⟨[true, true, true, true], 15⟩) ∧
    (optimize true gExampleC2 [(0, 2)] 10 2 ⟨[true, true, true, true], 15⟩
        = some (false, ⟨[true, true, true, true], 15⟩) ∧
      costConsistent gExampleC2 ⟨[true, true, true, true], 15⟩) := by
  have hmem : (⟨MoveType.ADD, 0, 10⟩ : SFPMove) ∈
      AddNeighbourhood.moves gExampleOneEdge ⟨[false, false], 0⟩ := by
    decide
  have hgen : generate true gExampleC2 [(0, 2)] 1 (fun _ => 0) 10
      = some ⟨[true, true, true, true], 15⟩ := by decide
  have hopt : optimize true gExampleC2 [(0, 2)] 10 2
      ⟨[true, true, true, true], 15⟩
      = some (false, ⟨[true, true, true, true], 15⟩) := by decide
  have hm : MirrorWF gExampleC2 := mirrorWF_of_b (by decide)
  refine ⟨⟨hmem, (C3_costDelta_original_weight.1 gExampleOneEdge
      ⟨[false, false], 0⟩ ⟨MoveType.ADD, 0, 10⟩ hmem).2⟩,
    ⟨hgen, C3_costDelta_original_weight.2.2.1 true gExampleC2 [(0, 2)] 1
      (fun _ => 0) 10 ⟨[true, true, true, true], 15⟩ hm hgen⟩,
    ⟨hopt, C3_costDelta_original_weight.2.2.2 true gExampleC2 [(0, 2)] 10
      2 ⟨[true, true, true, true], 15⟩ false
      ⟨[true, true, true, true], 15⟩ hm (csrWF_of_b (by decide))
      (nonnegW_of_b (by decide)) (by decide)
      (symBitset_of_b (by decide)) ?_ hopt⟩⟩
  · show 2 * (15 : ℚ) = SFPSolution.activeCostSum gExampleC2
      ⟨[true, true, true, true], 15⟩
    decide

/-! ### Union-find classes (root chasing without compression) -/

/-- The end of a root chase is a fixpoint of the parent array. -/
theorem root_terminal {par : List Nat} :
    ∀ (fuel x r : Nat), rootAux fuel par x = some r →
      par.getD r r = r := by
  intro fuel
  induction fuel with
  | zero =>
    intro x r h
    exact Option.noConfusion h
  | succ fuel ih =>
    intro x r h
    simp only [rootAux] at h
    by_cases hx : par.getD x x = x
    · rw [if_pos hx] at h
      obtain rfl := Option.some.inj h
      exact hx
    · rw [if_neg hx] at h
      exact ih _ _ h

theorem reaches_root {par : List Nat} {x r : Nat}
    (h : Reaches par x r) : par.getD r r = r := by
  obtain ⟨fuel, hf⟩ := h
  exact root_terminal fuel x r hf

/-- Root chases are deterministic. -/
theorem rootAux_functional {par : List Nat} :
    ∀ (fuel1 : Nat) (x r1 r2 : Nat), rootAux fuel1 par x = some r1 →
      Reaches par x r2 → r1 = r2 := by
  intro fuel1
  induction fuel1 with
  | zero =>
    intro x r1 r2 h _
    exact Option.noConfusion h
  | succ fuel1 ih =>
    intro x r1 r2 h h2
    obtain ⟨fuel2, hf2⟩ := h2
    cases fuel2 with
    | zero => exact Option.noConfusion hf2
    | succ fuel2 =>
      simp only [rootAux] at h hf2
      by_cases hx : par.getD x x = x
      · rw [if_pos hx] at h hf2
        obtain rfl := Option.some.inj h
        exact Option.some.inj hf2
      · rw [if_neg hx] at h hf2
        exact ih _ _ _ h ⟨fuel2, hf2⟩

theorem reaches_functional {par : List Nat} {x r1 r2 : Nat}
    (h1 : Reaches par x r1) (h2 : Reaches par x r2) : r1 = r2 := by
  obtain ⟨fuel, hf⟩ := h1
  exact rootAux_functional fuel x r1 r2 hf h2

/-- Prepending one parent step to a root chase. -/
theorem reaches_step {par : List Nat} {x q s : Nat}
    (hq : par.getD x x = q) (h : Reaches par q s) : Reaches par x s := by
  by_cases hqx : q = x
  · rw [hqx] at h
    exact h
  · obtain ⟨f, hf⟩ := h
    refine ⟨f + 1, ?_⟩
    simp only [rootAux, hq]
    rw [if_neg hqx]
    exact hf

/-- A parent-array fixpoint reaches itself. -/
theorem reaches_root_self {par : List Nat} {r : Nat}
    (h : par.getD r r = r) : Reaches par r r :=
  ⟨1, by simp only [rootAux, h, if_pos]⟩

/-- Root chases starting in range stay in range when the parent array is
bounded. -/
theorem reaches_lt {par : List Nat}
    (hb : ∀ i, i < par.length → par.getD i i < par.length) :
    ∀ (fuel x r : Nat), x < par.length → rootAux fuel par x = some r →
      r < par.length := by
  intro fuel
  induction fuel with
  | zero =>
    intro x r _ h
    exact Option.noConfusion h
  | succ fuel ih =>
    intro x r hx h
    simp only [rootAux] at h
    by_cases hxx : par.getD x x = x
    · rw [if_pos hxx] at h
      obtain rfl := Option.some.inj h
      exact hx
    · rw [if_neg hxx] at h
      exact ih _ _ (hb x hx) h

/-- Path compression (re-linking a node straight to its root) does not
change which root any node reaches: forward direction. -/
theorem reaches_set_fwd {par : List Nat} {i r : Nat}
    (hroot : par.getD r r = r) (hir : Reaches par i r)
    (hilt : i < par.length) :
    ∀ (fuel x s : Nat), rootAux fuel (par.set i r) x = some s →
      Reaches par x s := by
  intro fuel
  induction fuel with
  | zero =>
    intro x s h
    exact Option.noConfusion h
  | succ fuel ih =>
    intro x s h
    simp only [rootAux] at h
    by_cases hxi : x = i
    · subst hxi
      rw [list_getD_set_self _ _ _ _ hilt] at h
      by_cases hrx : r = x
      · rw [if_pos hrx] at h
        obtain rfl := Option.some.inj h
        rw [hrx] at hir
        exact hir
      · rw [if_neg hrx] at h
        cases fuel with
        | zero => exact Option.noConfusion h
        | succ fuel =>
          simp only [rootAux] at h
          rw [list_getD_set_ne _ _ _ _ _ (fun hh => hrx hh.symm),
            hroot, if_pos rfl] at h
          obtain rfl := Option.some.inj h
          exact hir
    · rw [list_getD_set_ne _ _ _ _ _ (fun hh => hxi hh.symm)] at h
      by_cases hxx : par.getD x x = x
      · rw [if_pos hxx] at h
        obtain rfl := Option.some.inj h
        exact reaches_root_self hxx
      · rw [if_neg hxx] at h
        exact reaches_step rfl (ih _ _ h)

/-- Path compression does not change which root any node reaches:
backward direction. -/
theorem reaches_set_bwd {par : List Nat} {i r : Nat}
    (hroot : par.getD r r = r) (hir : Reaches par i r)
    (hilt : i < par.length) :
    ∀ (fuel x s : Nat), rootAux fuel par x = some s →
      Reaches (par.set i r) x s := by
  intro fuel
  induction fuel with
  | zero =>
    intro x s h
    exact Option.noConfusion h
  | succ fuel ih =>
    intro x s h
    simp only [rootAux] at h
    by_cases hxx : par.getD x x = x
    · rw [if_pos hxx] at h
      obtain rfl := Option.some.inj h
      by_cases hxi : x = i
      · subst hxi
        have hrx : r = x := reaches_functional hir ⟨1, by
          simp only [rootAux, hxx, if_pos]⟩
        refine ⟨1, ?_⟩
        simp only [rootAux]
        rw [list_getD_set_self _ _ _ _ hilt, hrx, if_pos rfl]
      · exact reaches_root_self (by
          rw [list_getD_set_ne _ _ _ _ _ (fun hh => hxi hh.symm)]
          exact hxx)
    · rw [if_neg hxx] at h
      by_cases hxi : x = i
      · subst hxi
        have hsr : s = r :=
          reaches_functional ⟨fuel + 1, by
            simp only [rootAux]
            rw [if_neg hxx]
            exact h⟩ hir
        subst hsr
        by_cases hsx : s = x
        · exact absurd (hsx ▸ hroot) hxx
        · refine ⟨2, ?_⟩
          simp only [rootAux]
          rw [list_getD_set_self _ _ _ _ hilt]
          rw [if_neg hsx]
          rw [list_getD_set_ne _ _ _ _ _ (fun hh => hsx hh.symm)]
          rw [hroot, if_pos rfl]
      · exact reaches_step (by
          rw [list_getD_set_ne _ _ _ _ _ (fun hh => hxi hh.symm)]) (ih _ _ h)

/-- Path compression preserves the root assignment. -/
theorem reaches_set_iff {par : List Nat} {i r : Nat}
    (hroot : par.getD r r = r) (hir : Reaches par i r) (x s : Nat) :
    Reaches (par.set i r) x s ↔ Reaches par x s := by
  by_cases hilt : i < par.length
  · constructor
    · rintro ⟨fuel, hf⟩
      exact reaches_set_fwd hroot hir hilt fuel x s hf
    · rintro ⟨fuel, hf⟩
      exact reaches_set_bwd hroot hir hilt fuel x s hf
  · rw [List.set_eq_of_length_le (by omega)]

/-- Linking root `rb` under root `ra`: where chases end afterwards,
forward direction. -/
theorem reaches_link_fwd {par : List Nat} {ra rb : Nat}
    (hra : par.getD ra ra = ra) (hrb : par.getD rb rb = rb)
    (hne : ra ≠ rb) (hlt : rb < par.length) :
    ∀ (fuel x s : Nat), rootAux fuel (par.set rb ra) x = some s →
      (Reaches par x rb ∧ s = ra) ∨ (Reaches par x s ∧ s ≠ rb) := by
  intro fuel
  induction fuel with
  | zero =>
    intro x s h
    exact Option.noConfusion h
  | succ fuel ih =>
    intro x s h
    simp only [rootAux] at h
    by_cases hxb : x = rb
    · subst hxb
      rw [list_getD_set_self _ _ _ _ hlt] at h
      rw [if_neg (fun hh => hne (hh.trans rfl))] at h
      cases fuel with
      | zero => exact Option.noConfusion h
      | succ fuel =>
        simp only [rootAux] at h
        rw [list_getD_set_ne _ _ _ _ _ (fun hh => hne hh.symm), hra,
          if_pos rfl] at h
        obtain rfl := Option.some.inj h
        exact Or.inl ⟨reaches_root_self hrb, rfl⟩
    · rw [list_getD_set_ne _ _ _ _ _ (fun hh => hxb hh.symm)] at h
      by_cases hxx : par.getD x x = x
      · rw [if_pos hxx] at h
        obtain rfl := Option.some.inj h
        exact Or.inr ⟨reaches_root_self hxx, hxb⟩
      · rw [if_neg hxx] at h
        rcases ih _ _ h with ⟨hq, hs⟩ | ⟨hq, hs⟩
        · exact Or.inl ⟨reaches_step rfl hq, hs⟩
        · exact Or.inr ⟨reaches_step rfl hq, hs⟩

/-- Linking root `rb` under root `ra`: where chases end afterwards,
backward direction. -/
theorem reaches_link_bwd {par : List Nat} {ra rb : Nat}
    (hra : par.getD ra ra = ra) (hrb : par.getD rb rb = rb)
    (hne : ra ≠ rb) (hlt : rb < par.length) :
    ∀ (fuel x s : Nat), rootAux fuel par x = some s →
      (s ≠ rb → Reaches (par.set rb ra) x s) ∧
      (s = rb → Reaches (par.set rb ra) x ra) := by
  intro fuel
  induction fuel with
  | zero =>
    intro x s h
    exact Option.noConfusion h
  | succ fuel ih =>
    intro x s h
    simp only [rootAux] at h
    by_cases hxx : par.getD x x = x
    · rw [if_pos hxx] at h
      obtain rfl := Option.some.inj h
      constructor
      · intro hsb
        exact reaches_root_self (by
          rw [list_getD_set_ne _ _ _ _ _ (fun hh => hsb hh.symm)]
          exact hxx)
      · intro hsb
        subst hsb
        refine ⟨2, ?_⟩
        simp only [rootAux]
        rw [list_getD_set_self _ _ _ _ hlt]
        rw [if_neg (fun hh => hne (hh.trans rfl))]
        rw [list_getD_set_ne _ _ _ _ _ (fun hh => hne hh.symm), hra,
          if_pos rfl]
    · rw [if_neg hxx] at h
      have hxb : x ≠ rb := by
        intro hh
        rw [hh] at hxx
        exact hxx hrb
      constructor
      all_goals intro hsb
      · exact reaches_step (by
          rw [list_getD_set_ne _ _ _ _ _ (fun hh => hxb hh.symm)])
          ((ih _ _ h).1 hsb)
      · exact reaches_step (by
          rw [list_getD_set_ne _ _ _ _ _ (fun hh => hxb hh.symm)])
          ((ih _ _ h).2 hsb)

/-- Linking two distinct roots merges exactly the two classes. -/
theorem equivCls_of_link {par : List Nat} {ra rb a b : Nat}
    (hra : par.getD ra ra = ra) (hrb : par.getD rb rb = rb)
    (hne : ra ≠ rb) (hlt : rb < par.length)
    (haa : Reaches par a ra) (hbb : Reaches par b rb) (x y : Nat) :
    (∃ r, Reaches (par.set rb ra) x r ∧ Reaches (par.set rb ra) y r) ↔
    ((∃ r, Reaches par x r ∧ Reaches par y r) ∨
     ((∃ r, Reaches par x r ∧ Reaches par a r) ∧
      (∃ r, Reaches par y r ∧ Reaches par b r)) ∨
     ((∃ r, Reaches par x r ∧ Reaches par b r) ∧
      (∃ r, Reaches par y r ∧ Reaches par a r))) := by
  constructor
  · rintro ⟨r, ⟨f1, hx⟩, ⟨f2, hy⟩⟩
    rcases reaches_link_fwd hra hrb hne hlt f1 x r hx with
      ⟨hxr, hres⟩ | ⟨hxr, hrnb⟩
    · rcases reaches_link_fwd hra hrb hne hlt f2 y r hy with
        ⟨hyr, _⟩ | ⟨hyr, hynb⟩
      · exact Or.inl ⟨rb, hxr, hyr⟩
      · rw [hres] at hyr
        exact Or.inr (Or.inr ⟨⟨rb, hxr, hbb⟩, ⟨ra, hyr, haa⟩⟩)
    · rcases reaches_link_fwd hra hrb hne hlt f2 y r hy with
        ⟨hyr, hres⟩ | ⟨hyr, _⟩
      · rw [hres] at hxr
        exact Or.inr (Or.inl ⟨⟨ra, hxr, haa⟩, ⟨rb, hyr, hbb⟩⟩)
      · exact Or.inl ⟨r, hxr, hyr⟩
  · have hlift : ∀ z r, Reaches par z r →
        Reaches (par.set rb ra) z (if r = rb then ra else r) := by
      intro z r ⟨f, hf⟩
      by_cases hrrb : r = rb
      · rw [if_pos hrrb]
        exact (reaches_link_bwd hra hrb hne hlt f z r hf).2 hrrb
      · rw [if_neg hrrb]
        exact (reaches_link_bwd hra hrb hne hlt f z r hf).1 hrrb
    rintro (⟨r, hx, hy⟩ | ⟨⟨r1, hx, ha⟩, ⟨r2, hy, hb⟩⟩ |
      ⟨⟨r1, hx, hb⟩, ⟨r2, hy, ha⟩⟩)
    · exact ⟨_, hlift x r hx, hlift y r hy⟩
    · have hr1 : r1 = ra := reaches_functional ha haa
      have hr2 : r2 = rb := reaches_functional hb hbb
      refine ⟨ra, ?_, ?_⟩
      · have h3 := hlift x r1 hx
        rw [hr1, if_neg hne] at h3
        exact h3
      · have h3 := hlift y r2 hy
        rw [hr2, if_pos rfl] at h3
        exact h3
    · have hr1 : r1 = rb := reaches_functional hb hbb
      have hr2 : r2 = ra := reaches_functional ha haa
      refine ⟨ra, ?_, ?_⟩
      · have h3 := hlift x r1 hx
        rw [hr1, if_pos rfl] at h3
        exact h3
      · have h3 := hlift y r2 hy
        rw [hr2, if_neg hne] at h3
        exact h3

theorem equivCls_symm {d : DSU} {x y : Nat} (h : d.EquivCls x y) :
    d.EquivCls y x := by
  obtain ⟨r, hx, hy⟩ := h
  exact ⟨r, hy, hx⟩

theorem equivCls_trans {d : DSU} {x y z : Nat} (h1 : d.EquivCls x y)
    (h2 : d.EquivCls y z) : d.EquivCls x z := by
  obtain ⟨r, hx, hy⟩ := h1
  obtain ⟨r2, hy2, hz⟩ := h2
  obtain rfl := reaches_functional hy hy2
  exact ⟨r, hx, hz⟩

/-- `DSU::find` (path compression included): the returned root is the
chased root, classes and bounds are unchanged, rank and size are kept. -/
theorem findAux_spec :
    ∀ (fuel : Nat) (d : DSU) (i r : Nat) (d2 : DSU),
      DSU.findAux fuel d i = some (r, d2) →
      Reaches d.parent i r ∧ d2.parent.length = d.parent.length ∧
      d2.rank = d.rank ∧ d2.components = d.components ∧
      (∀ x s, Reaches d2.parent x s ↔ Reaches d.parent x s) ∧
      (DSUBounded d → DSUBounded d2) := by
  intro fuel
  induction fuel with
  | zero =>
    intro d i r d2 h
    exact Option.noConfusion h
  | succ fuel ih =>
    intro d i r d2 h
    simp only [DSU.findAux] at h
    by_cases hii : d.parent.getD i i = i
    · rw [if_pos hii] at h
      obtain ⟨h1, h2⟩ := Prod.mk.injEq .. ▸ Option.some.inj h
      subst h1
      subst h2
      exact ⟨reaches_root_self hii, rfl, rfl, rfl, fun x s => Iff.rfl,
        fun hb => hb⟩
    · rw [if_neg hii] at h
      cases hrec : DSU.findAux fuel d (d.parent.getD i i) with
      | none =>
        rw [hrec] at h
        exact Option.noConfusion h
      | some pr =>
        obtain ⟨root, d1⟩ := pr
        rw [hrec] at h
        obtain ⟨h1, h2⟩ := Prod.mk.injEq .. ▸ Option.some.inj h
        subst h1
        obtain ⟨hreach, hlen1, hrank1, hcomp1, hcls1, hbnd1⟩ :=
          ih d _ root d1 hrec
        have hir : Reaches d.parent i root := reaches_step rfl hreach
        have hir1 : Reaches d1.parent i root := (hcls1 i root).mpr hir
        have hroot1 : d1.parent.getD root root = root :=
          reaches_root hir1
        refine ⟨hir, ?_, ?_, ?_, ?_, ?_⟩
        · rw [← h2]
          simp only [List.length_set]
          exact hlen1
        · rw [← h2]
          exact hrank1
        · rw [← h2]
          exact hcomp1
        · intro x s
          rw [← h2]
          show Reaches (d1.parent.set i root) x s ↔ Reaches d.parent x s
          rw [reaches_set_iff hroot1 hir1]
          exact hcls1 x s
        · intro hb
          rw [← h2]
          intro z hz
          simp only [List.length_set] at hz ⊢
          have hb1 := hbnd1 hb
          by_cases hzi : z = i
          · subst hzi
            by_cases hzl : z < d1.parent.length
            · rw [list_getD_set_self _ _ _ _ hzl]
              have hrl : root < d1.parent.length := by
                rcases hir1 with ⟨f, hf⟩
                exact reaches_lt (fun w hw => hb1 w hw) f z root hzl hf
              exact hrl
            · exact absurd hz hzl
          · rw [list_getD_set_ne _ _ _ _ _ (fun hh => hzi hh.symm)]
            exact hb1 z hz

/-- `DSU.find` wrapper of `findAux_spec`. -/
theorem find_spec {d : DSU} {i r : Nat} {d2 : DSU}
    (h : d.find i = some (r, d2)) :
    Reaches d.parent i r ∧ d2.parent.length = d.parent.length ∧
    d2.rank = d.rank ∧ d2.components = d.components ∧
    (∀ x s, Reaches d2.parent x s ↔ Reaches d.parent x s) ∧
    (DSUBounded d → DSUBounded d2) :=
  findAux_spec _ d i r d2 h

/-- Re-pointing root `rt` at root `rs` merges exactly the two classes
(stated on a DSU whose parent array is the link result). -/
theorem dsu_link_spec {d d2 : DSU} {a b rs rt : Nat}
    (hbd : DSUBounded d) (hra : Reaches d.parent a rs)
    (hrb : Reaches d.parent b rt) (hst : rs ≠ rt)
    (hltS : rs < d.parent.length) (hltT : rt < d.parent.length)
    (hdd : d2.parent = d.parent.set rt rs) :
    d2.parent.length = d.parent.length ∧ DSUBounded d2 ∧
    (∀ x y, d2.EquivCls x y ↔
      (d.EquivCls x y ∨ (d.EquivCls x a ∧ d.EquivCls y b) ∨
       (d.EquivCls x b ∧ d.EquivCls y a))) := by
  have hrootS : d.parent.getD rs rs = rs := reaches_root hra
  have hrootT : d.parent.getD rt rt = rt := reaches_root hrb
  refine ⟨?_, ?_, ?_⟩
  · rw [hdd]
    simp only [List.length_set]
  · intro z hz
    rw [hdd] at hz ⊢
    simp only [List.length_set] at hz ⊢
    by_cases hzt : z = rt
    · subst hzt
      rw [list_getD_set_self _ _ _ _ hltT]
      exact hltS
    · rw [list_getD_set_ne _ _ _ _ _ (fun hh => hzt hh.symm)]
      exact hbd z hz
  · intro x y
    show (∃ r, Reaches d2.parent x r ∧ Reaches d2.parent y r) ↔ _
    rw [hdd]
    exact equivCls_of_link hrootS hrootT hst hltT hra hrb x y

/-- `DSU::unite` merges exactly the classes of its two arguments (and
does nothing when they already share a class). -/
theorem unite_spec {d : DSU} {a b : Nat} {fl : Bool} {d2 : DSU}
    (hb : DSUBounded d)
    (hab : (a < d.parent.length ∧ b < d.parent.length) ∨ a = b)
    (h : d.unite a b = some (fl, d2)) :
    d2.parent.length = d.parent.length ∧ DSUBounded d2 ∧
    (∀ x y, d2.EquivCls x y ↔
      (d.EquivCls x y ∨ (d.EquivCls x a ∧ d.EquivCls y b) ∨
       (d.EquivCls x b ∧ d.EquivCls y a))) := by
  simp only [DSU.unite] at h
  cases hfa : d.find a with
  | none =>
    rw [hfa] at h
    exact Option.noConfusion h
  | some pra =>
    obtain ⟨rs, da⟩ := pra
    simp only [hfa] at h
    cases hfb : da.find b with
    | none =>
      simp only [hfb] at h
      exact Option.noConfusion h
    | some prb =>
      obtain ⟨rt, db⟩ := prb
      simp only [hfb] at h
      obtain ⟨hra0, hlena, _, _, hclsa, hbnda⟩ := find_spec hfa
      obtain ⟨hrb0, hlenb, _, _, hclsb, hbndb⟩ := find_spec hfb
      have hra : Reaches d.parent a rs := hra0
      have hrb : Reaches d.parent b rt := (hclsa b rt).mp hrb0
      have hbdb : DSUBounded db := hbndb (hbnda hb)
      have hlen : db.parent.length = d.parent.length := by
        rw [hlenb, hlena]
      have hclsab : ∀ x s, Reaches db.parent x s ↔ Reaches d.parent x s :=
        fun x s => (hclsb x s).trans (hclsa x s)
      have hacls : ∀ x y, db.EquivCls x y ↔ d.EquivCls x y := by
        intro x y
        constructor
        · rintro ⟨r, h1, h2⟩
          exact ⟨r, (hclsab x r).mp h1, (hclsab y r).mp h2⟩
        · rintro ⟨r, h1, h2⟩
          exact ⟨r, (hclsab x r).mpr h1, (hclsab y r).mpr h2⟩
      have hradb : Reaches db.parent a rs := (hclsab a rs).mpr hra
      have hrbdb : Reaches db.parent b rt := (hclsab b rt).mpr hrb
      have habd : d.EquivCls a b → rs = rt := by
        rintro ⟨r, h1, h2⟩
        have e1 : rs = r := reaches_functional hra h1
        have e2 : rt = r := reaches_functional hrb h2
        rw [e1, e2]
      by_cases hst : rs ≠ rt
      · rw [if_pos hst] at h
        have hltT : rt < d.parent.length := by
          rcases hab with ⟨hal, hbl⟩ | heq
          · rcases hrb with ⟨f, hf⟩
            exact reaches_lt (fun w hw => hb w hw) f b rt hbl hf
          · exfalso
            rw [heq] at hra
            exact hst (reaches_functional hra hrb)
        have hltS : rs < d.parent.length := by
          rcases hab with ⟨hal, hbl⟩ | heq
          · rcases hra with ⟨f, hf⟩
            exact reaches_lt (fun w hw => hb w hw) f a rs hal hf
          · exfalso
            rw [heq] at hra
            exact hst (reaches_functional hra hrb)
        have hltSdb : rs < db.parent.length := by
          rw [hlen]
          exact hltS
        have hltTdb : rt < db.parent.length := by
          rw [hlen]
          exact hltT
        have hfinish : ∀ (dd : DSU),
            dd.parent.length = db.parent.length ∧ DSUBounded dd ∧
            (∀ x y, dd.EquivCls x y ↔
              (db.EquivCls x y ∨ (db.EquivCls x a ∧ db.EquivCls y b) ∨
               (db.EquivCls x b ∧ db.EquivCls y a))) →
            dd.parent.length = d.parent.length ∧ DSUBounded dd ∧
            (∀ x y, dd.EquivCls x y ↔
              (d.EquivCls x y ∨ (d.EquivCls x a ∧ d.EquivCls y b) ∨
               (d.EquivCls x b ∧ d.EquivCls y a))) := by
          rintro dd ⟨e1, e2, e3⟩
          refine ⟨by rw [e1, hlen], e2, ?_⟩
          intro x y
          rw [e3 x y, hacls, hacls, hacls, hacls, hacls]
        by_cases hrk : db.rank.getD rs 0 < db.rank.getD rt 0
        · rw [if_pos hrk] at h
          have h1 := Option.some.inj h
          rw [Prod.mk.injEq] at h1
          obtain ⟨hfl2, h2⟩ := h1
          have hres := @dsu_link_spec db { db with
              parent := db.parent.set rs rt
              components := db.components - 1 } b a rt rs hbdb hrbdb
            hradb (fun hh => hst hh.symm) hltTdb hltSdb rfl
          rw [← h2]
          refine hfinish _ ⟨hres.1, hres.2.1, ?_⟩
          intro x y
          rw [hres.2.2 x y]
          constructor
          · rintro (h1 | h1 | h1)
            · exact Or.inl h1
            · exact Or.inr (Or.inr h1)
            · exact Or.inr (Or.inl h1)
          · rintro (h1 | h1 | h1)
            · exact Or.inl h1
            · exact Or.inr (Or.inr h1)
            · exact Or.inr (Or.inl h1)
        · rw [if_neg hrk] at h
          by_cases hrk2 : db.rank.getD rs 0 = db.rank.getD rt 0
          · rw [if_pos hrk2] at h
            have h1 := Option.some.inj h
            rw [Prod.mk.injEq] at h1
            obtain ⟨hfl2, h2⟩ := h1
            have hres := @dsu_link_spec db { db with
                parent := db.parent.set rt rs
                rank := db.rank.set rs (db.rank.getD rs 0 + 1)
                components := db.components - 1 } a b rs rt hbdb hradb
              hrbdb hst hltSdb hltTdb rfl
            rw [← h2]
            exact hfinish _ hres
          · rw [if_neg hrk2] at h
            have h1 := Option.some.inj h
            rw [Prod.mk.injEq] at h1
            obtain ⟨hfl2, h2⟩ := h1
            have hres := @dsu_link_spec db { db with
                parent := db.parent.set rt rs
                components := db.components - 1 } a b rs rt hbdb hradb
              hrbdb hst hltSdb hltTdb rfl
            rw [← h2]
            exact hfinish _ hres
      · rw [if_neg hst] at h
        rw [not_not] at hst
        have h1 := Option.some.inj h
        rw [Prod.mk.injEq] at h1
        obtain ⟨hfl2, h2⟩ := h1
        rw [← h2]
        refine ⟨hlen, hbdb, ?_⟩
        intro x y
        rw [hacls]
        constructor
        · exact fun h1 => Or.inl h1
        · rintro (h1 | ⟨h1, h2⟩ | ⟨h1, h2⟩)
          · exact h1
          · exact equivCls_trans h1 (equivCls_trans
              ⟨rs, hra, hst ▸ hrb⟩ (equivCls_symm h2))
          · exact equivCls_trans h1 (equivCls_trans
              (equivCls_symm ⟨rs, hra, hst ▸ hrb⟩) (equivCls_symm h2))
/-- In the freshly reset DSU every node is its own root. -/
theorem reaches_init (n x : Nat) : Reaches (List.range n) x x := by
  refine reaches_root_self ?_
  by_cases h : x < n
  · rw [List.getD_eq_getElem?_getD, List.getElem?_eq_getElem
      (by simpa using h)]
    simp
  · exact list_getD_oob _ _ _ (by simpa using h)

theorem equivCls_init (n : Nat) (x y : Nat) :
    (DSU.init n).EquivCls x y ↔ x = y := by
  constructor
  · rintro ⟨r, h1, h2⟩
    have e1 : r = x := reaches_functional h1 (reaches_init n x)
    have e2 : r = y := reaches_functional h2 (reaches_init n y)
    rw [← e1, e2]
  · rintro rfl
    exact ⟨x, reaches_init n x, reaches_init n x⟩

theorem dsuBounded_init (n : Nat) : DSUBounded (DSU.init n) := by
  intro i hi
  have hi2 : i < n := by
    have h2 := hi
    rw [show (DSU.init n).parent = List.range n from rfl,
      List.length_range] at h2
    exact h2
  show (List.range n).getD i i < (List.range n).length
  rw [List.getD_eq_getElem?_getD, List.getElem?_eq_getElem
    (by simpa using hi2)]
  simpa using hi2

theorem dsu_init_parent_length (n : Nat) :
    (DSU.init n).parent.length = n := by
  show (List.range n).length = n
  simp

/-- Mapping the generators of an equivalence closure into another
closure. -/
theorem eqvGen_mono_map {α : Type _} {A B : α → α → Prop}
    (h : ∀ u v, A u v → Relation.EqvGen B u v) {x y : α}
    (hxy : Relation.EqvGen A x y) : Relation.EqvGen B x y := by
  induction hxy with
  | rel u v huv => exact h u v huv
  | refl u => exact Relation.EqvGen.refl u
  | symm u v _ ih => exact Relation.EqvGen.symm u v ih
  | trans u v w _ _ ih1 ih2 => exact Relation.EqvGen.trans u v w ih1 ih2

/-- `SolConn` is monotone in the active-edge bitset. -/
theorem solConn_mono {g : Graph} {s1 s2 : SFPSolution}
    (h : ∀ e, s1.isEdgeActive e = true → s2.isEdgeActive e = true)
    {x y : Nat} (hc : SolConn g s1 x y) : SolConn g s2 x y := by
  refine eqvGen_mono_map ?_ hc
  rintro u v ⟨i, hlt, hact, hcan, hor⟩
  exact Relation.EqvGen.rel u v ⟨i, hlt, h i hact, hcan, hor⟩

/-- An active physical edge joins its endpoints in `SolConn` (through
its canonical representative). -/
theorem solConn_of_active_edge {g : Graph} (m : MirrorWF g)
    {s : SFPSolution} (hsym : SymBitset g s) {i : Nat}
    (hi : i < g.edges.length) (hact : s.isEdgeActive i = true) :
    SolConn g s (g.edges.getD i default).source
      (g.edges.getD i default).target := by
  obtain ⟨j, hrev, hjlt, hback, hjsrc, hjtgt, hjw⟩ := m.rev_some i hi
  have hjact : s.isEdgeActive j = true :=
    hsym.sym i (by rw [m.ne_len]; exact hi) hact j hrev
  have hne := m.no_self i hi
  rcases Nat.lt_or_ge (g.edges.getD i default).source
      (g.edges.getD i default).target with hcan | hge
  · exact Relation.EqvGen.rel _ _ ⟨i, hi, hact, hcan, Or.inl ⟨rfl, rfl⟩⟩
  · have hcanj : (g.edges.getD j default).source
        < (g.edges.getD j default).target := by
      rw [hjsrc, hjtgt]
      omega
    exact Relation.EqvGen.rel _ _ ⟨j, hjlt, hjact, hcanj,
      Or.inr ⟨by rw [hjtgt], by rw [hjsrc]⟩⟩

/-- A walk whose edges are all active joins its endpoints in
`SolConn`. -/
theorem solConn_of_walk {ca : Bool} {g : Graph} (m : MirrorWF g)
    {s : SFPSolution} (hsym : SymBitset g s) {u v : Nat}
    {es : List Nat} (hw : Walk ca g u v es)
    (hact : ∀ i ∈ es, s.isEdgeActive i = true) :
    SolConn g s u v := by
  induction hw with
  | nil => exact Relation.EqvGen.refl _
  | @cons u0 v0 es0 i0 hw2 he ih =>
    have h1 : SolConn g s u u0 :=
      ih (fun x hx => hact x (List.mem_append_left _ hx))
    have hia : s.isEdgeActive i0 = true :=
      hact i0 (List.mem_append_right _ (List.mem_singleton_self i0))
    have h2 : SolConn g s u0 v0 := by
      have h3 := solConn_of_active_edge m hsym he.1 hia
      rw [he.2.1, he.2.2.1] at h3
      exact h3
    exact Relation.EqvGen.trans _ _ _ h1 h2

/-- A fold whose step preserves `none` returns `none` from `none`. -/
theorem foldl_none {α β : Type _} (f : Option β → α → Option β)
    (hf : ∀ a, f none a = none) : ∀ l : List α, l.foldl f none = none := by
  intro l
  induction l with
  | nil => rfl
  | cons a rest ih =>
    rw [List.foldl_cons, hf]
    exact ih

/-- Characterization of the edge-union fold of
`SFPSolution::isFeasible`: the classes of the resulting DSU are exactly
the closure of the starting classes under the processed active canonical
edges. -/
theorem feasFold_spec {g : Graph} {s : SFPSolution}
    (hend : ∀ i, i < g.edges.length →
      (g.edges.getD i default).source < g.nNodes ∧
      (g.edges.getD i default).target < g.nNodes) :
    ∀ (l : List Nat) (d0 d : DSU),
      (∀ i ∈ l, i < g.edges.length) →
      d0.parent.length = g.nNodes → DSUBounded d0 → d0.TotalRoots →
      l.foldl (fun acc i =>
        match acc with
        | none => none
        | some d =>
          if s.isEdgeActive i = true then
            let e := g.edges.getD i default
            if e.source < e.target then
              match d.unite e.source e.target with
              | none => none
              | some (_, d2) => some d2
            else some d
          else some d) (some d0) = some d →
      d.parent.length = g.nNodes ∧ DSUBounded d ∧ d.TotalRoots ∧
      (∀ x y, d0.EquivCls x y → d.EquivCls x y) ∧
      (∀ i ∈ l, s.isEdgeActive i = true →
        (g.edges.getD i default).source
          < (g.edges.getD i default).target →
        d.EquivCls (g.edges.getD i default).source
          (g.edges.getD i default).target) ∧
      (∀ x y, d.EquivCls x y → Relation.EqvGen (fun u v =>
        d0.EquivCls u v ∨ ∃ i ∈ l, s.isEdgeActive i = true ∧
          (g.edges.getD i default).source
            < (g.edges.getD i default).target ∧
          u = (g.edges.getD i default).source ∧
          v = (g.edges.getD i default).target) x y) := by
  intro l
  induction l with
  | nil =>
    intro d0 d _ hlen hbnd htot hrun
    simp only [List.foldl_nil] at hrun
    obtain rfl := Option.some.inj hrun
    refine ⟨hlen, hbnd, htot, fun x y h => h, fun i hi => absurd hi
      (by simp), ?_⟩
    intro x y h
    exact Relation.EqvGen.rel x y (Or.inl h)
  | cons i rest ih =>
    intro d0 d hil hlen hbnd htot hrun
    rw [List.foldl_cons] at hrun
    have hstep : (match some d0 with
      | none => none
      | some d =>
        if s.isEdgeActive i = true then
          let e := g.edges.getD i default
          if e.source < e.target then
            match d.unite e.source e.target with
            | none => none
            | some (_, d2) => some d2
          else some d
        else some d) = (if s.isEdgeActive i = true then
          if (g.edges.getD i default).source
              < (g.edges.getD i default).target then
            match d0.unite (g.edges.getD i default).source
              (g.edges.getD i default).target with
            | none => none
            | some (_, d2) => some d2
          else some d0
        else some d0) := rfl
    rw [hstep] at hrun
    have hweaken : ∀ (dz : DSU), (∀ x y, dz.EquivCls x y →
        Relation.EqvGen (fun u v =>
          d0.EquivCls u v ∨ ∃ k ∈ rest, s.isEdgeActive k = true ∧
            (g.edges.getD k default).source
              < (g.edges.getD k default).target ∧
            u = (g.edges.getD k default).source ∧
            v = (g.edges.getD k default).target) x y) →
        (∀ x y, dz.EquivCls x y → Relation.EqvGen (fun u v =>
          d0.EquivCls u v ∨ ∃ k ∈ i :: rest, s.isEdgeActive k = true ∧
            (g.edges.getD k default).source
              < (g.edges.getD k default).target ∧
            u = (g.edges.getD k default).source ∧
            v = (g.edges.getD k default).target) x y) := by
      intro dz hsound x y hxy
      refine eqvGen_mono_map ?_ (hsound x y hxy)
      rintro u v (h1 | ⟨k, hk, hrest⟩)
      · exact Relation.EqvGen.rel u v (Or.inl h1)
      · exact Relation.EqvGen.rel u v
          (Or.inr ⟨k, List.mem_cons_of_mem _ hk, hrest⟩)
    by_cases hact : s.isEdgeActive i = true
    · rw [if_pos hact] at hrun
      by_cases hcan : (g.edges.getD i default).source
          < (g.edges.getD i default).target
      · rw [if_pos hcan] at hrun
        cases hu : d0.unite (g.edges.getD i default).source
            (g.edges.getD i default).target with
        | none =>
          simp only [hu] at hrun
          rw [foldl_none _ (fun a => rfl)] at hrun
          exact Option.noConfusion hrun
        | some pr =>
          obtain ⟨fl, d1⟩ := pr
          simp only [hu] at hrun
          have hilen : i < g.edges.length :=
            hil i (List.mem_cons_self i rest)
          obtain ⟨hsrcn, htgtn⟩ := hend i hilen
          have hab : ((g.edges.getD i default).source < d0.parent.length ∧
              (g.edges.getD i default).target < d0.parent.length) ∨
              (g.edges.getD i default).source
                = (g.edges.getD i default).target := by
            left
            rw [hlen]
            exact ⟨hsrcn, htgtn⟩
          obtain ⟨hulen, hubnd, hucls⟩ := unite_spec hbnd hab hu
          have hutot : d1.TotalRoots := by
            intro x
            obtain ⟨r, hr⟩ := htot x
            have h1 : d1.EquivCls x x :=
              (hucls x x).mpr (Or.inl ⟨r, hr, hr⟩)
            obtain ⟨r2, hr2, _⟩ := h1
            exact ⟨r2, hr2⟩
          obtain ⟨hdlen, hdbnd, hdtot, hdmono, hdcompl, hdsound⟩ :=
            ih d1 d (fun k hk => hil k (List.mem_cons_of_mem _ hk))
              (by rw [hulen, hlen]) hubnd hutot hrun
          refine ⟨hdlen, hdbnd, hdtot, ?_, ?_, ?_⟩
          · intro x y h
            exact hdmono x y ((hucls x y).mpr (Or.inl h))
          · intro k hk hkact hkcan
            rcases List.mem_cons.mp hk with rfl | hk2
            · refine hdmono _ _ ((hucls _ _).mpr (Or.inr (Or.inl
                ⟨?_, ?_⟩)))
              · obtain ⟨r, hr⟩ := htot (g.edges.getD k default).source
                exact ⟨r, hr, hr⟩
              · obtain ⟨r, hr⟩ := htot (g.edges.getD k default).target
                exact ⟨r, hr, hr⟩
            · exact hdcompl k hk2 hkact hkcan
          · intro x y h
            refine eqvGen_mono_map ?_ (hdsound x y h)
            rintro u v (h1 | ⟨k, hk, hrest⟩)
            · rcases (hucls u v).mp h1 with h2 | ⟨h2, h3⟩ | ⟨h2, h3⟩
              · exact Relation.EqvGen.rel u v (Or.inl h2)
              · refine Relation.EqvGen.trans u _ v
                  (Relation.EqvGen.rel _ _ (Or.inl h2)) ?_
                refine Relation.EqvGen.trans _ _ v
                  (Relation.EqvGen.rel _ _ (Or.inr
                    ⟨i, List.mem_cons_self i rest, hact, hcan,
                      rfl, rfl⟩)) ?_
                exact Relation.EqvGen.symm _ _
                  (Relation.EqvGen.rel _ _ (Or.inl h3))
              · refine Relation.EqvGen.trans u _ v
                  (Relation.EqvGen.rel _ _ (Or.inl h2)) ?_
                refine Relation.EqvGen.trans _ _ v
                  (Relation.EqvGen.symm _ _ (Relation.EqvGen.rel _ _
                    (Or.inr ⟨i, List.mem_cons_self i rest, hact, hcan,
                      rfl, rfl⟩))) ?_
                exact Relation.EqvGen.symm _ _
                  (Relation.EqvGen.rel _ _ (Or.inl h3))
            · exact Relation.EqvGen.rel u v
                (Or.inr ⟨k, List.mem_cons_of_mem _ hk, hrest⟩)
      · rw [if_neg hcan] at hrun
        obtain ⟨hdlen, hdbnd, hdtot, hdmono, hdcompl, hdsound⟩ :=
          ih d0 d (fun k hk => hil k (List.mem_cons_of_mem _ hk))
            hlen hbnd htot hrun
        refine ⟨hdlen, hdbnd, hdtot, hdmono, ?_, hweaken d hdsound⟩
        intro k hk hkact hkcan
        rcases List.mem_cons.mp hk with rfl | hk2
        · exact absurd hkcan hcan
        · exact hdcompl k hk2 hkact hkcan
    · rw [if_neg hact] at hrun
      obtain ⟨hdlen, hdbnd, hdtot, hdmono, hdcompl, hdsound⟩ :=
        ih d0 d (fun k hk => hil k (List.mem_cons_of_mem _ hk))
          hlen hbnd htot hrun
      refine ⟨hdlen, hdbnd, hdtot, hdmono, ?_, hweaken d hdsound⟩
      intro k hk hkact hkcan
      rcases List.mem_cons.mp hk with rfl | hk2
      · exact absurd hkact hact
      · exact hdcompl k hk2 hkact hkcan

theorem totalRoots_init (n : Nat) : (DSU.init n).TotalRoots :=
  fun x => ⟨x, reaches_init n x⟩

/-- The terminal-check loop of `isFeasible` answers `true` when every
pair shares a class. -/
theorem feasGo_true :
    ∀ (terminals : List (Nat × Nat)) (d : DSU),
      (∀ p ∈ terminals, d.EquivCls p.1 p.2) →
      ∀ r, isFeasibleb.go d terminals = some r → r = true := by
  intro terminals
  induction terminals with
  | nil =>
    intro d _ r hrun
    simp only [isFeasibleb.go] at hrun
    exact (Option.some.inj hrun).symm
  | cons p ps ih =>
    intro d hcls r hrun
    simp only [isFeasibleb.go] at hrun
    cases hc : d.isConnected p.1 p.2 with
    | none =>
      rw [hc] at hrun
      exact Option.noConfusion hrun
    | some pr =>
      obtain ⟨conn, d2⟩ := pr
      simp only [hc] at hrun
      simp only [DSU.isConnected] at hc
      cases hfa : d.find p.1 with
      | none =>
        rw [hfa] at hc
        exact Option.noConfusion hc
      | some pra =>
        obtain ⟨rs, da⟩ := pra
        simp only [hfa] at hc
        cases hfb : da.find p.2 with
        | none =>
          rw [hfb] at hc
          exact Option.noConfusion hc
        | some prb =>
          obtain ⟨rt, db⟩ := prb
          simp only [hfb] at hc
          have h1 := Option.some.inj hc
          rw [Prod.mk.injEq] at h1
          obtain ⟨hconn, hd2⟩ := h1
          obtain ⟨hra, _, _, _, hclsa, _⟩ := find_spec hfa
          obtain ⟨hrb0, _, _, _, hclsb, _⟩ := find_spec hfb
          have hrb : Reaches d.parent p.2 rt := (hclsa p.2 rt).mp hrb0
          have hrst : rs = rt := by
            obtain ⟨r2, h2, h3⟩ := hcls p (List.mem_cons_self p ps)
            have e1 : rs = r2 := reaches_functional hra h2
            have e2 : rt = r2 := reaches_functional hrb h3
            rw [e1, e2]
          rw [← hconn, hrst, decide_eq_true rfl, if_pos rfl] at hrun
          rw [← hd2] at hrun
          refine ih db ?_ r hrun
          intro q hq
          obtain ⟨r2, h2, h3⟩ := hcls q (List.mem_cons_of_mem _ hq)
          have hcl : ∀ x s, Reaches db.parent x s ↔ Reaches d.parent x s :=
            fun x s => (hclsb x s).trans (hclsa x s)
          exact ⟨r2, (hcl q.1 r2).mpr h2, (hcl q.2 r2).mpr h3⟩

/-- The terminal-check loop of `isFeasible` answers `true` only when
every pair shares a class. -/
theorem feasGo_sound :
    ∀ (terminals : List (Nat × Nat)) (d : DSU),
      isFeasibleb.go d terminals = some true →
      ∀ p ∈ terminals, d.EquivCls p.1 p.2 := by
  intro terminals
  induction terminals with
  | nil =>
    intro d _ p hp
    simp at hp
  | cons q ps ih =>
    intro d hrun p hp
    simp only [isFeasibleb.go] at hrun
    cases hc : d.isConnected q.1 q.2 with
    | none =>
      rw [hc] at hrun
      exact Option.noConfusion hrun
    | some pr =>
      obtain ⟨conn, d2⟩ := pr
      simp only [hc] at hrun
      simp only [DSU.isConnected] at hc
      cases hfa : d.find q.1 with
      | none =>
        rw [hfa] at hc
        exact Option.noConfusion hc
      | some pra =>
        obtain ⟨rs, da⟩ := pra
        simp only [hfa] at hc
        cases hfb : da.find q.2 with
        | none =>
          rw [hfb] at hc
          exact Option.noConfusion hc
        | some prb =>
          obtain ⟨rt, db⟩ := prb
          simp only [hfb] at hc
          have h1 := Option.some.inj hc
          rw [Prod.mk.injEq] at h1
          obtain ⟨hconn, hd2⟩ := h1
          obtain ⟨hra, _, _, _, hclsa, _⟩ := find_spec hfa
          obtain ⟨hrb0, _, _, _, hclsb, _⟩ := find_spec hfb
          have hrb : Reaches d.parent q.2 rt := (hclsa q.2 rt).mp hrb0
          have hcl : ∀ x s, Reaches db.parent x s ↔ Reaches d.parent x s :=
            fun x s => (hclsb x s).trans (hclsa x s)
          by_cases hrst : rs = rt
          · rw [← hconn, decide_eq_true hrst, if_pos rfl] at hrun
            rcases List.mem_cons.mp hp with rfl | hp2
            · exact ⟨rt, hrst ▸ hra, hrb⟩
            · rw [← hd2] at hrun
              obtain ⟨r2, h2, h3⟩ := ih db hrun p hp2
              exact ⟨r2, (hcl p.1 r2).mp h2, (hcl p.2 r2).mp h3⟩
          · rw [← hconn] at hrun
            rw [decide_eq_false hrst] at hrun
            rw [if_neg (by decide)] at hrun
            exact absurd (Option.some.inj hrun) (by decide)

/-- `SFPSolution::isFeasible` answers `true` whenever every terminal
pair is semantically connected by the active edges (completeness of the
DSU check). -/
theorem isFeasibleb_complete {g : Graph} {terminals : List (Nat × Nat)}
    {s : SFPSolution} {r : Bool} (w : CsrWF g)
    (hconn : ∀ p ∈ terminals, SolConn g s p.1 p.2)
    (hrun : isFeasibleb g terminals s = some r) : r = true := by
  simp only [isFeasibleb] at hrun
  split at hrun
  · exact Option.noConfusion hrun
  · rename_i d hfold
    have hspec := feasFold_spec (fun i hi =>
        ⟨w.src_lt i hi, w.tgt_lt i hi⟩) (List.range g.nEdges)
      (DSU.init g.nNodes) d
      (fun k hk => by
        rw [← w.ne_len]
        exact List.mem_range.mp hk)
      (dsu_init_parent_length g.nNodes) (dsuBounded_init g.nNodes)
      (totalRoots_init g.nNodes) hfold
    obtain ⟨_, _, hdtot, _, hdcompl, _⟩ := hspec
    refine feasGo_true terminals d ?_ r hrun
    rintro ⟨a, b⟩ hp
    have hsc : SolConn g s a b := hconn (a, b) hp
    show d.EquivCls a b
    clear hrun hp
    induction hsc with
    | rel u v huv =>
      obtain ⟨i, hlt, hact, hcan, hor⟩ := huv
      have hcls := hdcompl i (by
        rw [List.mem_range, w.ne_len]
        exact hlt) hact hcan
      rcases hor with ⟨rfl, rfl⟩ | ⟨rfl, rfl⟩
      · exact hcls
      · exact equivCls_symm hcls
    | refl u =>
      obtain ⟨r2, hr2⟩ := hdtot u
      exact ⟨r2, hr2, hr2⟩
    | symm u v _ ihc => exact equivCls_symm ihc
    | trans u v w2 _ _ ihc1 ihc2 => exact equivCls_trans ihc1 ihc2

/-- `SFPSolution::isFeasible` answers `true` only when every terminal
pair is semantically connected (soundness of the DSU check). -/
theorem isFeasibleb_sound {g : Graph} {terminals : List (Nat × Nat)}
    {s : SFPSolution} (w : CsrWF g)
    (hrun : isFeasibleb g terminals s = some true) :
    ∀ p ∈ terminals, SolConn g s p.1 p.2 := by
  simp only [isFeasibleb] at hrun
  split at hrun
  · exact Option.noConfusion hrun
  · rename_i d hfold
    have hspec := feasFold_spec (fun i hi =>
        ⟨w.src_lt i hi, w.tgt_lt i hi⟩) (List.range g.nEdges)
      (DSU.init g.nNodes) d
      (fun k hk => by
        rw [← w.ne_len]
        exact List.mem_range.mp hk)
      (dsu_init_parent_length g.nNodes) (dsuBounded_init g.nNodes)
      (totalRoots_init g.nNodes) hfold
    obtain ⟨_, _, _, _, _, hdsound⟩ := hspec
    intro p hp
    have hcls := feasGo_sound terminals d hrun p hp
    refine eqvGen_mono_map ?_ (hdsound p.1 p.2 hcls)
    rintro u v (h1 | ⟨k, hk, hkact, hkcan, rfl, rfl⟩)
    · rw [equivCls_init] at h1
      rw [h1]
      exact Relation.EqvGen.refl v
    · refine Relation.EqvGen.rel _ _ ⟨k, ?_, hkact, hkcan,
        Or.inl ⟨rfl, rfl⟩⟩
      rw [← w.ne_len]
      exact List.mem_range.mp hk

/-! ### Feasibility of the constructive heuristic -/

/-- The cost-refresh loop: engine stays wellformed, the pair components
are unchanged. -/
theorem updateCosts_spec {ca : Bool} {gw : Graph} {dfuel : Nat}
    (hw : CsrWF gw) (hnn : NonnegW gw) :
    ∀ (cl : List (Nat × Nat × ℚ)) (eng : DijkstraEngine)
      (out : List (Nat × Nat × ℚ) × DijkstraEngine),
      eng.engWFb = true → eng.nNodes = gw.nNodes →
      (∀ c ∈ cl, c.1 < gw.nNodes) →
      updateCosts ca gw dfuel eng cl = some out →
      out.2.engWFb = true ∧ out.2.nNodes = gw.nNodes ∧
      out.1.map (fun c => (c.1, c.2.1))
        = cl.map (fun c => (c.1, c.2.1)) := by
  intro cl
  induction cl with
  | nil =>
    intro eng out heng hengn _ hrun
    simp only [updateCosts] at hrun
    obtain rfl := Option.some.inj hrun
    exact ⟨heng, hengn, rfl⟩
  | cons c cs ih =>
    intro eng out heng hengn hin hrun
    simp only [updateCosts] at hrun
    split at hrun
    · exact Option.noConfusion hrun
    · rename_i pathE cval eng1 hgs
      split at hrun
      · exact Option.noConfusion hrun
      · rename_i cs2 eng2 hrec
        have hE := getShortPath_engine hw hnn heng hengn
          (hin c (List.mem_cons_self c cs)) hgs
        obtain ⟨h1, h2, h3⟩ := ih eng1 (cs2, eng2) hE.1
          (by rw [hE.2, hengn])
          (fun q hq => hin q (List.mem_cons_of_mem _ hq)) hrec
        obtain rfl := Option.some.inj hrun
        refine ⟨h1, h2, ?_⟩
        simp only [List.map_cons]
        rw [h3]

theorem insertLe_mem {a x : Nat × Nat × ℚ} :
    ∀ {l : List (Nat × Nat × ℚ)}, x ∈ insertLe a l → x = a ∨ x ∈ l := by
  intro l
  induction l with
  | nil =>
    intro h
    simp only [insertLe] at h
    exact Or.inl (List.mem_singleton.mp h)
  | cons b rest ih =>
    intro h
    simp only [insertLe] at h
    by_cases hle : a.2.2 ≤ b.2.2
    · rw [if_pos hle] at h
      rcases List.mem_cons.mp h with rfl | h2
      · exact Or.inl rfl
      · exact Or.inr h2
    · rw [if_neg hle] at h
      rcases List.mem_cons.mp h with rfl | h2
      · exact Or.inr (List.mem_cons_self _ _)
      · rcases ih h2 with h3 | h3
        · exact Or.inl h3
        · exact Or.inr (List.mem_cons_of_mem _ h3)

theorem insertLe_length (a : Nat × Nat × ℚ) :
    ∀ (l : List (Nat × Nat × ℚ)),
      (insertLe a l).length = l.length + 1 := by
  intro l
  induction l with
  | nil => rfl
  | cons b rest ih =>
    simp only [insertLe]
    by_cases hle : a.2.2 ≤ b.2.2
    · rw [if_pos hle]
      rfl
    · rw [if_neg hle]
      simp only [List.length_cons, ih]

theorem sortByCost_mem {x : Nat × Nat × ℚ} :
    ∀ {l : List (Nat × Nat × ℚ)}, x ∈ sortByCost l → x ∈ l := by
  intro l
  induction l with
  | nil =>
    intro h
    simp only [sortByCost] at h
    exact absurd h (by simp)
  | cons a rest ih =>
    intro h
    simp only [sortByCost] at h
    rcases insertLe_mem h with rfl | h2
    · exact List.mem_cons_self _ _
    · exact List.mem_cons_of_mem _ (ih h2)

theorem sortByCost_length :
    ∀ (l : List (Nat × Nat × ℚ)), (sortByCost l).length = l.length := by
  intro l
  induction l with
  | nil => rfl
  | cons a rest ih =>
    simp only [sortByCost, insertLe_length, ih, List.length_cons]

/-- The restricted-candidate-list size never exceeds the list size for
`alpha ≤ 1`. -/
theorem rcl_le {len : Nat} {alpha : ℚ} (hlen : 0 < len)
    (halpha : alpha ≤ 1) :
    max 1 (Int.toNat ⌊(len : ℚ) * alpha⌋) ≤ len := by
  refine max_le hlen ?_
  rw [Int.toNat_le]
  have h1 : (len : ℚ) * alpha ≤ (len : ℚ) := by
    have h2 : (0 : ℚ) ≤ (len : ℚ) := by positivity
    nlinarith
  have h2 := Int.floor_le_floor h1
  rw [Int.floor_natCast] at h2
  exact_mod_cast h2

/-- Walks transfer between graphs that differ only in weights. -/
theorem walk_transfer {ca : Bool} {g P : Graph} (hwo : WeightsOnly g P) :
    ∀ {u v : Nat} {es : List Nat}, Walk ca g u v es → Walk ca P u v es := by
  intro u v es hw
  induction hw with
  | nil => exact Walk.nil _
  | @cons u0 v0 es0 i0 hw2 he ih =>
    refine Walk.cons ih ⟨?_, ?_, ?_, ?_⟩
    · rw [hwo.len]
      exact he.1
    · rw [hwo.src]
      exact he.2.1
    · rw [hwo.tgt]
      exact he.2.2.1
    · intro hca
      rw [hwo.act]
      exact he.2.2.2 hca

theorem weightsOnly_refl {g : Graph} (hnn : NonnegW g) :
    WeightsOnly g g :=
  ⟨rfl, rfl, rfl, rfl, fun _ => rfl, fun _ => rfl, fun _ => rfl,
    fun _ => rfl, hnn⟩

theorem weightsOnly_setWeight {g gw : Graph} (h : WeightsOnly g gw)
    (i : Nat) (w : ℚ) (hw : 0 ≤ w) :
    WeightsOnly g (gw.setWeight i w) := by
  have hget : ∀ x, (gw.setWeight i w).edges.getD x default
      = (if x = i ∧ i < gw.edges.length
        then (gw.edges.getD i default).withWeight w
        else gw.edges.getD x default) := by
    intro x
    by_cases hxi : x = i
    · subst hxi
      by_cases hlt : x < gw.edges.length
      · rw [if_pos ⟨rfl, hlt⟩]
        exact setWeight_getD_self hlt w
      · rw [if_neg (fun hh => hlt hh.2)]
        show (gw.edges.set x _).getD x default = gw.edges.getD x default
        rw [List.set_eq_of_length_le (by omega)]
    · rw [if_neg (fun hh => hxi hh.1)]
      show (gw.edges.set i _).getD x default = gw.edges.getD x default
      exact list_getD_set_ne _ _ _ _ _ (fun hh => hxi hh.symm)
  refine ⟨h.nn, h.ne, h.ptrs, ?_, ?_, ?_, ?_, ?_, ?_⟩
  · show (gw.edges.set i _).length = g.edges.length
    simp only [List.length_set]
    exact h.len
  all_goals intro x
  · rw [hget x]
    split
    · rename_i hcond
      rw [withWeight_src, ← hcond.1]
      exact h.src x
    · exact h.src x
  · rw [hget x]
    split
    · rename_i hcond
      rw [withWeight_tgt, ← hcond.1]
      exact h.tgt x
    · exact h.tgt x
  · rw [hget x]
    split
    · rename_i hcond
      rw [withWeight_rev, ← hcond.1]
      exact h.rev x
    · exact h.rev x
  · rw [hget x]
    split
    · rename_i hcond
      rw [withWeight_active, ← hcond.1]
      exact h.act x
    · exact h.act x
  · rw [hget x]
    split
    · rw [withWeight_weight]
      exact hw
    · exact h.wnn x

theorem weightsOnly_zeroPathEdge {g gw : Graph} (h : WeightsOnly g gw)
    (i : Nat) : WeightsOnly g (zeroPathEdge gw i) := by
  have h1 := weightsOnly_setWeight h i 0 le_rfl
  show WeightsOnly g (match ((gw.setWeight i 0).edges.getD i
      default).reverseEdgePtr with
    | some rev => (gw.setWeight i 0).setWeight rev 0
    | none => gw.setWeight i 0)
  cases ((gw.setWeight i 0).edges.getD i default).reverseEdgePtr with
  | none => exact h1
  | some rev => exact weightsOnly_setWeight h1 rev 0 le_rfl

/-- After absorbing a path, every in-range path edge is active, and no
previously active edge was lost. -/
theorem generateAbsorb_active {g : Graph} (m : MirrorWF g) :
    ∀ (pathEdges : List Nat) (sol : SFPSolution) (gw : Graph),
      SymBitset g sol →
      (∀ e, sol.isEdgeActive e = true →
        (generateAbsorb g sol gw pathEdges).1.isEdgeActive e = true) ∧
      (∀ e ∈ pathEdges, e < g.edges.length →
        (generateAbsorb g sol gw pathEdges).1.isEdgeActive e = true) := by
  intro pathEdges
  induction pathEdges with
  | nil =>
    intro sol gw _
    rw [generateAbsorb_nil]
    exact ⟨fun e he => he, fun e he => absurd he (by simp)⟩
  | cons e rest ih =>
    intro sol gw hsym
    rw [generateAbsorb_cons]
    by_cases hact : sol.isEdgeActive e = false
    · rw [if_pos hact]
      by_cases hlt : e < g.edges.length
      · obtain ⟨j, hrev, hjlt, hback, _, _, _⟩ := m.rev_some e hlt
        have hji : j ≠ e := (mirror_facts m hlt hrev).2.1
        rw [apply_ADD_inactive' hact hrev]
        have hA := isEdgeActive_after_set2 hsym.len e j true
          (by rw [m.ne_len]; exact hlt) (by rw [m.ne_len]; exact hjlt)
          hji (sol.currentCost + (g.edges.getD e default).weight)
        have hsym2 := symBitset_addPair m hsym hlt hrev
          (sol.currentCost + (g.edges.getD e default).weight)
        obtain ⟨ihmono, ihpath⟩ := ih _ (zeroPathEdge gw e) hsym2
        refine ⟨?_, ?_⟩
        · intro x hx
          refine ihmono x ?_
          by_cases hxe : x = e
          · subst hxe
            exact hA.1
          · by_cases hxj : x = j
            · subst hxj
              exact hA.2.1
            · rw [hA.2.2 x hxe hxj]
              exact hx
        · intro x hx hxl
          rcases List.mem_cons.mp hx with rfl | hx2
          · exact ihmono x hA.1
          · exact ihpath x hx2 hxl
      · rw [apply_ADD_oob hsym.len m.ne_len hlt]
        obtain ⟨ihmono, ihpath⟩ := ih _ (zeroPathEdge gw e) hsym
        refine ⟨ihmono, ?_⟩
        intro x hx hxl
        rcases List.mem_cons.mp hx with rfl | hx2
        · exact absurd hxl hlt
        · exact ihpath x hx2 hxl
    · rw [if_neg hact]
      obtain ⟨ihmono, ihpath⟩ := ih _ (zeroPathEdge gw e) hsym
      refine ⟨ihmono, ?_⟩
      intro x hx hxl
      rcases List.mem_cons.mp hx with rfl | hx2
      · refine ihmono x ?_
        rcases Bool.eq_false_or_eq_true (sol.isEdgeActive x) with h2 | h2
        · exact h2
        · exact absurd h2 hact
      · exact ihpath x hx2 hxl

/-- Members of a group after the swap-with-back-and-pop step. -/
theorem swap_pop_mem {grp : List Nat} {x : Nat} {idxP : Nat}
    (hidx : idxP < grp.length) (hx : x ∈ grp) :
    x = grp.getD idxP 0 ∨
    x ∈ (grp.set idxP (grp.getLastD 0)).dropLast := by
  obtain ⟨k, hk, hkx⟩ := List.mem_iff_getElem.mp hx
  have hlast : grp.getLastD 0 = grp.getD (grp.length - 1) 0 := by
    rw [List.getLastD_eq_getLast?, List.getLast?_eq_getElem?,
      List.getD_eq_getElem?_getD]
  by_cases hkp : k = idxP
  · subst hkp
    left
    rw [← hkx, List.getD_eq_getElem?_getD, List.getElem?_eq_getElem hk]
    rfl
  · by_cases hklast : k < grp.length - 1
    · right
      rw [List.mem_iff_getElem]
      refine ⟨k, ?_, ?_⟩
      · rw [List.length_dropLast, List.length_set]
        exact hklast
      · rw [List.getElem_dropLast, List.getElem_set]
        rw [if_neg (fun hh => hkp hh.symm)]
        exact hkx
    · have hke : k = grp.length - 1 := by omega
      have hple : idxP < grp.length - 1 := by omega
      right
      rw [List.mem_iff_getElem]
      refine ⟨idxP, ?_, ?_⟩
      · rw [List.length_dropLast, List.length_set]
        exact hple
      · rw [List.getElem_dropLast, List.getElem_set, if_pos rfl]
        rw [hlast, List.getD_eq_getElem?_getD,
          List.getElem?_eq_getElem (by omega)]
        subst hke
        exact hkx

/-- The swap-pop remainder only holds members of the group. -/
theorem swap_pop_subset {grp : List Nat} {idxP : Nat} {x : Nat}
    (hx : x ∈ (grp.set idxP (grp.getLastD 0)).dropLast) : x ∈ grp := by
  obtain ⟨k, hk, hkx⟩ := List.mem_iff_getElem.mp hx
  rw [List.length_dropLast, List.length_set] at hk
  rw [List.getElem_dropLast, List.getElem_set] at hkx
  by_cases hkp : idxP = k
  · rw [if_pos hkp] at hkx
    rw [← hkx, List.getLastD_eq_getLast?, List.getLast?_eq_getElem?,
      List.getElem?_eq_getElem (by omega)]
    show grp[grp.length - 1] ∈ grp
    exact List.getElem_mem _
  · rw [if_neg hkp] at hkx
    rw [← hkx]
    exact List.getElem_mem _

/-- Every pair drawn from a group has both components in the group. -/
theorem generatePairsGroup_mem (f : Nat → Nat) :
    ∀ (fuel : Nat) (grp : List Nat) (k : Nat)
      (pr : Nat × Nat), pr ∈ (generatePairsGroup f fuel grp k).1 →
      pr.1 ∈ grp ∧ pr.2 ∈ grp := by
  intro fuel
  induction fuel with
  | zero =>
    intro grp k pr hpr
    simp only [generatePairsGroup] at hpr
    exact absurd hpr (by simp)
  | succ fuel ih =>
    intro grp k pr hpr
    simp only [generatePairsGroup] at hpr
    by_cases hlen : 1 < grp.length
    · rw [if_pos hlen] at hpr
      have hidx : f k % grp.length < grp.length :=
        Nat.mod_lt _ (by omega)
      have hlen2 : 0 <
          ((grp.set (f k % grp.length) (grp.getLastD 0)).dropLast).length := by
        rw [List.length_dropLast, List.length_set]
        omega
      have hdest : ((grp.set (f k % grp.length)
            (grp.getLastD 0)).dropLast).getD
          (f (k + 1) % ((grp.set (f k % grp.length)
            (grp.getLastD 0)).dropLast).length) 0
          ∈ (grp.set (f k % grp.length) (grp.getLastD 0)).dropLast :=
        list_getD_mem _ _ _ (Nat.mod_lt _ (by omega))
      rcases List.mem_cons.mp hpr with rfl | hpr2
      · constructor
        · exact list_getD_mem _ _ _ hidx
        · exact swap_pop_subset hdest
      · obtain ⟨h1, h2⟩ := ih _ _ pr hpr2
        exact ⟨swap_pop_subset h1, swap_pop_subset h2⟩
    · rw [if_neg hlen] at hpr
      exact absurd hpr (by simp)

/-- If every drawn pair is `R`-related, the whole group is pairwise
`R`-related (for an equivalence-like `R`). -/
theorem generatePairsGroup_conn {R : Nat → Nat → Prop}
    (hrefl : ∀ u, R u u) (hsymm : ∀ u v, R u v → R v u)
    (htrans : ∀ u v w, R u v → R v w → R u w) (f : Nat → Nat) :
    ∀ (fuel : Nat) (grp : List Nat) (k : Nat),
      grp.length ≤ fuel →
      (∀ pr ∈ (generatePairsGroup f fuel grp k).1, R pr.1 pr.2) →
      ∀ u ∈ grp, ∀ v ∈ grp, R u v := by
  intro fuel
  induction fuel with
  | zero =>
    intro grp k hfuel _ u hu v hv
    rw [Nat.le_zero] at hfuel
    rw [List.length_eq_zero] at hfuel
    subst hfuel
    exact absurd hu (by simp)
  | succ fuel ih =>
    intro grp k hfuel hR u hu v hv
    by_cases hlen : 1 < grp.length
    · have hidx : f k % grp.length < grp.length :=
        Nat.mod_lt _ (by omega)
      have hR2 := hR
      simp only [generatePairsGroup] at hR2
      rw [if_pos hlen] at hR2
      have hpiv : R (grp.getD (f k % grp.length) 0)
          (((grp.set (f k % grp.length) (grp.getLastD 0)).dropLast).getD
            (f (k + 1) % ((grp.set (f k % grp.length)
              (grp.getLastD 0)).dropLast).length) 0) :=
        hR2 _ (List.mem_cons_self _ _)
      have hdest : ((grp.set (f k % grp.length)
            (grp.getLastD 0)).dropLast).getD
          (f (k + 1) % ((grp.set (f k % grp.length)
            (grp.getLastD 0)).dropLast).length) 0
          ∈ (grp.set (f k % grp.length) (grp.getLastD 0)).dropLast := by
        refine list_getD_mem _ _ _ (Nat.mod_lt _ ?_)
        rw [List.length_dropLast, List.length_set]
        omega
      have hfuel2 : ((grp.set (f k % grp.length)
          (grp.getLastD 0)).dropLast).length ≤ fuel := by
        rw [List.length_dropLast, List.length_set]
        omega
      have hrest : ∀ pr ∈ (generatePairsGroup f fuel
          ((grp.set (f k % grp.length) (grp.getLastD 0)).dropLast)
          (k + 2)).1, R pr.1 pr.2 := by
        intro pr hpr
        exact hR2 pr (List.mem_cons_of_mem _ hpr)
      have ihgrp := ih _ (k + 2) hfuel2 hrest
      have hconn : ∀ w ∈ grp, R (grp.getD (f k % grp.length) 0) w := by
        intro w hw
        rcases swap_pop_mem hidx hw with hww | hww
        · rw [hww]
          exact hrefl _
        · exact htrans _ _ _ hpiv (ihgrp _ hdest w hww)
      exact htrans _ _ _ (hsymm _ _ (hconn u hu)) (hconn v hv)
    · have hle : grp.length ≤ 1 := by omega
      obtain ⟨k1, hk1, hk1x⟩ := List.mem_iff_getElem.mp hu
      obtain ⟨k2, hk2, hk2x⟩ := List.mem_iff_getElem.mp hv
      have : k1 = k2 := by omega
      subst this
      rw [← hk1x, ← hk2x]
      exact hrefl _

/-- All pairs of every processed group end up in the final pair list,
starting from some stream cursor. -/
theorem generatePairs_spec (f : Nat → Nat) :
    ∀ (groups : List (List Nat)) (acc : List (Nat × Nat) × Nat),
      (∀ x ∈ acc.1, x ∈ (groups.foldl (fun acc2 grp =>
        let res := generatePairsGroup f grp.length grp acc2.2
        (acc2.1 ++ res.1, res.2)) acc).1) ∧
      (∀ G ∈ groups, ∃ k2, ∀ pr ∈ (generatePairsGroup f G.length
          G k2).1,
        pr ∈ (groups.foldl (fun acc2 grp =>
          let res := generatePairsGroup f grp.length grp acc2.2
          (acc2.1 ++ res.1, res.2)) acc).1) ∧
      (∀ pr ∈ (groups.foldl (fun acc2 grp =>
          let res := generatePairsGroup f grp.length grp acc2.2
          (acc2.1 ++ res.1, res.2)) acc).1,
        pr ∈ acc.1 ∨ ∃ G ∈ groups, pr.1 ∈ G ∧ pr.2 ∈ G) := by
  intro groups
  induction groups with
  | nil =>
    intro acc
    refine ⟨fun x hx => hx, fun G hG => absurd hG (by simp), ?_⟩
    intro pr hpr
    exact Or.inl hpr
  | cons G gs ih =>
    intro acc
    simp only [List.foldl_cons]
    obtain ⟨ih1, ih2, ih3⟩ := ih
      (acc.1 ++ (generatePairsGroup f G.length G acc.2).1,
       (generatePairsGroup f G.length G acc.2).2)
    refine ⟨?_, ?_, ?_⟩
    · intro x hx
      exact ih1 x (List.mem_append_left _ hx)
    · intro G2 hG2
      rcases List.mem_cons.mp hG2 with rfl | hG3
      · refine ⟨acc.2, ?_⟩
        intro pr hpr
        exact ih1 pr (List.mem_append_right _ hpr)
      · obtain ⟨k2, hk2⟩ := ih2 G2 hG3
        exact ⟨k2, hk2⟩
    · intro pr hpr
      rcases ih3 pr hpr with h1 | ⟨G2, hG2, h2⟩
      · rcases List.mem_append.mp h1 with h2 | h2
        · exact Or.inl h2
        · right
          refine ⟨G, List.mem_cons_self G gs, ?_⟩
          exact generatePairsGroup_mem f G.length G acc.2 pr h2
      · exact Or.inr ⟨G2, List.mem_cons_of_mem _ hG2, h2⟩

/-- Folding `unite` over a pair list: classes are the closure of the
starting classes under the pairs. -/
theorem dsuUniteAll_spec :
    ∀ (ps : List (Nat × Nat)) (d0 d : DSU),
      (∀ p ∈ ps, (p.1 < d0.parent.length ∧ p.2 < d0.parent.length) ∨
        p.1 = p.2) →
      DSUBounded d0 → d0.TotalRoots →
      dsuUniteAll d0 ps = some d →
      d.parent.length = d0.parent.length ∧ DSUBounded d ∧
      d.TotalRoots ∧
      (∀ p ∈ ps, d.EquivCls p.1 p.2) ∧
      (∀ x y, d0.EquivCls x y → d.EquivCls x y) ∧
      (∀ x y, d.EquivCls x y → Relation.EqvGen
        (fun u v => d0.EquivCls u v ∨ (u, v) ∈ ps) x y) := by
  intro ps
  induction ps with
  | nil =>
    intro d0 d _ hbnd htot hrun
    simp only [dsuUniteAll] at hrun
    obtain rfl := Option.some.inj hrun
    refine ⟨rfl, hbnd, htot, fun p hp => absurd hp (by simp),
      fun x y h => h, ?_⟩
    intro x y h
    exact Relation.EqvGen.rel x y (Or.inl h)
  | cons p rest ih =>
    intro d0 d hin hbnd htot hrun
    simp only [dsuUniteAll] at hrun
    cases hu : d0.unite p.1 p.2 with
    | none =>
      rw [hu] at hrun
      exact Option.noConfusion hrun
    | some pr =>
      obtain ⟨fl, d1⟩ := pr
      simp only [hu] at hrun
      have hab : (p.1 < d0.parent.length ∧ p.2 < d0.parent.length) ∨
          p.1 = p.2 := hin p (List.mem_cons_self p rest)
      obtain ⟨hulen, hubnd, hucls⟩ := unite_spec hbnd hab hu
      have hutot : d1.TotalRoots := by
        intro x
        obtain ⟨r, hr⟩ := htot x
        obtain ⟨r2, hr2, _⟩ := (hucls x x).mpr (Or.inl ⟨r, hr, hr⟩)
        exact ⟨r2, hr2⟩
      obtain ⟨hdlen, hdbnd, hdtot, hdpairs, hdmono, hdsound⟩ :=
        ih d1 d (fun q hq => by
          rw [hulen]
          exact hin q (List.mem_cons_of_mem _ hq)) hubnd hutot hrun
      refine ⟨by rw [hdlen, hulen], hdbnd, hdtot, ?_, ?_, ?_⟩
      · intro q hq
        rcases List.mem_cons.mp hq with rfl | hq2
        · refine hdmono _ _ ((hucls _ _).mpr (Or.inr (Or.inl
            ⟨?_, ?_⟩)))
          · obtain ⟨r, hr⟩ := htot q.1
            exact ⟨r, hr, hr⟩
          · obtain ⟨r, hr⟩ := htot q.2
            exact ⟨r, hr, hr⟩
        · exact hdpairs q hq2
      · intro x y h
        exact hdmono x y ((hucls x y).mpr (Or.inl h))
      · intro x y h
        refine eqvGen_mono_map ?_ (hdsound x y h)
        rintro u v (h1 | h1)
        · rcases (hucls u v).mp h1 with h2 | ⟨h2, h3⟩ | ⟨h2, h3⟩
          · exact Relation.EqvGen.rel u v (Or.inl h2)
          · refine Relation.EqvGen.trans u _ v
              (Relation.EqvGen.rel _ _ (Or.inl h2)) ?_
            refine Relation.EqvGen.trans _ _ v
              (Relation.EqvGen.rel _ _ (Or.inr (by
                show (p.1, p.2) ∈ p :: rest
                rw [show (p.1, p.2) = p from rfl]
                exact List.mem_cons_self p rest))) ?_
            exact Relation.EqvGen.symm _ _
              (Relation.EqvGen.rel _ _ (Or.inl h3))
          · refine Relation.EqvGen.trans u _ v
              (Relation.EqvGen.rel _ _ (Or.inl h2)) ?_
            refine Relation.EqvGen.trans _ _ v
              (Relation.EqvGen.symm _ _ (Relation.EqvGen.rel _ _
                (Or.inr (by
                  show (p.1, p.2) ∈ p :: rest
                  rw [show (p.1, p.2) = p from rfl]
                  exact List.mem_cons_self p rest)))) ?_
            exact Relation.EqvGen.symm _ _
              (Relation.EqvGen.rel _ _ (Or.inl h3))
        · exact Relation.EqvGen.rel u v
            (Or.inr (List.mem_cons_of_mem _ h1))

/-- Setting a bit to `true` never clears another `true` bit. -/
theorem getD_set_true_persist (flags : List Bool) (a v : Nat)
    (h : flags.getD v false = true) :
    (flags.set a true).getD v false = true := by
  by_cases hav : a = v
  · subst hav
    by_cases hlt : a < flags.length
    · rw [list_getD_set_self _ _ _ _ hlt]
    · rw [List.set_eq_of_length_le (by omega)]
      exact h
  · rw [list_getD_set_ne _ _ _ _ _ hav]
    exact h

/-- A registered (in-range) terminal endpoint is flagged. -/
theorem terminalFlags_true {n : Nat} :
    ∀ (terminals : List (Nat × Nat)) (flags0 : List Bool),
      flags0.length = n →
      ∀ v, ((∃ p ∈ terminals, (v = p.1 ∨ v = p.2) ∧ v < n) ∨
          flags0.getD v false = true) →
      (terminals.foldl (fun flags p =>
        (flags.set p.1 true).set p.2 true) flags0).getD v false
        = true := by
  intro terminals
  induction terminals with
  | nil =>
    intro flags0 hlen v hv
    rcases hv with ⟨p, hp, _⟩ | hv
    · exact absurd hp (by simp)
    · exact hv
  | cons q rest ih =>
    intro flags0 hlen v hv
    rw [List.foldl_cons]
    refine ih _ (by simp only [List.length_set]; exact hlen) v ?_
    rcases hv with ⟨p, hp, hvp, hvn⟩ | hv
    · rcases List.mem_cons.mp hp with rfl | hp2
      · right
        rcases hvp with hv1 | hv2
        · refine getD_set_true_persist _ _ _ ?_
          rw [hv1]
          rw [list_getD_set_self _ _ _ _ (by
            rw [hlen]
            exact hv1 ▸ hvn)]
        · rw [hv2]
          rw [list_getD_set_self _ _ _ _ (by
            simp only [List.length_set]
            rw [hlen]
            exact hv2 ▸ hvn)]
      · exact Or.inl ⟨p, hp2, hvp, hvn⟩
    · right
      exact getD_set_true_persist _ _ _
        (getD_set_true_persist _ _ _ hv)

/-- The root-collecting fold of `preprocessTerminalGroups`. -/
theorem groupFold_spec {isT : List Bool} :
    ∀ (l : List Nat) (acc out : List (Nat × Nat) × DSU),
      l.foldl (fun acc i =>
        match acc with
        | none => none
        | some (l, d) =>
          if isT.getD i false = true then
            match d.find i with
            | none => none
            | some (r, d2) => some (l ++ [(i, r)], d2)
          else some (l, d)) (some acc) = some out →
      (∀ x ∈ acc.1, x ∈ out.1) ∧
      (∀ i ∈ l, isT.getD i false = true →
        ∃ r, (i, r) ∈ out.1 ∧ Reaches acc.2.parent i r) ∧
      (∀ pr ∈ out.1, pr ∈ acc.1 ∨ pr.1 ∈ l) := by
  intro l
  induction l with
  | nil =>
    intro acc out hrun
    simp only [List.foldl_nil] at hrun
    obtain rfl := Option.some.inj hrun
    exact ⟨fun x hx => hx, fun i hi => absurd hi (by simp),
      fun pr hpr => Or.inl hpr⟩
  | cons i rest ih =>
    intro acc out hrun
    obtain ⟨accl, accd⟩ := acc
    rw [List.foldl_cons] at hrun
    have hstep : (match some (accl, accd) with
      | none => none
      | some (l, d) =>
        if isT.getD i false = true then
          match d.find i with
          | none => none
          | some (r, d2) => some (l ++ [(i, r)], d2)
        else some (l, d)) = (if isT.getD i false = true then
          match accd.find i with
          | none => none
          | some (r, d2) => some (accl ++ [(i, r)], d2)
        else some (accl, accd)) := rfl
    rw [hstep] at hrun
    by_cases hT : isT.getD i false = true
    · rw [if_pos hT] at hrun
      cases hf : accd.find i with
      | none =>
        simp only [hf] at hrun
        rw [foldl_none _ (fun a => rfl)] at hrun
        exact Option.noConfusion hrun
      | some pr =>
        obtain ⟨r, d2⟩ := pr
        simp only [hf] at hrun
        obtain ⟨hreach, _, _, _, hcls, _⟩ := find_spec hf
        obtain ⟨ih1, ih2, ih3⟩ := ih (accl ++ [(i, r)], d2) out hrun
        refine ⟨?_, ?_, ?_⟩
        · intro x hx
          exact ih1 x (List.mem_append_left _ hx)
        · intro k hk hkT
          rcases List.mem_cons.mp hk with rfl | hk2
          · exact ⟨r, ih1 (k, r) (List.mem_append_right _
              (List.mem_singleton_self _)), hreach⟩
          · obtain ⟨rk, hrk1, hrk2⟩ := ih2 k hk2 hkT
            exact ⟨rk, hrk1, (hcls k rk).mp hrk2⟩
        · intro pr hpr
          rcases ih3 pr hpr with h1 | h1
          · rcases List.mem_append.mp h1 with h2 | h2
            · exact Or.inl h2
            · right
              rw [List.mem_singleton.mp h2]
              exact List.mem_cons_self i rest
          · exact Or.inr (List.mem_cons_of_mem _ h1)
    · rw [if_neg hT] at hrun
      obtain ⟨ih1, ih2, ih3⟩ := ih (accl, accd) out hrun
      refine ⟨ih1, ?_, ?_⟩
      · intro k hk hkT
        rcases List.mem_cons.mp hk with rfl | hk2
        · exact absurd hkT hT
        · exact ih2 k hk2 hkT
      · intro pr hpr
        rcases ih3 pr hpr with h1 | h1
        · exact Or.inl h1
        · exact Or.inr (List.mem_cons_of_mem _ h1)

theorem one_lt_length_of_two_mem {l : List Nat} {a b : Nat}
    (ha : a ∈ l) (hb : b ∈ l) (hab : a ≠ b) : 1 < l.length := by
  cases l with
  | nil => exact absurd ha (by simp)
  | cons x t =>
    cases t with
    | nil =>
      rw [List.mem_singleton] at ha hb
      exact absurd (ha.trans hb.symm) hab
    | cons y t2 =>
      simp only [List.length_cons]
      omega

/-- Every terminal pair with distinct endpoints lands in one kept group
of in-range vertices. -/
theorem preprocess_groups {nNodes : Nat} {terminals : List (Nat × Nat)}
    {groups : List (List Nat)}
    (hterm : ∀ p ∈ terminals, p.1 < nNodes ∧ p.2 < nNodes)
    (hrun : preprocessTerminalGroups nNodes terminals = some groups) :
    ∀ p ∈ terminals, p.1 ≠ p.2 →
      ∃ G ∈ groups, p.1 ∈ G ∧ p.2 ∈ G ∧ ∀ x ∈ G, x < nNodes := by
  simp only [preprocessTerminalGroups] at hrun
  split at hrun
  · exact Option.noConfusion hrun
  · rename_i d hunite
    have hUspec := dsuUniteAll_spec terminals (DSU.init nNodes) d
      (fun p hp => Or.inl (by
        rw [dsu_init_parent_length]
        exact hterm p hp))
      (dsuBounded_init nNodes) (totalRoots_init nNodes) hunite
    obtain ⟨hdlen, hdbnd, hdtot, hdpairs, _, hdsound⟩ := hUspec
    split at hrun
    · exact Option.noConfusion hrun
    · rename_i pairs dfin hfold
      obtain rfl := Option.some.inj hrun
      obtain ⟨_, hP2, hP3⟩ := groupFold_spec (List.range nNodes)
        (([] : List (Nat × Nat)), d) (pairs, dfin) hfold
      have hroot_lt : ∀ a r2, a < nNodes → Reaches d.parent a r2 →
          r2 < nNodes := by
        intro a r2 ha hr
        have hcls : d.EquivCls a r2 :=
          ⟨r2, hr, reaches_root_self (reaches_root hr)⟩
        have hiff : ∀ {x y : Nat}, Relation.EqvGen (fun u v =>
            (DSU.init nNodes).EquivCls u v ∨ (u, v) ∈ terminals) x y →
            (x < nNodes ↔ y < nNodes) := by
          intro x y h
          induction h with
          | rel u v huv =>
            rcases huv with h1 | h1
            · rw [equivCls_init] at h1
              rw [h1]
            · obtain ⟨h2, h3⟩ := hterm (u, v) h1
              simp [h2, h3]
          | refl u => exact Iff.rfl
          | symm u v _ ihc => exact ihc.symm
          | trans u v w _ _ ihc1 ihc2 => exact ihc1.trans ihc2
        exact (hiff (hdsound a r2 hcls)).mp ha
      intro p hp hne
      obtain ⟨ha, hb⟩ := hterm p hp
      have hta : (terminalFlags nNodes terminals).getD p.1 false
          = true := by
        refine terminalFlags_true terminals (List.replicate nNodes false)
          (by simp) p.1 (Or.inl ⟨p, hp, Or.inl rfl, ha⟩)
      have htb : (terminalFlags nNodes terminals).getD p.2 false
          = true := by
        refine terminalFlags_true terminals (List.replicate nNodes false)
          (by simp) p.2 (Or.inl ⟨p, hp, Or.inr rfl, hb⟩)
      obtain ⟨ra, hra_mem, hra⟩ := hP2 p.1 (List.mem_range.mpr ha) hta
      obtain ⟨rb, hrb_mem, hrb⟩ := hP2 p.2 (List.mem_range.mpr hb) htb
      have hrarb : ra = rb := by
        obtain ⟨r0, h1, h2⟩ := hdpairs p hp
        have e1 : ra = r0 := reaches_functional hra h1
        have e2 : rb = r0 := reaches_functional hrb h2
        rw [e1, e2]
      have hralt : ra < nNodes := hroot_lt p.1 ra ha hra
      refine ⟨(pairs.filter (fun pr => decide (pr.2 = ra))).map
        Prod.fst, ?_, ?_, ?_, ?_⟩
      · rw [List.mem_filter]
        constructor
        · rw [List.mem_map]
          exact ⟨ra, List.mem_range.mpr hralt, rfl⟩
        · rw [decide_eq_true_iff]
          refine one_lt_length_of_two_mem ?_ ?_ hne
          · rw [List.mem_map]
            exact ⟨(p.1, ra), List.mem_filter.mpr ⟨hra_mem,
              decide_eq_true rfl⟩, rfl⟩
          · rw [List.mem_map]
            refine ⟨(p.2, rb), List.mem_filter.mpr ⟨hrb_mem,
              decide_eq_true hrarb.symm⟩, rfl⟩
      · rw [List.mem_map]
        exact ⟨(p.1, ra), List.mem_filter.mpr ⟨hra_mem,
          decide_eq_true rfl⟩, rfl⟩
      · rw [List.mem_map]
        exact ⟨(p.2, rb), List.mem_filter.mpr ⟨hrb_mem,
          decide_eq_true hrarb.symm⟩, rfl⟩
      · intro x hx
        rw [List.mem_map] at hx
        obtain ⟨pr, hpr, hprx⟩ := hx
        have hpr2 := (List.mem_filter.mp hpr).1
        rcases hP3 pr hpr2 with h1 | h1
        · exact absurd h1 (by simp)
        · rw [← hprx]
          exact List.mem_range.mp h1

/-- Every edge index of a walk is in range. -/
theorem walk_mem_lt {ca : Bool} {g : Graph} {s v : Nat} {es : List Nat}
    (h : Walk ca g s v es) : ∀ i ∈ es, i < g.edges.length := by
  induction h with
  | nil =>
    intro i hi
    simp at hi
  | @cons u0 v0 es0 i0 hw2 he ih =>
    intro x hx
    rcases List.mem_append.mp hx with h1 | h1
    · exact ih x h1
    · rw [List.mem_singleton.mp h1]
      exact he.1

theorem weightsOnly_symm {g P : Graph} (h : WeightsOnly g P)
    (hnn : NonnegW g) : WeightsOnly P g :=
  ⟨h.nn.symm, h.ne.symm, h.ptrs.symm, h.len.symm,
    fun x => (h.src x).symm, fun x => (h.tgt x).symm,
    fun x => (h.rev x).symm, fun x => (h.act x).symm, hnn⟩

theorem generateAbsorb_weightsOnly {g : Graph} :
    ∀ (pathEdges : List Nat) (sol : SFPSolution) (gw : Graph),
      WeightsOnly g gw →
      WeightsOnly g (generateAbsorb g sol gw pathEdges).2 := by
  intro pathEdges
  induction pathEdges with
  | nil =>
    intro sol gw h
    rw [generateAbsorb_nil]
    exact h
  | cons e rest ih =>
    intro sol gw h
    rw [generateAbsorb_cons]
    exact ih _ _ (weightsOnly_zeroPathEdge h e)

theorem insertLe_mem_intro {a : Nat × Nat × ℚ} :
    ∀ {l : List (Nat × Nat × ℚ)} {x : Nat × Nat × ℚ},
      (x = a ∨ x ∈ l) → x ∈ insertLe a l := by
  intro l
  induction l with
  | nil =>
    intro x hx
    rcases hx with rfl | hx
    · exact List.mem_singleton_self _
    · exact absurd hx (by simp)
  | cons b rest ih =>
    intro x hx
    simp only [insertLe]
    by_cases hle : a.2.2 ≤ b.2.2
    · rw [if_pos hle]
      rcases hx with rfl | hx
      · exact List.mem_cons_self _ _
      · exact List.mem_cons_of_mem _ hx
    · rw [if_neg hle]
      rcases hx with rfl | hx
      · exact List.mem_cons_of_mem _ (ih (Or.inl rfl))
      · rcases List.mem_cons.mp hx with rfl | hx2
        · exact List.mem_cons_self _ _
        · exact List.mem_cons_of_mem _ (ih (Or.inr hx2))

theorem sortByCost_mem_intro {x : Nat × Nat × ℚ} :
    ∀ {l : List (Nat × Nat × ℚ)}, x ∈ l → x ∈ sortByCost l := by
  intro l
  induction l with
  | nil =>
    intro h
    exact absurd h (by simp)
  | cons a rest ih =>
    intro h
    simp only [sortByCost]
    rcases List.mem_cons.mp h with rfl | h2
    · exact insertLe_mem_intro (Or.inl rfl)
    · exact insertLe_mem_intro (Or.inr (ih h2))

/-- An element different from the erased slot survives `eraseIdx`. -/
theorem mem_eraseIdx_of_ne {l : List (Nat × Nat × ℚ)}
    {x : Nat × Nat × ℚ} {i : Nat} (hx : x ∈ l) (hi : i < l.length)
    (hne : x ≠ l.getD i (0, 0, 0)) : x ∈ l.eraseIdx i := by
  obtain ⟨p, hp, hpx⟩ := List.mem_iff_getElem.mp hx
  have hpi : p ≠ i := by
    intro hh
    subst hh
    refine hne ?_
    rw [List.getD_eq_getElem?_getD, List.getElem?_eq_getElem hp]
    exact hpx.symm
  rw [List.mem_iff_getElem]
  have hlen : (l.eraseIdx i).length = l.length - 1 := by
    rw [List.length_eraseIdx, if_pos hi]
  by_cases hplt : p < i
  · refine ⟨p, ?_, ?_⟩
    · rw [hlen]
      omega
    · rw [List.getElem_eraseIdx]
      rw [dif_pos hplt]
      exact hpx
  · have hpgt : i < p := by omega
    refine ⟨p - 1, ?_, ?_⟩
    · rw [hlen]
      omega
    · rw [List.getElem_eraseIdx]
      rw [dif_neg (by omega)]
      have hq : p - 1 + 1 = p := by omega
      simp only [hq]
      exact hpx

/-- Every kept group consists of in-range vertices. -/
theorem preprocess_groups_lt {nNodes : Nat}
    {terminals : List (Nat × Nat)} {groups : List (List Nat)}
    (hrun : preprocessTerminalGroups nNodes terminals = some groups) :
    ∀ G ∈ groups, ∀ x ∈ G, x < nNodes := by
  simp only [preprocessTerminalGroups] at hrun
  split at hrun
  · exact Option.noConfusion hrun
  · rename_i d hunite
    split at hrun
    · exact Option.noConfusion hrun
    · rename_i pairs dfin hfold
      obtain rfl := Option.some.inj hrun
      obtain ⟨_, _, hP3⟩ := groupFold_spec (List.range nNodes)
        (([] : List (Nat × Nat)), d) (pairs, dfin) hfold
      intro G hG x hx
      rw [List.mem_filter] at hG
      rw [List.mem_map] at hG
      obtain ⟨⟨r2, _, hGr⟩, _⟩ := hG
      rw [← hGr] at hx
      rw [List.mem_map] at hx
      obtain ⟨pr, hpr, hprx⟩ := hx
      have hpr2 := (List.mem_filter.mp hpr).1
      rcases hP3 pr hpr2 with h1 | h1
      · exact absurd h1 (by simp)
      · rw [← hprx]
        exact List.mem_range.mp h1

/-- The RCL loop connects every candidate pair it is given, and loses no
active edge. -/
theorem generateLoop_conn {ca : Bool} {g : Graph} (m : MirrorWF g)
    (w : CsrWF g) (hnn : NonnegW g) (hg : GConnected ca g) {alpha : ℚ}
    (halpha : alpha ≤ 1) {f : Nat → Nat} {dfuel : Nat} :
    ∀ (fuel : Nat) (cl : List (Nat × Nat × ℚ)) (sol : SFPSolution)
      (gw : Graph) (eng : DijkstraEngine) (k : Nat) (out : SFPSolution),
      WeightsOnly g gw → eng.engWFb = true → eng.nNodes = g.nNodes →
      SymBitset g sol → costConsistent g sol →
      (∀ c ∈ cl, c.1 < g.nNodes ∧ c.2.1 < g.nNodes) →
      generateLoop ca g alpha f dfuel fuel sol gw eng cl k = some out →
      (∀ e, sol.isEdgeActive e = true → out.isEdgeActive e = true) ∧
      (∀ c ∈ cl, SolConn g out c.1 c.2.1) := by
  intro fuel
  induction fuel with
  | zero =>
    intro cl sol gw eng k out _ _ _ _ _ _ hrun
    cases cl with
    | nil =>
      simp only [generateLoop] at hrun
      obtain rfl := Option.some.inj hrun
      exact ⟨fun e he => he, fun c hc => absurd hc (by simp)⟩
    | cons c cs =>
      simp only [generateLoop] at hrun
      exact Option.noConfusion hrun
  | succ fuel ih =>
    intro cl sol gw eng k out hwo heng hengn hsym hcost hcl hrun
    cases cl with
    | nil =>
      simp only [generateLoop] at hrun
      obtain rfl := Option.some.inj hrun
      exact ⟨fun e he => he, fun c hc => absurd hc (by simp)⟩
    | cons c cs =>
      have hgwcsr : CsrWF gw :=
        csrWF_transfer w hwo.nn hwo.ne hwo.ptrs hwo.len hwo.src hwo.tgt
      have hgwnn : NonnegW gw := hwo.wnn
      simp only [generateLoop] at hrun
      split at hrun
      · exact Option.noConfusion hrun
      · rename_i cl2 eng1 hup
        split at hrun
        · exact Option.noConfusion hrun
        · rename_i pathEdges cst eng2 hgs
          have hU := updateCosts_spec hgwcsr hgwnn (c :: cs) eng
            (cl2, eng1) heng (by rw [hengn, hwo.nn]) (fun q hq => by
              rw [hwo.nn]
              exact (hcl q hq).1) hup
          have heng1 : eng1.engWFb = true := hU.1
          have heng1n : eng1.nNodes = g.nNodes := by
            rw [hU.2.1, hwo.nn]
          have hmapeq : cl2.map (fun c => (c.1, c.2.1))
              = (c :: cs).map (fun c => (c.1, c.2.1)) := hU.2.2
          have hlen2 : cl2.length = cs.length + 1 := by
            have := congrArg List.length hmapeq
            simp only [List.length_map, List.length_cons] at this
            exact this
          have hslen : (sortByCost cl2).length = cs.length + 1 := by
            rw [sortByCost_length, hlen2]
          have hrcl : max 1 (Int.toNat
              ⌊((sortByCost cl2).length : ℚ) * alpha⌋)
              ≤ (sortByCost cl2).length := by
            refine rcl_le ?_ halpha
            rw [hslen]
            omega
          have hselidx : f k % max 1 (Int.toNat
              ⌊((sortByCost cl2).length : ℚ) * alpha⌋)
              < (sortByCost cl2).length := by
            have h2 : 0 < max 1 (Int.toNat
                ⌊((sortByCost cl2).length : ℚ) * alpha⌋) := by
              omega
            exact Nat.lt_of_lt_of_le (Nat.mod_lt _ h2) hrcl
          have hpairmem : (sortByCost cl2).getD (f k % max 1 (Int.toNat
              ⌊((sortByCost cl2).length : ℚ) * alpha⌋)) (0, 0, 0)
              ∈ cl2 :=
            sortByCost_mem (list_getD_mem _ _ _ hselidx)
          have hpair_of : ∀ q ∈ cl2, ∃ c0 ∈ c :: cs,
              (q.1, q.2.1) = (c0.1, c0.2.1) := by
            intro q hq
            have h2 : (q.1, q.2.1) ∈ cl2.map (fun c => (c.1, c.2.1)) :=
              List.mem_map.mpr ⟨q, hq, rfl⟩
            rw [hmapeq] at h2
            obtain ⟨c0, hc0, hc0eq⟩ := List.mem_map.mp h2
            exact ⟨c0, hc0, hc0eq.symm⟩
          obtain ⟨c0, hc0mem, hc0eq⟩ := hpair_of _ hpairmem
          rw [Prod.mk.injEq] at hc0eq
          have hpair1 : ((sortByCost cl2).getD (f k % max 1 (Int.toNat
              ⌊((sortByCost cl2).length : ℚ) * alpha⌋)) (0, 0, 0)).1
              < g.nNodes := by
            rw [hc0eq.1]
            exact (hcl c0 hc0mem).1
          have hpair2 : ((sortByCost cl2).getD (f k % max 1 (Int.toNat
              ⌊((sortByCost cl2).length : ℚ) * alpha⌋)) (0, 0, 0)).2.1
              < g.nNodes := by
            rw [hc0eq.2]
            exact (hcl c0 hc0mem).2
          have hE2 := getShortPath_engine hgwcsr hgwnn heng1
            (by rw [heng1n, hwo.nn]) (by rw [hwo.nn]; exact hpair1) hgs
          have hcases := getShortPath_cases hgwcsr hgwnn heng1
            (by rw [heng1n, hwo.nn]) (by rw [hwo.nn]; exact hpair1) hgs
          have hwalkE : Walk ca gw ((sortByCost cl2).getD (f k % max 1
              (Int.toNat ⌊((sortByCost cl2).length : ℚ) * alpha⌋))
              (0, 0, 0)).1 ((sortByCost cl2).getD (f k % max 1
              (Int.toNat ⌊((sortByCost cl2).length : ℚ) * alpha⌋))
              (0, 0, 0)).2.1 pathEdges.reverse := by
            rcases hcases with ⟨_, _, hnowalk⟩ | ⟨_, hwalk, _⟩
            · exfalso
              obtain ⟨es, hes⟩ := hg _ _ hpair1 hpair2
              exact hnowalk (by rw [hwo.nn]; exact hpair2)
                ⟨es, walk_transfer hwo hes⟩
            · exact hwalk
          have hwalkG : Walk ca g ((sortByCost cl2).getD (f k % max 1
              (Int.toNat ⌊((sortByCost cl2).length : ℚ) * alpha⌋))
              (0, 0, 0)).1 ((sortByCost cl2).getD (f k % max 1
              (Int.toNat ⌊((sortByCost cl2).length : ℚ) * alpha⌋))
              (0, 0, 0)).2.1 pathEdges.reverse :=
            walk_transfer (weightsOnly_symm hwo hnn) hwalkE
          obtain ⟨habsMono, habsPath⟩ :=
            generateAbsorb_active m pathEdges sol gw hsym
          obtain ⟨habsCost, habsSym⟩ :=
            generateAbsorb_preserves m pathEdges sol gw hsym hcost
          have hconnSel : SolConn g
              (generateAbsorb g sol gw pathEdges).1
              ((sortByCost cl2).getD (f k % max 1 (Int.toNat
                ⌊((sortByCost cl2).length : ℚ) * alpha⌋)) (0, 0, 0)).1
              ((sortByCost cl2).getD (f k % max 1 (Int.toNat
                ⌊((sortByCost cl2).length : ℚ) * alpha⌋))
                (0, 0, 0)).2.1 := by
            refine solConn_of_walk m habsSym hwalkG ?_
            intro i hi
            have hilt : i < g.edges.length := by
              have h2 := walk_mem_lt hwalkE i hi
              rw [hwo.len] at h2
              exact h2
            exact habsPath i (List.mem_reverse.mp hi) hilt
          obtain ⟨ihmono, ihconn⟩ := ih _ _ _ _ _ _
            (generateAbsorb_weightsOnly pathEdges sol gw hwo)
            hE2.1 (by rw [hE2.2, heng1n]) habsSym habsCost
            (fun q hq => by
              have hq2 : q ∈ cl2 := sortByCost_mem
                ((List.eraseIdx_sublist _ _).mem hq)
              obtain ⟨c1, hc1mem, hc1eq⟩ := hpair_of q hq2
              rw [Prod.mk.injEq] at hc1eq
              rw [hc1eq.1, hc1eq.2]
              exact hcl c1 hc1mem) hrun
          refine ⟨fun e he => ihmono e (habsMono e he), ?_⟩
          intro c1 hc1
          have hc1p : (c1.1, c1.2.1) ∈ cl2.map (fun c => (c.1, c.2.1)) := by
            rw [hmapeq]
            exact List.mem_map.mpr ⟨c1, hc1, rfl⟩
          obtain ⟨q, hqmem, hqeq⟩ := List.mem_map.mp hc1p
          rw [Prod.mk.injEq] at hqeq
          have hq1 := hqeq.1
          have hq2 := hqeq.2
          by_cases hsame : (q.1, q.2.1)
              = (((sortByCost cl2).getD (f k % max 1 (Int.toNat
                ⌊((sortByCost cl2).length : ℚ) * alpha⌋)) (0, 0, 0)).1,
               ((sortByCost cl2).getD (f k % max 1 (Int.toNat
                ⌊((sortByCost cl2).length : ℚ) * alpha⌋))
                (0, 0, 0)).2.1)
          · rw [Prod.mk.injEq] at hsame
            rw [← hq1, ← hq2, hsame.1, hsame.2]
            exact solConn_mono ihmono hconnSel
          · have hqsorted : q ∈ sortByCost cl2 := sortByCost_mem_intro hqmem
            have hqne : q ≠ (sortByCost cl2).getD (f k % max 1 (Int.toNat
                ⌊((sortByCost cl2).length : ℚ) * alpha⌋)) (0, 0, 0) := by
              intro hh
              exact hsame (by rw [hh])
            have hqer : q ∈ (sortByCost cl2).eraseIdx (f k % max 1
                (Int.toNat ⌊((sortByCost cl2).length : ℚ) * alpha⌋)) :=
              mem_eraseIdx_of_ne hqsorted hselidx hqne
            rw [← hq1, ← hq2]
            exact ihconn q hqer

/-- The constructive heuristic connects every terminal pair: the RCL
loop receives one candidate per generated pair, every generated pair
stays inside its terminal group, and the group-drawing recursion spans
the whole group. -/
theorem generate_feasible {ca : Bool} {g : Graph}
    {terminals : List (Nat × Nat)} {alpha : ℚ} {f : Nat → Nat}
    {dfuel : Nat} {out : SFPSolution} (m : MirrorWF g) (w : CsrWF g)
    (hnn : NonnegW g) (hg : GConnected ca g)
    (hterm : ∀ p ∈ terminals, p.1 < g.nNodes ∧ p.2 < g.nNodes)
    (halpha : alpha ≤ 1)
    (hrun : generate ca g terminals alpha f dfuel = some out) :
    ∀ p ∈ terminals, SolConn g out p.1 p.2 := by
  simp only [generate] at hrun
  split at hrun
  · exact Option.noConfusion hrun
  · rename_i groups hpre
    have hglt := preprocess_groups_lt hpre
    obtain ⟨hsub, hgrp, hfrom⟩ := generatePairs_spec f groups ([], 0)
    have hcl : ∀ c ∈ (generatePairs f groups 0).1.map
        (fun p => (p.1, p.2, fltMax)),
        c.1 < g.nNodes ∧ c.2.1 < g.nNodes := by
      intro c hc
      obtain ⟨pr, hpr, hpreq⟩ := List.mem_map.mp hc
      rcases hfrom pr hpr with h1 | ⟨G, hG, h1, h2⟩
      · exact absurd h1 (by simp)
      · rw [← hpreq]
        exact ⟨hglt G hG pr.1 h1, hglt G hG pr.2 h2⟩
    obtain ⟨_, hconn⟩ := generateLoop_conn m w hnn hg halpha
      _ _ _ _ _ _ _ (weightsOnly_refl hnn) (engWFb_init g.nNodes) rfl
      (symBitset_empty g) (costConsistent_empty g) hcl hrun
    intro p hp
    by_cases hpe : p.1 = p.2
    · rw [hpe]
      exact Relation.EqvGen.refl p.2
    · obtain ⟨G, hG, hp1, hp2, _⟩ := preprocess_groups hterm hpre p hp hpe
      obtain ⟨k2, hk2⟩ := hgrp G hG
      refine generatePairsGroup_conn
        (fun u => Relation.EqvGen.refl u)
        (fun u v h => Relation.EqvGen.symm u v h)
        (fun u v w2 h1 h2 => Relation.EqvGen.trans u v w2 h1 h2)
        f G.length G k2 le_rfl ?_ p.1 hp1 p.2 hp2
      intro pr hpr
      have hmem := hk2 pr hpr
      have hmem2 : (pr.1, pr.2, fltMax)
          ∈ (generatePairs f groups 0).1.map
            (fun p => (p.1, p.2, fltMax)) :=
        List.mem_map.mpr ⟨pr, hmem, rfl⟩
      exact hconn _ hmem2

end SFP
